import Mathlib

/-!
Verification of the linear-engine sync / issue-operation core.

A shallow embedding of the TypeScript sources of `linear-engine`
(`src/linear/sync.ts`, `src/linear/workflow.ts`, `src/linear/project.ts`,
`src/linear/issue.ts`, `src/linear/client.ts`) together with proofs about the
claims of the specification.

The remote tracker (Linear, accessed through `LinearApiClient`) is modelled as
an explicit `World` state; each remote operation becomes a pure function on
`World`, and the operations of the engine thread that state and a trace of the
remote mutation/query calls they perform.  Machine strings are Lean `String`s;
the JavaScript string helpers used by the sources (`trim`, `toLowerCase`,
regex replacement) are modelled character-exactly below.
-/

namespace LinearEngine

/-! JavaScript string primitives.

`isJsWs` models the JavaScript `\s` character class / `String.prototype.trim`
whitespace set (ASCII whitespace, NBSP and BOM; the remaining Unicode space
separators cannot occur in the code paths treated here and are omitted). -/

def isJsWs (c : Char) : Bool :=
  c = ' ' || c = '\t' || c = '\n' || c = '\r' || c = '\x0b' || c = '\x0c' ||
  c = '\u00A0' || c = '\uFEFF'

/-- Models `String.prototype.trim` on a character list. -/
def jsTrimL (l : List Char) : List Char :=
  ((l.dropWhile isJsWs).reverse.dropWhile isJsWs).reverse

/-- Models `String.prototype.trim`. -/
def jsTrim (s : String) : String :=
  String.mk (jsTrimL s.data)

/-- Models `String.prototype.toLowerCase` (ASCII range, which is all the sources use). -/
def jsLower (s : String) : String :=
  String.mk (s.data.map Char.toLower)

/-- Case-insensitive literal matching: if `l` starts with the literal `pat`
(compared lower-cased, as under a `/i` regex flag), return the remainder. -/
def dropLitCI (pat : List Char) (l : List Char) : Option (List Char) :=
  match pat, l with
  | [], rest => some rest
  | _ :: _, [] => none
  | p :: ps, c :: cs => if c.toLower = p.toLower then dropLitCI ps cs else none

/-- Exact (case-sensitive) substring test, `String.prototype.includes`. -/
def startsWithL (pat : List Char) (l : List Char) : Bool :=
  match pat, l with
  | [], _ => true
  | _ :: _, [] => false
  | p :: ps, c :: cs => p = c && startsWithL ps cs

def containsSubL (pat : List Char) : List Char → Bool
  | [] => startsWithL pat []
  | c :: cs => startsWithL pat (c :: cs) || containsSubL pat cs

def jsIncludes (s pat : String) : Bool := containsSubL pat.data s.data

/-! The managed-metadata stripper (`stripManagedMetadata`, sync.ts:541)

The source applies three non-global regex replacements and a trim:

  1. `/\s*^---\s*\nmanagedBy:\s*linear-engine\s*\n---\s*\n?/imu`
  2. `/\s*\n?---\s*\nmanagedBy:\s*linear-engine\s*\n---\s*$/imu`
  3. `/^managedBy:\s*linear-engine\s*\n*/imu`

Each `\s*` quantifier in these patterns is followed either by a non-whitespace
literal, by `\n` (i.e. the run must end with a newline so that the following
non-whitespace literal starts right after it), or by an anchor; backtracking is
therefore determinate and every pattern compiles to the first-match scanners
below.  `/m` makes `^` match after any newline and `$` before any newline. -/

/-- Zero-width `^` under `/m`: start of input or right after a newline.
`prev` is the character immediately before the current position. -/
def lineStart (prev : Option Char) : Bool :=
  match prev with
  | none => true
  | some c => c = '\n'

/-- Matches `\s*\n` immediately followed by a non-whitespace literal: the
maximal whitespace run must be non-empty and end with a newline. -/
def wsThenNl (l : List Char) : Option (List Char) :=
  if l.takeWhile isJsWs ≠ [] ∧ (l.takeWhile isJsWs).getLast? = some '\n' then
    some (l.dropWhile isJsWs)
  else none

/-- The literal `managedBy:` then `\s*` then `linear-engine` (case-insensitive);
the heart of all three patterns.  Returns the remainder after the match. -/
def dropCore (l : List Char) : Option (List Char) :=
  match dropLitCI "managedBy:".data l with
  | none => none
  | some r => dropLitCI "linear-engine".data (r.dropWhile isJsWs)

/-- Does the core pattern `managedBy:\s*linear-engine` match at the head? -/
def coreAtB (l : List Char) : Bool := (dropCore l).isSome

/-- Does the core pattern match anywhere in `l`? -/
def hasCore : List Char → Bool
  | [] => coreAtB []
  | c :: cs => coreAtB (c :: cs) || hasCore cs

/-- Attempt pattern 1 at the current position (`prev` = preceding character).
On success, return the input with the matched span removed from the front. -/
def tryR1At (prev : Option Char) (l : List Char) : Option (List Char) :=
  if lineStart (match (l.takeWhile isJsWs).getLast? with
      | some c => some c
      | none => prev) then
    match dropLitCI "---".data (l.dropWhile isJsWs) with
    | none => none
    | some b =>
      match wsThenNl b with
      | none => none
      | some c =>
        match dropCore c with
        | none => none
        | some f =>
          match wsThenNl f with
          | none => none
          | some g =>
            match dropLitCI "---".data g with
            | none => none
            | some h => some (h.dropWhile isJsWs)
  else none

/-- The suffix of `l` that starts at its last newline, if any. -/
def suffixFromLastNl : List Char → Option (List Char)
  | [] => none
  | c :: cs =>
    match suffixFromLastNl cs with
    | some s => some s
    | none => if c = '\n' then some (c :: cs) else none

/-- Attempt pattern 2 at the current position.  The final `\s*$` (multiline)
matches greedily up to the end of input or up to the last newline of the
trailing whitespace run; the remainder after the span starts there. -/
def tryR2At (l : List Char) : Option (List Char) :=
  match dropLitCI "---".data (l.dropWhile isJsWs) with
  | none => none
  | some b =>
    match wsThenNl b with
    | none => none
    | some c =>
      match dropCore c with
      | none => none
      | some f =>
        match wsThenNl f with
        | none => none
        | some g =>
          match dropLitCI "---".data g with
          | none => none
          | some h =>
            if h.dropWhile isJsWs = [] then some []
            else
              match suffixFromLastNl (h.takeWhile isJsWs) with
              | some suf => some (suf ++ h.dropWhile isJsWs)
              | none => none

/-- Attempt pattern 3 at the current position. -/
def tryR3At (prev : Option Char) (l : List Char) : Option (List Char) :=
  if lineStart prev then
    match dropCore l with
    | none => none
    | some r => some (r.dropWhile isJsWs)
  else none

/-- First-match replacement scan shared by the three patterns: walk the string
left to right, at each position try the pattern, and on the first success drop
the matched span (the replacement string is empty). -/
def scanReplace (tryAt : Option Char → List Char → Option (List Char)) :
    Option Char → List Char → List Char → List Char
  | _, acc, [] => acc.reverse
  | prev, acc, c :: cs =>
    match tryAt prev (c :: cs) with
    | some rest => acc.reverse ++ rest
    | none => scanReplace tryAt (some c) (c :: acc) cs

def r1Replace (l : List Char) : List Char := scanReplace tryR1At none [] l
def r2Replace (l : List Char) : List Char := scanReplace (fun _ s => tryR2At s) none [] l
def r3Replace (l : List Char) : List Char := scanReplace tryR3At none [] l

/-- Body of `stripManagedMetadata` on a character list (three replacements, then trim). -/
def stripCore (l : List Char) : List Char :=
  jsTrimL (r3Replace (r2Replace (r1Replace l)))

/-- sync.ts:4 -/
def managedMetadataLine : String := "managedBy: linear-engine"

/-- sync.ts:541 `stripManagedMetadata(description)`.  A JS-falsy argument
(`null`/`undefined`/`""`) yields `""`. -/
def stripManagedMetadata (description : Option String) : String :=
  match description with
  | none => ""
  | some s => if s = "" then "" else String.mk (stripCore s.data)

/-- sync.ts:443 `ensureManagedMetadata(description)`. -/
def ensureManagedMetadata (description : String) : String :=
  let stripped := stripManagedMetadata (some description)
  if stripped = "" then managedMetadataLine
  else managedMetadataLine ++ "\n\n" ++ stripped

/-- sync.ts:553 `normalizeDescription(description)`. -/
def normalizeDescription (description : Option String) : String :=
  jsTrim (ensureManagedMetadata (stripManagedMetadata description))

/-! The input document (`src/linear/types.ts`): `ProjectSpec`, `EpicSpec`,
`StorySpec`.  Optional fields become `Option`; an absent array (`?? []` at the
use sites) is a plain list. -/

structure StorySpec where
  title : String
  description : String
  assignee : Option String := none
  milestone : Option String := none
deriving DecidableEq, Repr

structure EpicSpec where
  title : String
  description : String
  assignee : Option String := none
  milestone : Option String := none
  stories : List StorySpec := []
deriving DecidableEq, Repr

structure MilestoneSpec where
  name : String
deriving DecidableEq, Repr

/-- The `project` object of the spec is flattened into the two fields
`projectName` / `projectDescription`. -/
structure ProjectSpec where
  projectName : String
  projectDescription : String
  milestones : List MilestoneSpec := []
  epics : List EpicSpec := []
deriving DecidableEq, Repr

/-- The schema invariant enforced by `isProjectSpec` (core/index.ts): the
project name and every title are non-empty after trimming (and so are
top-level milestone names). -/
def SpecValid (spec : ProjectSpec) : Bool :=
  jsTrim spec.projectName ≠ "" &&
  spec.milestones.all (fun m => jsTrim m.name ≠ "") &&
  spec.epics.all (fun e =>
    jsTrim e.title ≠ "" && e.stories.all (fun s => jsTrim s.title ≠ ""))

/-- JS truthiness test `x?.trim()` for an optional string: the trimmed value
when it is set and non-empty after trimming, else nothing. -/
def trimmedNonempty (o : Option String) : Option String :=
  match o with
  | none => none
  | some s => if jsTrim s = "" then none else some (jsTrim s)

/-- sync.ts:478 `resolveEpicMilestoneName(spec, epic)`. -/
def resolveEpicMilestoneName (spec : ProjectSpec) (epic : EpicSpec) : Option String :=
  match trimmedNonempty epic.milestone with
  | some n => some n
  | none =>
    match spec.milestones.find? (fun m => jsTrim m.name = jsTrim epic.title) with
    | some m => if jsTrim m.name = "" then none else some (jsTrim m.name)
    | none => none

/-- sync.ts:494 `resolveStoryMilestoneName(epicMilestone, storyMilestone)`.
Note the first argument at the call site (sync.ts:235, 468) is the raw `milestone`
field of the epic, not its resolved milestone name. -/
def resolveStoryMilestoneName (epicMilestone storyMilestone : Option String) :
    Option String :=
  match trimmedNonempty storyMilestone with
  | some n => some n
  | none => trimmedNonempty epicMilestone

/-- What the specification text claims for the milestone of a story (claim C3):
the own field of the story, else the *resolved* milestone name of the epic (which
includes the fall-back to a top-level milestone matching the epic title). -/
def claimedStoryMilestoneName (spec : ProjectSpec) (epic : EpicSpec)
    (story : StorySpec) : Option String :=
  match trimmedNonempty story.milestone with
  | some n => some n
  | none => resolveEpicMilestoneName spec epic

/-! Workflow states (`src/linear/workflow.ts`). -/

structure WorkflowState where
  id : String
  name : String
  type : Option String := none
  position : Option Int := none
deriving DecidableEq, Repr

/-- Generic stable insertion sort; models the (stable) `Array.prototype.sort`
with a consistent comparator `cmp` via `le x y := cmp x y <= 0`: `x` is
inserted after every already-placed element that compares `le` to it. -/
def insSorted (le : α → α → Bool) (x : α) : List α → List α
  | [] => [x]
  | y :: t => if le y x then y :: insSorted le x t else x :: y :: t

def stableSortBy (le : α → α → Bool) (l : List α) : List α :=
  l.foldl (fun acc x => insSorted le x acc) []

/-- workflow.ts:33 comparator key `(state.position ?? 0)`. -/
def posKey (s : WorkflowState) : Int := s.position.getD 0

def sortByPosition (states : List WorkflowState) : List WorkflowState :=
  stableSortBy (fun a b => posKey a ≤ posKey b) states

/-- workflow.ts:35 `(state.type ?? "").toLowerCase() === "started"`. -/
def isStartedType (s : WorkflowState) : Bool :=
  jsLower (s.type.getD "") = "started"

/-- workflow.ts:41 `/in progress|doing|active|started/i.test(state.name)`. -/
def nameLooksActive (s : WorkflowState) : Bool :=
  let n := jsLower s.name
  jsIncludes n "in progress" || jsIncludes n "doing" ||
  jsIncludes n "active" || jsIncludes n "started"

/-- workflow.ts:3,48: type tag not in the completed/canceled set. -/
def isNonTerminalType (s : WorkflowState) : Bool :=
  let ty := jsLower (s.type.getD "")
  !(ty = "completed" || ty = "canceled")

/-- workflow.ts:28 `getFirstActiveState(states)`. -/
def getFirstActiveState (states : List WorkflowState) : Option WorkflowState :=
  if states.isEmpty then none
  else
    let sorted := sortByPosition states
    match (sorted.filter (fun s => isStartedType s)).head? with
    | some s => some s
    | none =>
      match sorted.find? (fun s => nameLooksActive s) with
      | some s => some s
      | none => sorted.find? (fun s => isNonTerminalType s)

/-- workflow.ts:5 `findStateByName(states, stateName)`. -/
def findStateByName (states : List WorkflowState) (stateName : String) :
    Option WorkflowState :=
  if jsLower (jsTrim stateName) = "" then none
  else states.find? (fun s => jsLower s.name = jsLower (jsTrim stateName))

/-- workflow.ts:17 `getStateNameById(states, stateId)`; JS-falsy ids (absent or
empty) yield "Unknown". -/
def getStateNameById (states : List WorkflowState) (stateId : Option String) :
    String :=
  match stateId with
  | none => "Unknown"
  | some i =>
    if i = "" then "Unknown"
    else
      match states.find? (fun s => s.id = i) with
      | some s => s.name
      | none => "Unknown"

/-! Project listing (`src/linear/project.ts:175`, `listProjects`) and a model
of `String.prototype.localeCompare` under the default (root) locale,
restricted to ASCII as used in the sorted fields: primary comparison is by
case-folded code points, and on a primary tie lower case sorts before upper
case (ICU root tertiary ordering). -/

def lexCmpL : List Char → List Char → Ordering
  | [], [] => .eq
  | [], _ :: _ => .lt
  | _ :: _, [] => .gt
  | a :: as, b :: bs =>
    if a = b then lexCmpL as bs
    else if a.toNat < b.toNat then .lt else .gt

/-- Tertiary (case) comparison for strings that agree after case folding:
at the first differing position the lower-case character sorts first. -/
def caseCmpL : List Char → List Char → Ordering
  | [], [] => .eq
  | [], _ :: _ => .lt
  | _ :: _, [] => .gt
  | a :: as, b :: bs =>
    if a = b then caseCmpL as bs
    else if a.toNat > b.toNat then .lt else .gt

def localeCmp (a b : String) : Ordering :=
  match lexCmpL (a.data.map Char.toLower) (b.data.map Char.toLower) with
  | .eq => caseCmpL a.data b.data
  | o => o

def ordToInt : Ordering → Int
  | .lt => -1
  | .eq => 0
  | .gt => 1

/-- Model of `a.localeCompare(b)` (sign only, which is all `sort` uses). -/
def jsLocaleCompare (a b : String) : Int := ordToInt (localeCmp a b)

/-- The raw project shape consumed by `listProjects` (project.ts:38). -/
structure ListedProjectLike where
  id : String
  name : Option String := none
  state : Option String := none
  progress : Option Int := none
  startDate : Option String := none
  targetDate : Option String := none
  leadDisplayName : Option String := none
  createdAt : Option String := none
  updatedAt : Option String := none
deriving DecidableEq, Repr

/-- The flattened record produced by `listProjects` (project.ts:67). -/
structure ListedProject where
  id : String
  name : String
  state : Option String
  progress : Option Int
  startDate : Option String
  targetDate : Option String
  leadDisplayName : Option String
  createdAt : String
  updatedAt : String
deriving DecidableEq, Repr

/-- JS `x ? String(x) : null` on an optional string (empty string is falsy). -/
def truthyString (o : Option String) : Option String :=
  match o with
  | none => none
  | some s => if s = "" then none else some s

/-- project.ts:181 mapping step of `listProjects`. -/
def flattenProject (p : ListedProjectLike) : ListedProject :=
  { id := p.id
    name := p.name.getD ""
    state := p.state
    progress := p.progress
    startDate := truthyString p.startDate
    targetDate := truthyString p.targetDate
    leadDisplayName := p.leadDisplayName
    createdAt := (truthyString p.createdAt).getD ""
    updatedAt := (truthyString p.updatedAt).getD "" }

/-- project.ts:194 comparator of `listProjects`: `localeCompare` on names when
they differ, else `localeCompare` on ids. -/
def listProjectsCmp (a b : ListedProject) : Int :=
  if a.name ≠ b.name then jsLocaleCompare a.name b.name
  else jsLocaleCompare a.id b.id

def listProjectsLe (a b : ListedProject) : Bool := listProjectsCmp a b ≤ 0

/-- project.ts:175 `listProjects` (given the already-fetched project nodes). -/
def listProjects (projects : List ListedProjectLike) : List ListedProject :=
  stableSortBy listProjectsLe (projects.map flattenProject)

/-- What claim C9 states: ascending by name under case-sensitive ordinal
(code-point) comparison, ties by identifier ascending. -/
def claimedListProjectsLe (a b : ListedProject) : Bool :=
  if a.name = b.name then lexCmpL a.id.data b.id.data ≠ Ordering.gt
  else lexCmpL a.name.data b.name.data ≠ Ordering.gt

def claimedListProjects (projects : List ListedProjectLike) : List ListedProject :=
  stableSortBy claimedListProjectsLe (projects.map flattenProject)

/-! The remote workspace (the Linear tracker behind `LinearApiClient`),
modelled as explicit state.  Capability booleans model the runtime
`typeof x === "function"` probes of the sources; `milestoneCreateWorks` models
the fact that `createProjectMilestone` reports success/failure in a result
flag that sync.ts ignores (a `false` flag is a silent creation failure). -/

structure Milestone where
  id : String
  name : String
deriving DecidableEq, Repr

structure RemoteUser where
  id : String
  name : Option String := none
  displayName : Option String := none
  email : Option String := none
deriving DecidableEq, Repr

structure Issue where
  id : String
  identifier : Option String := none
  title : String := ""
  description : Option String := none
  teamId : Option String := none
  stateId : Option String := none
  parentId : Option String := none
  projectId : Option String := none
  projectMilestoneId : Option String := none
  assigneeId : Option String := none
  assigneeObjId : Option String := none
deriving DecidableEq, Repr

structure RemoteProject where
  id : String
  name : String
  description : Option String := none
  teamId : Option String := none
  teamIds : Option (List String) := none
  hasMilestonesFn : Bool := true
  milestones : List Milestone := []
  hasTeamsFn : Bool := true
  teamsNodes : List String := []
deriving DecidableEq, Repr

/-- The whole remote state.  `freshTag` generates identifiers for created
records: each creation uses the current tag and extends it by one character,
so successive generated ids are pairwise distinct. -/
structure World where
  projects : List RemoteProject := []
  issues : List Issue := []
  users : List RemoteUser := []
  currentUser : RemoteUser
  teams : List String := []
  workflowTeams : List (String × List WorkflowState) := []
  hasTeamQueryFn : Bool := true
  hasCreateMilestoneFn : Bool := true
  milestoneCreateWorks : Bool := true
  freshTag : String := "gen"
deriving DecidableEq, Repr

/-- Trace of the remote mutation/query calls an operation performs. -/
inductive RemoteCall where
  | getProjects
  | getProjectByName (name : String)
  | createProject (name description : String)
  | updateProjectDescription (projectId description : String)
  | fetchProjectMilestones (projectId : String)
  | createMilestone (projectId name : String)
  | getIssuesByProject (projectId : String)
  | getIssueByKey (key : String)
  | findUserByIdentifier (identifier : String)
  | createIssue (id : String)
  | updateIssueAssignee (issueId assigneeId : String)
  | updateIssueDescription (issueId description : String)
  | updateIssueMilestone (issueId milestoneId : String)
  | updateIssueState (issueId stateId : String)
  | createComment (issueId body : String)
  | getWorkflowStates (teamId : String)
  | getIssuesByTitle (title : String)
  | getCurrentUser
  | getTeams
deriving DecidableEq, Repr

/-! Client query operations (`src/linear/client.ts`) as pure reads. -/

/-- client.ts:153 `getProjectByName` (case-insensitive first match).  The
callers below guard against an empty trimmed name before calling. -/
def getProjectByNameW (w : World) (name : String) : Option RemoteProject :=
  w.projects.find? (fun p => jsLower p.name = jsLower (jsTrim name))

/-- client.ts:172 `getIssuesByProject`. -/
def getIssuesByProjectW (w : World) (projectId : String) : List Issue :=
  w.issues.filter (fun i => i.projectId = some projectId)

/-- client.ts:218 `getIssueByKey`: first issue whose identifier equals the
trimmed key, else null.  Callers trim before the call; the client trims too. -/
def getIssueByKeyW (w : World) (key : String) : Option Issue :=
  w.issues.find? (fun i => i.identifier = some (jsTrim key))

/-- client.ts:113 `findUserByIdentifier`: exact id match first, then
case-insensitive match on name, display name or email. -/
def findUserByIdentifierW (w : World) (identifier : String) : Option RemoteUser :=
  let needle := jsTrim identifier
  match w.users.find? (fun u => u.id = needle) with
  | some u => some u
  | none =>
    let nl := jsLower needle
    w.users.find? (fun u =>
      jsLower (u.name.getD "") = nl ||
      jsLower (u.displayName.getD "") = nl ||
      jsLower (u.email.getD "") = nl)

/-- client.ts:240 `getWorkflowStatesByTeam`; the SDK lookup fails for an
unknown team and surfaces as a wrapped client error. -/
def getWorkflowStatesByTeamW (w : World) (teamId : String) :
    Except String (List WorkflowState) :=
  let t := jsTrim teamId
  if t = "" then .error "Team ID is required and cannot be empty."
  else if !w.hasTeamQueryFn then
    .error "Current @linear/sdk version does not expose team lookup."
  else
    match w.workflowTeams.find? (fun e => e.1 = t) with
    | some e => .ok e.2
    | none =>
      .error ("Linear API operation failed (get-workflow-states-by-team): unknown team " ++ t)

/-! Remote mutations.  Remote record identifiers are unique in the real
tracker, so an update-by-id is modelled as a map over the store. -/

def updateIssueW (w : World) (issueId : String) (f : Issue → Issue) : World :=
  { w with issues := w.issues.map (fun i => if i.id = issueId then f i else i) }

def updateProjectDescW (w : World) (projectId description : String) : World :=
  { w with projects := w.projects.map (fun p =>
      if p.id = projectId then { p with description := some description } else p) }

def addMilestoneW (w : World) (projectId : String) (m : Milestone) : World :=
  { w with projects := w.projects.map (fun p =>
      if p.id = projectId then { p with milestones := p.milestones ++ [m] } else p) }

def bumpTag (w : World) : World := { w with freshTag := w.freshTag ++ "x" }

/-- client.ts:279 `createIssue`; sync always passes an explicit assignee, so
the current-user default of the client is not modelled here.  The freshly
created record carries the generated id and no issue key. -/
def createIssueW (w : World) (teamId projectId : String) (parentId : Option String)
    (title description assigneeId : String) : Issue × World :=
  let i : Issue :=
    { id := w.freshTag, identifier := none, title := title,
      description := some description, teamId := some teamId, stateId := none,
      parentId := parentId, projectId := some projectId,
      projectMilestoneId := none, assigneeId := some assigneeId,
      assigneeObjId := none }
  (i, bumpTag { w with issues := w.issues ++ [i] })

/-- client.ts:264 `createProject` with `{name, description}` (sync.ts:88). -/
def createProjectW (w : World) (name description : String) : RemoteProject × World :=
  let p : RemoteProject :=
    { id := w.freshTag, name := name, description := some description,
      teamId := none, teamIds := none, hasMilestonesFn := true,
      milestones := [], hasTeamsFn := true, teamsNodes := [] }
  (p, bumpTag { w with projects := w.projects ++ [p] })

/-! The sync report (sync.ts:6). -/

inductive SyncStatus where
  | Created
  | Updated
  | Skipped
deriving DecidableEq, Repr

inductive SyncEntity where
  | project
  | milestone
  | epic
  | story
  | milestoneAssignment
deriving DecidableEq, Repr

structure SyncAction where
  status : SyncStatus
  entity : SyncEntity
  name : String
  reason : Option String := none
deriving DecidableEq, Repr

/-! Sync helpers (`src/linear/sync.ts`). -/

/-- JS truthiness of an optional string (`Boolean(x)`). -/
def jsTruthy (o : Option String) : Bool :=
  match o with
  | some s => s ≠ ""
  | none => false

/-- Optional string normalised by truthiness. -/
def truthyOpt (o : Option String) : Option String :=
  match o with
  | some s => if s = "" then none else some s
  | none => none

/-- sync.ts:370 `getIssueAssigneeId`: the `assigneeId` field if truthy, else
`issue.assignee?.id ?? null` (with no truthiness test on the latter). -/
def getIssueAssigneeId (i : Issue) : Option String :=
  match i.assigneeId with
  | some s => if s = "" then i.assigneeObjId else some s
  | none => i.assigneeObjId

/-- sync.ts:378 `findIssueByTitle` match predicate: exact title equality and
parent identity (`normalizeParentId` maps `undefined` to `null`). -/
def issueMatches (title : String) (parent : Option String) (i : Issue) : Bool :=
  i.title = title && i.parentId = parent

/-- First element satisfying `p` together with its position. -/
def findWithIdx (p : α → Bool) : List α → Option (Nat × α)
  | [] => none
  | x :: xs =>
    if p x then some (0, x)
    else (findWithIdx p xs).map (fun r => (r.1 + 1, r.2))

/-- JS `Set` insertion (insertion-ordered, deduplicating). -/
def insertUnique (l : List String) (s : String) : List String :=
  if s ∈ l then l else l ++ [s]

/-- sync.ts:452 `collectDesiredMilestoneNames`. -/
def collectDesiredMilestoneNames (spec : ProjectSpec) : List String :=
  let n1 := spec.milestones.foldl
    (fun acc m => if jsTrim m.name ≠ "" then insertUnique acc (jsTrim m.name) else acc) []
  spec.epics.foldl (fun acc e =>
    let acc1 := match resolveEpicMilestoneName spec e with
      | some n => insertUnique acc n
      | none => acc
    e.stories.foldl (fun acc2 st =>
      match resolveStoryMilestoneName e.milestone st.milestone with
      | some n => insertUnique acc2 n
      | none => acc2) acc1) n1

/-- Current milestone list of the project with the given id. -/
def milestonesOf (w : World) (projectId : String) : List Milestone :=
  match w.projects.find? (fun p => p.id = projectId) with
  | some p => p.milestones
  | none => []

/-- sync.ts:394 `getProjectMilestones(project, required)`: the capability
probe uses the project snapshot; the fetch reads current remote state. -/
def getProjectMilestones (w : World) (p : RemoteProject) (required : Bool) :
    Except String (List Milestone × List RemoteCall) :=
  if !p.hasMilestonesFn then
    if required then .error "Unable to query project milestones for this project."
    else .ok ([], [])
  else .ok (milestonesOf w p.id, [.fetchProjectMilestones p.id])

/-- sync.ts:410 `resolveTeamId`. -/
def resolveTeamId (w : World) (p : RemoteProject) (issues : List Issue) :
    Except String (String × List RemoteCall) :=
  let fromProject := truthyOpt p.teamId
  let fromTeamIds : Option String :=
    match p.teamIds with
    | some (t :: _) => some t
    | _ => none
  let fromIssues := truthyOpt
    ((issues.find? (fun i => (truthyOpt i.teamId).isSome)).bind (fun i => i.teamId))
  let fromProjectTeams : Option String :=
    if p.hasTeamsFn then p.teamsNodes.head? else none
  match ((fromProject.orElse (fun _ => fromTeamIds)).orElse
      (fun _ => fromIssues)).orElse (fun _ => fromProjectTeams) with
  | some t => .ok (t, [])
  | none =>
    match w.teams.head? with
    | some t => .ok (t, [.getTeams])
    | none => .error "Unable to resolve teamId for creating issues."

/-- sync.ts:336 `resolveDesiredAssigneeId`. -/
def resolveDesiredAssigneeId (w : World) (assigneeReference : Option String)
    (defaultAssigneeId : String) : Except String (String × List RemoteCall) :=
  match assigneeReference with
  | none => .ok (defaultAssigneeId, [])
  | some r =>
    if r = "" then .ok (defaultAssigneeId, [])
    else
      let n := jsTrim r
      if n = "" then .ok (defaultAssigneeId, [])
      else
        match findUserByIdentifierW w n with
        | some u => .ok (u.id, [.findUserByIdentifier n])
        | none =>
          match getIssueByKeyW w n with
          | some i =>
            match truthyOpt (getIssueAssigneeId i) with
            | some a => .ok (a, [.findUserByIdentifier n, .getIssueByKey n])
            | none =>
              .error ("Assignee reference " ++ n ++ " points to an issue without an assignee.")
          | none => .error ("Unable to resolve assignee reference: " ++ n)

/-- sync.ts:309 `syncIssueAssignee`, acting on the in-memory copy of the
issue (returned updated, as the source mutates it) and on the remote state. -/
def syncIssueAssignee (w : World) (issue : Issue) (desiredAssigneeId : String)
    (explicitAssigneeInSpec : Bool) (entity : SyncEntity) (name : String) :
    Issue × World × List SyncAction × List RemoteCall :=
  let current := getIssueAssigneeId issue
  if explicitAssigneeInSpec then
    if current ≠ some desiredAssigneeId then
      ({ issue with assigneeId := some desiredAssigneeId },
       updateIssueW w issue.id (fun j => { j with assigneeId := some desiredAssigneeId }),
       [⟨.Updated, entity, name, some "assignee set from spec"⟩],
       [.updateIssueAssignee issue.id desiredAssigneeId])
    else (issue, w, [], [])
  else
    if current = none then
      ({ issue with assigneeId := some desiredAssigneeId },
       updateIssueW w issue.id (fun j => { j with assigneeId := some desiredAssigneeId }),
       [⟨.Updated, entity, name, some "Assigned issue to current user"⟩],
       [.updateIssueAssignee issue.id desiredAssigneeId])
    else (issue, w, [], [])

/-- sync.ts:511 `attachIssueToMilestone`: look the project up among all
projects, probe the milestone capability, find the milestone by exact trimmed
name, and if found always set the issue milestone reference. -/
def attachIssueToMilestone (w : World) (issueId projectId milestoneName : String) :
    Bool × World × List RemoteCall :=
  let n := jsTrim milestoneName
  if n = "" then (false, w, [])
  else
    match w.projects.find? (fun c => c.id = projectId) with
    | none => (false, w, [.getProjects])
    | some proj =>
      if !proj.hasMilestonesFn then (false, w, [.getProjects])
      else
        match proj.milestones.find? (fun m => m.name = n) with
        | none => (false, w, [.getProjects, .fetchProjectMilestones projectId])
        | some m =>
          (true,
           updateIssueW w issueId (fun j => { j with projectMilestoneId := some m.id }),
           [.getProjects, .fetchProjectMilestones projectId,
            .updateIssueMilestone issueId m.id])

/-- sync.ts:214/287: attach and push the paired entity / milestone-assignment
records exactly when the attach reported an assignment. -/
def attachWithRecords (w : World) (issueId projectId : String) (entity : SyncEntity)
    (name : String) (milestoneName : Option String) :
    World × List SyncAction × List RemoteCall :=
  match milestoneName with
  | none => (w, [], [])
  | some mn =>
    let r := attachIssueToMilestone w issueId projectId mn
    if r.1 then
      (r.2.1,
       [⟨.Updated, entity, name, some "milestone assigned"⟩,
        ⟨.Updated, .milestoneAssignment, name, some ("milestone assigned: " ++ mn)⟩],
       r.2.2)
    else (r.2.1, [], r.2.2)

/-- sync.ts:234-305, the body of the story loop for one story under the epic
issue `epicIssueId` (whose spec carried the raw milestone field
`epicMilestone`).  `issues` is the in-memory list of fetched/created issue
copies that the source mutates in place. -/
def processStory (projectId teamId curUid epicIssueId : String)
    (epicMilestone : Option String) (s : StorySpec) (issues : List Issue)
    (w : World) :
    Except String (List Issue × World × List SyncAction × List RemoteCall) :=
  let storyMilestoneName := resolveStoryMilestoneName epicMilestone s.milestone
  match resolveDesiredAssigneeId w s.assignee curUid with
  | .error e => .error e
  | .ok (desiredAid, tr0) =>
    match findWithIdx (fun i => issueMatches s.title (some epicIssueId) i) issues with
    | none =>
      let c := createIssueW w teamId projectId (some epicIssueId) s.title
        (ensureManagedMetadata s.description) desiredAid
      let r := attachWithRecords c.2 c.1.id projectId .story s.title storyMilestoneName
      .ok (issues ++ [c.1], r.1,
           ⟨.Created, .story, s.title, none⟩ :: r.2.1,
           tr0 ++ [.createIssue c.1.id] ++ r.2.2)
    | some (idx, i0) =>
      let a := syncIssueAssignee w i0 desiredAid (jsTruthy s.assignee) .story s.title
      let i1 := a.1
      let desired := ensureManagedMetadata s.description
      if normalizeDescription i1.description ≠ normalizeDescription (some desired) then
        let w2 := updateIssueW a.2.1 i1.id (fun j => { j with description := some desired })
        let i2 := { i1 with description := some desired }
        let r := attachWithRecords w2 i2.id projectId .story s.title storyMilestoneName
        .ok (issues.set idx i2, r.1,
             a.2.2.1 ++ [⟨.Updated, .story, s.title, some "description synchronized"⟩] ++ r.2.1,
             tr0 ++ a.2.2.2 ++ [.updateIssueDescription i1.id desired] ++ r.2.2)
      else
        let r := attachWithRecords a.2.1 i1.id projectId .story s.title storyMilestoneName
        .ok (issues.set idx i1, r.1,
             a.2.2.1 ++ [⟨.Skipped, .story, s.title, some "description unchanged"⟩] ++ r.2.1,
             tr0 ++ a.2.2.2 ++ r.2.2)

def storyLoop (projectId teamId curUid epicIssueId : String)
    (epicMilestone : Option String) :
    List StorySpec → List Issue → World →
    Except String (List Issue × World × List SyncAction × List RemoteCall)
  | [], issues, w => .ok (issues, w, [], [])
  | s :: rest, issues, w =>
    match processStory projectId teamId curUid epicIssueId epicMilestone s issues w with
    | .error e => .error e
    | .ok (issues1, w1, acts1, tr1) =>
      match storyLoop projectId teamId curUid epicIssueId epicMilestone rest issues1 w1 with
      | .error e => .error e
      | .ok (issues2, w2, acts2, tr2) => .ok (issues2, w2, acts1 ++ acts2, tr1 ++ tr2)

/-- sync.ts:165-306, the body of the epic loop for one epic. -/
def processEpic (spec : ProjectSpec) (projectId teamId curUid : String)
    (e : EpicSpec) (issues : List Issue) (w : World) :
    Except String (List Issue × World × List SyncAction × List RemoteCall) :=
  match resolveDesiredAssigneeId w e.assignee curUid with
  | .error er => .error er
  | .ok (desiredAid, tr0) =>
    let epicMilestoneName := resolveEpicMilestoneName spec e
    match findWithIdx (fun i => issueMatches e.title none i) issues with
    | none =>
      let c := createIssueW w teamId projectId none e.title
        (ensureManagedMetadata e.description) desiredAid
      let r := attachWithRecords c.2 c.1.id projectId .epic e.title epicMilestoneName
      match storyLoop projectId teamId curUid c.1.id e.milestone e.stories
          (issues ++ [c.1]) r.1 with
      | .error er => .error er
      | .ok (issues2, w3, actsS, trS) =>
        .ok (issues2, w3,
             ⟨.Created, .epic, e.title, none⟩ :: (r.2.1 ++ actsS),
             tr0 ++ [.createIssue c.1.id] ++ r.2.2 ++ trS)
    | some (idx, i0) =>
      let a := syncIssueAssignee w i0 desiredAid (jsTruthy e.assignee) .epic e.title
      let i1 := a.1
      let desired := ensureManagedMetadata e.description
      if normalizeDescription i1.description ≠ normalizeDescription (some desired) then
        let w2 := updateIssueW a.2.1 i1.id (fun j => { j with description := some desired })
        let i2 := { i1 with description := some desired }
        let r := attachWithRecords w2 i2.id projectId .epic e.title epicMilestoneName
        match storyLoop projectId teamId curUid i2.id e.milestone e.stories
            (issues.set idx i2) r.1 with
        | .error er => .error er
        | .ok (issues2, w3, actsS, trS) =>
          .ok (issues2, w3,
               a.2.2.1 ++ [⟨.Updated, .epic, e.title, some "description synchronized"⟩]
                 ++ r.2.1 ++ actsS,
               tr0 ++ a.2.2.2 ++ [.updateIssueDescription i1.id desired] ++ r.2.2 ++ trS)
      else
        let r := attachWithRecords a.2.1 i1.id projectId .epic e.title epicMilestoneName
        match storyLoop projectId teamId curUid i1.id e.milestone e.stories
            (issues.set idx i1) r.1 with
        | .error er => .error er
        | .ok (issues2, w3, actsS, trS) =>
          .ok (issues2, w3,
               a.2.2.1 ++ [⟨.Skipped, .epic, e.title, some "description unchanged"⟩]
                 ++ r.2.1 ++ actsS,
               tr0 ++ a.2.2.2 ++ r.2.2 ++ trS)

def epicLoop (spec : ProjectSpec) (projectId teamId curUid : String) :
    List EpicSpec → List Issue → World →
    Except String (List Issue × World × List SyncAction × List RemoteCall)
  | [], issues, w => .ok (issues, w, [], [])
  | e :: rest, issues, w =>
    match processEpic spec projectId teamId curUid e issues w with
    | .error er => .error er
    | .ok (issues1, w1, acts1, tr1) =>
      match epicLoop spec projectId teamId curUid rest issues1 w1 with
      | .error er => .error er
      | .ok (issues2, w2, acts2, tr2) => .ok (issues2, w2, acts1 ++ acts2, tr1 ++ tr2)

/-- sync.ts:150 `ensureEpicsAndStories`. -/
def ensureEpicsAndStories (spec : ProjectSpec) (p : RemoteProject) (w : World) :
    Except String (World × List SyncAction × List RemoteCall) :=
  if spec.epics.isEmpty then .ok (w, [], [])
  else
    let issues := getIssuesByProjectW w p.id
    let curUid := w.currentUser.id
    match resolveTeamId w p issues with
    | .error e => .error e
    | .ok (teamId, trT) =>
      match epicLoop spec p.id teamId curUid spec.epics issues w with
      | .error e => .error e
      | .ok (_, w1, acts, tr) =>
        .ok (w1, acts, [.getIssuesByProject p.id, .getCurrentUser] ++ trT ++ tr)

/-- sync.ts:128-139: create every desired milestone missing from the names
fetched before the loop (the existing-name set is not updated while the loop
runs).  A missing SDK capability makes creation throw (client.ts:306); a
`false` success flag is ignored by the source, modelled as a silent no-op. -/
def createMissingMilestones (projectId : String) (existingNames : List String) :
    List String → World →
    Except String (World × List SyncAction × List RemoteCall)
  | [], w => .ok (w, [], [])
  | n :: rest, w =>
    if existingNames.contains n then
      match createMissingMilestones projectId existingNames rest w with
      | .error e => .error e
      | .ok (w1, acts, tr) =>
        .ok (w1, ⟨.Skipped, .milestone, n, some "already exists"⟩ :: acts, tr)
    else
      if !w.hasCreateMilestoneFn then
        .error "Current @linear/sdk version does not expose createProjectMilestone."
      else
        let w1 := if w.milestoneCreateWorks then
            bumpTag (addMilestoneW w projectId ⟨w.freshTag, n⟩)
          else w
        match createMissingMilestones projectId existingNames rest w1 with
        | .error e => .error e
        | .ok (w2, acts, tr) =>
          .ok (w2, ⟨.Created, .milestone, n, none⟩ :: acts,
               .createMilestone projectId n :: tr)

/-- First desired name missing from `avail`, if any (sync.ts:143-147). -/
def firstMissing (avail : List String) : List String → Option String
  | [] => none
  | n :: rest => if avail.contains n then firstMissing avail rest else some n

/-- sync.ts:114 `ensureMilestones`. -/
def ensureMilestones (spec : ProjectSpec) (p : RemoteProject) (w : World) :
    Except String (World × List SyncAction × List RemoteCall) :=
  let desired := collectDesiredMilestoneNames spec
  if desired.isEmpty then .ok (w, [], [])
  else
    match getProjectMilestones w p true with
    | .error e => .error e
    | .ok (existing, tr1) =>
      match createMissingMilestones p.id (existing.map (fun m => m.name)) desired w with
      | .error e => .error e
      | .ok (w1, acts, tr2) =>
        match getProjectMilestones w1 p true with
        | .error e => .error e
        | .ok (resolved, tr3) =>
          match firstMissing (resolved.map (fun m => m.name)) desired with
          | some n =>
            .error ("Milestone exists in spec but could not be resolved: " ++ n)
          | none => .ok (w1, acts, tr1 ++ tr2 ++ tr3)

/-- sync.ts:74 `ensureProject`.  The returned project is the snapshot the
source keeps using (its description field is not refreshed by the update). -/
def ensureProject (spec : ProjectSpec) (w : World) :
    Except String (RemoteProject × World × List SyncAction × List RemoteCall) :=
  let projectName := jsTrim spec.projectName
  if projectName = "" then .error "Project name is required."
  else
    let desiredDescription := spec.projectDescription
    match getProjectByNameW w projectName with
    | none =>
      let c := createProjectW w projectName desiredDescription
      .ok (c.1, c.2, [⟨.Created, .project, projectName, none⟩],
           [.getProjectByName projectName, .createProject projectName desiredDescription])
    | some existing =>
      if existing.description.getD "" ≠ desiredDescription then
        .ok (existing, updateProjectDescW w existing.id desiredDescription,
             [⟨.Updated, .project, projectName, none⟩],
             [.getProjectByName projectName,
              .updateProjectDescription existing.id desiredDescription])
      else
        .ok (existing, w,
             [⟨.Skipped, .project, projectName, some "description unchanged"⟩],
             [.getProjectByName projectName])

/-- sync.ts:61 `syncProject`. -/
def syncProject (spec : ProjectSpec) (w : World) :
    Except String (World × List SyncAction × List RemoteCall) :=
  match ensureProject spec w with
  | .error e => .error e
  | .ok (p, w1, a1, t1) =>
    match ensureMilestones spec p w1 with
    | .error e => .error e
    | .ok (w2, a2, t2) =>
      match ensureEpicsAndStories spec p w2 with
      | .error e => .error e
      | .ok (w3, a3, t3) => .ok (w3, a1 ++ a2 ++ a3, t1 ++ t2 ++ t3)

/-! Single-issue operations (`src/linear/issue.ts`, claims C6 and C8).  Each
returns its result together with the trace of remote calls performed up to
the point of success or failure. -/

/-- issue.ts:232 `getRequiredIssueByKey`. -/
def getRequiredIssueByKey (w : World) (issueKeyInput : String) :
    Except String Issue × List RemoteCall :=
  let issueKey := jsTrim issueKeyInput
  if issueKey = "" then (.error "Issue key is required.", [])
  else
    match getIssueByKeyW w issueKey with
    | none => (.error ("Issue not found: " ++ issueKey), [.getIssueByKey issueKey])
    | some i => (.ok i, [.getIssueByKey issueKey])

structure MoveIssueResult where
  issueKey : String
  previousState : String
  newState : String
deriving DecidableEq, Repr

/-- issue.ts:117 `moveIssueByKeyToState` inlined with issue.ts:193
`moveIssueToStateInternal` (the internal helper receives the already-fetched
issue, so no second lookup happens). -/
def moveIssueByKeyToState (w : World) (issueKey stateName : String) :
    Except String MoveIssueResult × World × List RemoteCall :=
  match getRequiredIssueByKey w issueKey with
  | (.error e, tr) => (.error e, w, tr)
  | (.ok issue, tr) =>
    let resultKey := issue.identifier.getD issueKey
    let sn := jsTrim stateName
    if sn = "" then (.error "State name is required.", w, tr)
    else
      match truthyOpt issue.teamId with
      | none =>
        (.error ("Issue \"" ++ resultKey ++ "\" has no team and cannot be moved."), w, tr)
      | some team =>
        match getWorkflowStatesByTeamW w team with
        | .error e => (.error e, w, tr ++ [.getWorkflowStates team])
        | .ok states =>
          match findStateByName states sn with
          | none =>
            (.error ("State not found in team workflow: " ++ sn), w,
             tr ++ [.getWorkflowStates team])
          | some target =>
            let previousState := getStateNameById states issue.stateId
            if issue.stateId ≠ some target.id then
              (.ok ⟨resultKey, previousState, target.name⟩,
               updateIssueW w issue.id (fun j => { j with stateId := some target.id }),
               tr ++ [.getWorkflowStates team, .updateIssueState issue.id target.id])
            else
              (.ok ⟨resultKey, previousState, target.name⟩, w,
               tr ++ [.getWorkflowStates team])

/-- issue.ts:125 `addCommentToIssue`: the issue is resolved first, the text
is validated after that, and the comment body is the trimmed text. -/
def addCommentToIssue (w : World) (issueKey text : String) :
    Except String String × List RemoteCall :=
  match getRequiredIssueByKey w issueKey with
  | (.error e, tr) => (.error e, tr)
  | (.ok issue, tr) =>
    let t := jsTrim text
    if t = "" then (.error "Comment text is required.", tr)
    else (.ok (issue.identifier.getD issueKey), tr ++ [.createComment issue.id t])

/-! Claim-statement definitions and concrete instances used by the theorems. -/

/-- The first-active-state preference order exactly as the specification
words it (claim C7): walk the states in ascending position order and take the
first started-typed state, else the first active-looking name, else the first
non-terminal type. -/
def specFirstActiveState (states : List WorkflowState) : Option WorkflowState :=
  let sorted := sortByPosition states
  match sorted.find? (fun s => isStartedType s) with
  | some s => some s
  | none =>
    match sorted.find? (fun s => nameLooksActive s) with
    | some s => some s
    | none => sorted.find? (fun s => isNonTerminalType s)

/-- The story-milestone rule that actually holds on the source (claim C3,
amended): a story inherits only the explicit `milestone` field of its epic
(trimmed, non-empty), never the resolved epic milestone name. -/
def amendedStoryMilestoneName (epic : EpicSpec) (story : StorySpec) : Option String :=
  match trimmedNonempty story.milestone with
  | some n => some n
  | none => trimmedNonempty epic.milestone

def c3Story : StorySpec := { title := "Story S", description := "Do it" }

def c3Epic : EpicSpec :=
  { title := "Phase 1", description := "Build it", stories := [c3Story] }

def c3Spec : ProjectSpec :=
  { projectName := "Engine", projectDescription := "d",
    milestones := [⟨"Phase 1"⟩], epics := [c3Epic] }

def c7ExampleStates : List WorkflowState :=
  [⟨"s1", "A", some "unstarted", some 1⟩,
   ⟨"s2", "B", some "started", some 2⟩,
   ⟨"s3", "C", some "completed", some 3⟩]

def c10Bad : String := "managedBy:linear-engine"

/-- The sentinel line plus the blank separator that `ensureManagedMetadata`
prepends; as a character list. -/
def sentinelBlock : List Char := (managedMetadataLine ++ "\n\n").data

/-- Head is absent or not the letter m (case-insensitively). -/
def headNotM (l : List Char) : Bool :=
  match l.head? with
  | some c => c.toLower ≠ 'm'
  | none => true

deriving instance DecidableEq for Except

/-- Recognises the update calls of the move operation. -/
def isStateUpdateCall : RemoteCall → Bool
  | .updateIssueState _ _ => true
  | _ => false

def c8World : World :=
  { currentUser := ⟨"u1", none, none, none⟩,
    issues := [{ id := "i1", identifier := some "COG-1", title := "T" }] }

def c6World : World :=
  { currentUser := ⟨"u1", none, none, none⟩,
    issues := [{ id := "i1", identifier := some "COG-12", title := "Implement API",
                 teamId := some "t1", stateId := some "s1" }],
    workflowTeams := [("t1", [⟨"s1", "Todo", none, none⟩,
                              ⟨"s2", "In Progress", none, none⟩])] }

def isMilestoneUpdateCall : RemoteCall → Bool
  | .updateIssueMilestone _ _ => true
  | _ => false

/-- The condition under which `attachIssueToMilestone` attaches (the resolved
milestone id): a function of the project state and the name only — it reads
nothing of the issue, in particular not its current milestone reference. -/
def attachCond (w : World) (projectId milestoneName : String) : Option String :=
  if jsTrim milestoneName = "" then none
  else
    match w.projects.find? (fun c => c.id = projectId) with
    | none => none
    | some proj =>
      if !proj.hasMilestonesFn then none
      else (proj.milestones.find? (fun m => m.name = jsTrim milestoneName)).map
        (fun m => m.id)

def c2Epic : EpicSpec :=
  { title := "Epic A", description := "Build it", milestone := some "M1" }

def c2Spec : ProjectSpec :=
  { projectName := "Engine", projectDescription := "d", epics := [c2Epic] }

def c2World : World :=
  { currentUser := ⟨"u1", none, none, none⟩,
    projects := [{ id := "p1", name := "Engine", description := some "d",
                   teamId := some "t1", milestones := [⟨"m1", "M1"⟩] }],
    issues := [{ id := "i1", title := "Epic A",
                 description := some (ensureManagedMetadata "Build it"),
                 teamId := some "t1", parentId := none, projectId := some "p1",
                 projectMilestoneId := some "m1", assigneeId := some "u1" }] }

def c5NoMilestoneProject : RemoteProject :=
  { id := "p1", name := "Engine", description := some "d", hasMilestonesFn := false }

def c5EmptySpec : ProjectSpec := { projectName := "P", projectDescription := "" }

def c9Projects : List ListedProjectLike :=
  [{ id := "p1", name := some "apple" }, { id := "p2", name := some "Banana" }]

/-- Whether `t` is a prefix of `s` (on code points). -/
def leadsWith (t s : String) : Bool := startsWithL t.data s.data

/-- The fields of an issue that entity matching and the description decision
read, plus the identity used for remote updates: title, parent reference,
description, id.  Assignee and milestone references are invisible to it. -/
def issueKey4 (i : Issue) : String × Option String × Option String × String :=
  (i.title, i.parentId, i.description, i.id)

/-- The issues of the project with the given id (`getIssuesByProjectW`). -/
def filterProj (pid : String) (l : List Issue) : List Issue :=
  l.filter (fun i => i.projectId = some pid)

/-- The part of `WorldOk` the sync loops maintain: distinct issue ids and a
fresh id tag. -/
def Inv0 (w : World) : Prop :=
  (w.issues.map (fun i => i.id)).Nodup ∧
  ∀ i ∈ w.issues, leadsWith w.freshTag i.id = false

/-- The loop invariant tying the in-memory issue copies to the remote state:
on every field the loops read back, the copies agree positionally with the
remote issues of the project. -/
def CInv (pid : String) (cs : List Issue) (w : World) : Prop :=
  cs.map issueKey4 = (filterProj pid w.issues).map issueKey4 ∧ Inv0 w

/-- The project-record fields the second run reads back: id, name,
description, milestone capability (everything except the milestone list). -/
def projHead (p : RemoteProject) : String × String × Option String × Bool :=
  (p.id, p.name, p.description, p.hasMilestonesFn)

/-- The match predicate of `issueMatches` expressed on `issueKey4` images. -/
def matchKey (title : String) (parent : Option String)
    (k : String × Option String × Option String × String) : Bool :=
  k.1 = title && k.2.1 = parent

/-- Report records that can only be the description decision of an entity:
a project record with status Updated (its description update carries no
reason), or any record with the reason "description synchronized". -/
def DescUpdated (a : SyncAction) : Prop :=
  (a.entity = SyncEntity.project ∧ a.status = SyncStatus.Updated) ∨
  a.reason = some "description synchronized"

/-- A record a second idempotent run is allowed to produce: not Created, and
not an Updated description decision. -/
def OkAct (a : SyncAction) : Prop :=
  a.status ≠ SyncStatus.Created ∧ ¬ DescUpdated a

/-- The story part of the run-one postcondition: the first issue copy
matching the story title under the given epic issue id exists and its
normalized description equals the normalized desired description. -/
def StoryGood (cs : List Issue) (epicIssueId : String) (s : StorySpec) : Prop :=
  ∃ idx j, findWithIdx (fun i => issueMatches s.title (some epicIssueId) i) cs =
      some (idx, j) ∧
    normalizeDescription j.description =
      normalizeDescription (some (ensureManagedMetadata s.description))

/-- The run-one postcondition for one epic: its first matching top-level
issue exists with a synchronized (normalized-equal) description, and every
story of the epic is `StoryGood` under that issue. -/
def EpicGood (cs : List Issue) (e : EpicSpec) : Prop :=
  ∃ idx i, findWithIdx (fun j => issueMatches e.title none j) cs = some (idx, i) ∧
    normalizeDescription i.description =
      normalizeDescription (some (ensureManagedMetadata e.description)) ∧
    ∀ s ∈ e.stories, StoryGood cs i.id s

/-- Distinctness of the titles used for entity matching: epic titles are
pairwise distinct, and story titles within each epic are pairwise distinct. -/
def SpecTitlesDistinct (spec : ProjectSpec) : Prop :=
  (spec.epics.map (fun e => e.title)).Nodup ∧
  ∀ e ∈ spec.epics, (e.stories.map (fun s => s.title)).Nodup

/-- Well-formedness of the remote state: record identifiers are distinct and
the fresh-id tag is not a prefix of any existing identifier (so generated
identifiers are fresh). -/
def WorldOk (w : World) : Prop :=
  (w.issues.map (fun i => i.id)).Nodup ∧
  (∀ i ∈ w.issues, leadsWith w.freshTag i.id = false) ∧
  (∀ p ∈ w.projects, leadsWith w.freshTag p.id = false)

def c1DupSpec : ProjectSpec :=
  { projectName := "P", projectDescription := "d",
    epics := [{ title := "T", description := "A" },
              { title := "T", description := "B" }] }

def c1World : World :=
  { currentUser := ⟨"u1", none, none, none⟩,
    projects := [{ id := "p1", name := "P", description := some "d",
                   teamId := some "t1" }],
    teams := ["t1"] }

def c1WitSpec : ProjectSpec :=
  { projectName := "P", projectDescription := "d", epics := [] }

/-! Theorems. -/

theorem head?_filter (p : α → Bool) (l : List α) :
    (l.filter p).head? = l.find? p := by
  induction l with
  | nil => rfl
  | cons x xs ih =>
    by_cases h : p x <;> simp [List.filter_cons, List.find?_cons, h, ih]

/-- C3 counterexample: with a top-level milestone "Phase 1", an epic titled
"Phase 1" with no explicit milestone field, and a story with no milestone
field, the claim predicts the story resolves to "Phase 1" (the resolved epic
milestone), but the source resolves the story milestone from the raw epic
field (sync.ts:235) and yields none. -/
theorem c3_counterexample :
    resolveStoryMilestoneName c3Epic.milestone c3Story.milestone ≠
      claimedStoryMilestoneName c3Spec c3Epic c3Story ∧
    resolveStoryMilestoneName c3Epic.milestone c3Story.milestone = none ∧
    claimedStoryMilestoneName c3Spec c3Epic c3Story = some "Phase 1" := by
  refine ⟨by decide, by decide, by decide⟩

/-- C3 amended: a story resolved milestone name is its own explicit milestone
field (trimmed) if set and non-empty; otherwise it is the explicit milestone
field of its epic (trimmed) if set and non-empty — not the resolved epic
milestone name, so the top-level title-match fall-back applies to the epic
itself but is not inherited by its stories; otherwise the story has no
milestone.  The epic resolution itself does fall back to a top-level
milestone entry whose trimmed name equals the trimmed epic title. -/
theorem c3_amended (spec : ProjectSpec) (epic : EpicSpec) (story : StorySpec) :
    resolveStoryMilestoneName epic.milestone story.milestone =
      amendedStoryMilestoneName epic story ∧
    (∀ s, story.milestone = some s → jsTrim s ≠ "" →
      resolveStoryMilestoneName epic.milestone story.milestone = some (jsTrim s)) ∧
    (trimmedNonempty story.milestone = none →
      resolveStoryMilestoneName epic.milestone story.milestone =
        trimmedNonempty epic.milestone) ∧
    (∀ m, epic.milestone = some m → jsTrim m ≠ "" →
      resolveEpicMilestoneName spec epic = some (jsTrim m)) ∧
    (trimmedNonempty epic.milestone = none →
      resolveEpicMilestoneName spec epic =
        (match spec.milestones.find? (fun m => jsTrim m.name = jsTrim epic.title) with
         | some m => if jsTrim m.name = "" then none else some (jsTrim m.name)
         | none => none)) := by
  refine ⟨rfl, ?_, ?_, ?_, ?_⟩
  · intro s hs hne
    simp [resolveStoryMilestoneName, trimmedNonempty, hs, hne]
  · intro h
    simp [resolveStoryMilestoneName, h]
  · intro m hm hne
    simp [resolveEpicMilestoneName, trimmedNonempty, hm, hne]
  · intro h
    simp [resolveEpicMilestoneName, h]

theorem c3_amended_witness :
    resolveStoryMilestoneName (some " M1 ") (some " ") = trimmedNonempty (some " M1 ") ∧
    resolveEpicMilestoneName c3Spec c3Epic =
      (match c3Spec.milestones.find? (fun m => jsTrim m.name = jsTrim c3Epic.title) with
       | some m => if jsTrim m.name = "" then none else some (jsTrim m.name)
       | none => none) :=
  ⟨(c3_amended c3Spec ⟨"E", "", none, some " M1 ", []⟩ ⟨"S", "", none, some " "⟩).2.2.1
      (by decide),
   (c3_amended c3Spec c3Epic c3Story).2.2.2.2 (by decide)⟩

/-- C7: `getFirstActiveState` considers states in ascending position order and
returns the first started-typed state if any, else the first state whose name
contains an active-looking phrase, else the first state whose type is neither
completed nor canceled, else none; and on the three-state example
unstarted/started/completed at positions 1/2/3 it returns the position-2
state regardless of input order. -/
theorem c7_first_active_state :
    (∀ states : List WorkflowState,
      getFirstActiveState states = specFirstActiveState states) ∧
    (∀ l : List WorkflowState, l.Perm c7ExampleStates →
      getFirstActiveState l = some ⟨"s2", "B", some "started", some 2⟩) := by
  constructor
  · intro states
    cases states with
    | nil => rfl
    | cons x xs =>
      simp only [getFirstActiveState, specFirstActiveState, List.isEmpty,
        head?_filter]
      rfl
  · intro l h
    obtain ⟨a, b, c, rfl⟩ : ∃ a b c, l = [a, b, c] := by
      have hl : l.length = 3 := by simpa [c7ExampleStates] using h.length_eq
      match l, hl with
      | [a, b, c], _ => exact ⟨a, b, c, rfl⟩
    have ha : a ∈ c7ExampleStates := h.subset (by simp)
    have hb : b ∈ c7ExampleStates := h.subset (by simp)
    have hc : c ∈ c7ExampleStates := h.subset (by simp)
    simp only [c7ExampleStates, List.mem_cons, List.not_mem_nil, or_false] at ha hb hc
    have h1 := h.count_eq ⟨"s1", "A", some "unstarted", some 1⟩
    have h2 := h.count_eq ⟨"s2", "B", some "started", some 2⟩
    rcases ha with rfl | rfl | rfl <;> rcases hb with rfl | rfl | rfl <;>
      rcases hc with rfl | rfl | rfl <;> revert h1 h2 <;> decide

theorem c7_first_active_state_witness :
    getFirstActiveState [⟨"s3", "C", some "completed", some 3⟩,
      ⟨"s1", "A", some "unstarted", some 1⟩,
      ⟨"s2", "B", some "started", some 2⟩] =
      some ⟨"s2", "B", some "started", some 2⟩ :=
  c7_first_active_state.2 _ (by decide)

/-- C10 counterexample: the string "managedBy:linear-engine" (no space before
"linear-engine") does not contain the exact sentinel text
"managedBy: linear-engine", yet the stripper recognises it (the regexes allow
`\s*` between the colon and "linear-engine"), so wrapping and stripping
yields "" instead of the trimmed original. -/
theorem c10_counterexample :
    jsIncludes c10Bad managedMetadataLine = false ∧
    stripManagedMetadata (some (ensureManagedMetadata c10Bad)) ≠ jsTrim c10Bad ∧
    stripManagedMetadata (some (ensureManagedMetadata c10Bad)) = "" := by
  refine ⟨by decide, by decide, by decide⟩

/-! Lemmas about the stripper, leading to claim C10. -/

theorem dropLitCI_suffix_len :
    ∀ (pat l r : List Char), dropLitCI pat l = some r →
      r <:+ l ∧ l.length = pat.length + r.length := by
  intro pat
  induction pat with
  | nil =>
    intro l r h
    cases h
    exact ⟨List.suffix_rfl, by simp⟩
  | cons p ps ih =>
    intro l r h
    cases l with
    | nil => cases h
    | cons c cs =>
      by_cases hc : c.toLower = p.toLower
      · simp only [dropLitCI, hc, if_pos] at h
        obtain ⟨h1, h2⟩ := ih cs r h
        refine ⟨h1.trans (List.suffix_cons c cs), ?_⟩
        simp [h2, Nat.add_assoc, Nat.add_comm, Nat.add_left_comm]
      · simp only [dropLitCI, hc, if_neg, not_false_iff] at h
        cases h

theorem dropLitCI_append :
    ∀ (pat l r y : List Char), dropLitCI pat l = some r →
      dropLitCI pat (l ++ y) = some (r ++ y) := by
  intro pat
  induction pat with
  | nil =>
    intro l r y h
    cases h
    rfl
  | cons p ps ih =>
    intro l r y h
    cases l with
    | nil => cases h
    | cons c cs =>
      by_cases hc : c.toLower = p.toLower
      · simp only [dropLitCI, hc, if_pos] at h ⊢
        simpa using ih cs r y h
      · simp only [dropLitCI, hc, if_neg, not_false_iff] at h
        cases h

theorem dropLitCI_nonempty (p : Char) (ps r : List Char) :
    ∀ l, dropLitCI (p :: ps) l = some r → l ≠ [] := by
  intro l h
  cases l with
  | nil => cases h
  | cons c cs => simp

theorem dropWhile_append_of_ne_nil (p : Char → Bool) (l y : List Char)
    (h : l.dropWhile p ≠ []) :
    (l ++ y).dropWhile p = l.dropWhile p ++ y := by
  rw [List.dropWhile_append]
  simp [List.isEmpty_iff, h]

theorem coreAtB_append (s y : List Char) (h : coreAtB s = true) :
    coreAtB (s ++ y) = true := by
  unfold coreAtB dropCore at h ⊢
  cases h1 : dropLitCI "managedBy:".data s with
  | none => simp [h1] at h
  | some r1 =>
    simp only [h1] at h
    cases h2 : dropLitCI "linear-engine".data (r1.dropWhile isJsWs) with
    | none => simp [h2] at h
    | some r2 =>
      have hne : r1.dropWhile isJsWs ≠ [] := dropLitCI_nonempty _ _ _ _ h2
      rw [dropLitCI_append _ _ _ y h1]
      show (dropLitCI "linear-engine".data ((r1 ++ y).dropWhile isJsWs)).isSome = true
      rw [dropWhile_append_of_ne_nil _ _ _ hne, dropLitCI_append _ _ _ y h2]
      rfl

theorem coreAtB_nil : coreAtB [] = false := by decide

theorem hasCore_iff (l : List Char) :
    hasCore l = true ↔ ∃ s, s <:+ l ∧ coreAtB s = true := by
  induction l with
  | nil =>
    simp only [hasCore, coreAtB_nil]
    constructor
    · intro h; cases h
    · rintro ⟨s, hs, hc⟩
      rw [List.suffix_nil.mp hs] at hc
      rw [coreAtB_nil] at hc
      cases hc
  | cons c cs ih =>
    simp only [hasCore, Bool.or_eq_true, ih]
    constructor
    · rintro (h | ⟨s, hs, hc⟩)
      · exact ⟨c :: cs, List.suffix_rfl, h⟩
      · exact ⟨s, hs.trans (List.suffix_cons c cs), hc⟩
    · rintro ⟨s, hs, hc⟩
      rcases List.suffix_cons_iff.mp hs with rfl | hs2
      · exact Or.inl hc
      · exact Or.inr ⟨s, hs2, hc⟩

theorem hasCore_of_suffix (l s : List Char) (hs : s <:+ l) (hc : coreAtB s = true) :
    hasCore l = true :=
  (hasCore_iff l).mpr ⟨s, hs, hc⟩

theorem hasCore_infix (x m y : List Char) (h : hasCore m = true) :
    hasCore (x ++ m ++ y) = true := by
  obtain ⟨s, hs, hc⟩ := (hasCore_iff m).mp h
  obtain ⟨u, hu⟩ := hs
  have hsy : s ++ y <:+ x ++ m ++ y := by
    refine (List.suffix_append (u) (s ++ y)).trans ?_
    rw [show u ++ (s ++ y) = (u ++ s) ++ y from by simp, hu]
    exact (List.suffix_append x (m ++ y)).trans (by rw [List.append_assoc])
  exact hasCore_of_suffix _ _ hsy (coreAtB_append s y hc)

theorem rev_split (m : List Char) :
    m = (m.reverse.dropWhile isJsWs).reverse ++ (m.reverse.takeWhile isJsWs).reverse := by
  conv_lhs => rw [← List.reverse_reverse m]
  rw [← List.reverse_append, List.takeWhile_append_dropWhile]

theorem jsTrimL_decomp (l : List Char) : ∃ x y, l = x ++ jsTrimL l ++ y := by
  refine ⟨l.takeWhile isJsWs,
    ((l.dropWhile isJsWs).reverse.takeWhile isJsWs).reverse, ?_⟩
  conv_lhs => rw [← List.takeWhile_append_dropWhile (p := isJsWs) (l := l),
    rev_split (l.dropWhile isJsWs)]
  rw [List.append_assoc]
  rfl

theorem hasCore_trim (l : List Char) (h : hasCore l = false) :
    hasCore (jsTrimL l) = false := by
  by_contra hc
  obtain ⟨x, y, hxy⟩ := jsTrimL_decomp l
  have := hasCore_infix x (jsTrimL l) y (by revert hc; cases hasCore (jsTrimL l) <;> simp)
  rw [← hxy] at this
  rw [this] at h
  cases h

theorem dropWhile_idem (p : Char → Bool) (l : List Char) :
    (l.dropWhile p).dropWhile p = l.dropWhile p := by
  induction l with
  | nil => rfl
  | cons c cs ih =>
    by_cases hc : p c <;> simp [List.dropWhile_cons, hc, ih]

theorem dropWhile_eq_cons_head (p : Char → Bool) :
    ∀ (l : List Char) (c : Char) (rest : List Char),
      l.dropWhile p = c :: rest → p c = false := by
  intro l
  induction l with
  | nil => intro c rest h; cases h
  | cons x xs ih =>
    intro c rest h
    by_cases hx : p x
    · rw [List.dropWhile_cons, if_pos hx] at h
      exact ih c rest h
    · rw [List.dropWhile_cons, if_neg hx] at h
      cases h
      simpa using hx

theorem jsTrimL_leftTrimmed (l : List Char) :
    (jsTrimL l).dropWhile isJsWs = jsTrimL l := by
  cases ht : jsTrimL l with
  | nil => rfl
  | cons c rest =>
    have hpre : jsTrimL l <+: l.dropWhile isJsWs := by
      unfold jsTrimL
      rw [← List.reverse_suffix]
      simp only [List.reverse_reverse]
      exact List.dropWhile_suffix isJsWs
    obtain ⟨u, hu⟩ := hpre
    rw [ht] at hu
    have hdc : l.dropWhile isJsWs = c :: (rest ++ u) := by
      rw [← hu]
      exact rfl
    have hcw : isJsWs c = false := dropWhile_eq_cons_head isJsWs l c (rest ++ u) hdc
    rw [List.dropWhile_cons, if_neg (by simp [hcw])]

theorem jsTrimL_idem (l : List Char) : jsTrimL (jsTrimL l) = jsTrimL l := by
  have h1 : (jsTrimL l).dropWhile isJsWs = jsTrimL l := jsTrimL_leftTrimmed l
  have h2 : (jsTrimL l).reverse.dropWhile isJsWs = (jsTrimL l).reverse := by
    unfold jsTrimL
    simp only [List.reverse_reverse]
    exact dropWhile_idem isJsWs _
  show (((jsTrimL l).dropWhile isJsWs).reverse.dropWhile isJsWs).reverse = jsTrimL l
  rw [h1, h2, List.reverse_reverse]

theorem wsThenNl_eq (l r : List Char) (h : wsThenNl l = some r) :
    r = l.dropWhile isJsWs ∧ r.length < l.length := by
  unfold wsThenNl at h
  split at h
  · rename_i hcond
    injection h with h
    subst h
    refine ⟨rfl, ?_⟩
    have hlen : l.length = (l.takeWhile isJsWs).length + (l.dropWhile isJsWs).length := by
      conv_lhs => rw [← List.takeWhile_append_dropWhile (p := isJsWs) (l := l)]
      rw [List.length_append]
    have hne : 0 < (l.takeWhile isJsWs).length := List.length_pos.mpr hcond.1
    omega
  · cases h

theorem tryR1At_core (prev : Option Char) (l r : List Char)
    (h : tryR1At prev l = some r) :
    ∃ s, s <:+ l ∧ coreAtB s = true ∧ s.length + 4 ≤ l.length := by
  unfold tryR1At at h
  split at h
  · cases h1 : dropLitCI "---".data (l.dropWhile isJsWs) with
    | none => simp [h1] at h
    | some b =>
      simp only [h1] at h
      cases h2 : wsThenNl b with
      | none => simp [h2] at h
      | some c =>
        simp only [h2] at h
        cases h3 : dropCore c with
        | none => simp [h3] at h
        | some f =>
          obtain ⟨ha1, ha2⟩ := dropLitCI_suffix_len _ _ _ h1
          obtain ⟨hc1, hc2⟩ := wsThenNl_eq _ _ h2
          have hsuf : c <:+ l := by
            rw [hc1]
            exact ((List.dropWhile_suffix isJsWs).trans ha1).trans
              (List.dropWhile_suffix isJsWs)
          have hcore : coreAtB c = true := by
            unfold coreAtB
            rw [h3]
            rfl
          have hle : (l.dropWhile isJsWs).length ≤ l.length :=
            (List.dropWhile_suffix isJsWs).length_le
          refine ⟨c, hsuf, hcore, ?_⟩
          simp only [List.length] at ha2
          omega
  · cases h

theorem tryR2At_core (l r : List Char) (h : tryR2At l = some r) :
    ∃ s, s <:+ l ∧ coreAtB s = true ∧ s.length + 4 ≤ l.length := by
  unfold tryR2At at h
  cases h1 : dropLitCI "---".data (l.dropWhile isJsWs) with
  | none => simp [h1] at h
  | some b =>
    simp only [h1] at h
    cases h2 : wsThenNl b with
    | none => simp [h2] at h
    | some c =>
      simp only [h2] at h
      cases h3 : dropCore c with
      | none => simp [h3] at h
      | some f =>
        obtain ⟨ha1, ha2⟩ := dropLitCI_suffix_len _ _ _ h1
        obtain ⟨hc1, hc2⟩ := wsThenNl_eq _ _ h2
        have hsuf : c <:+ l := by
          rw [hc1]
          exact ((List.dropWhile_suffix isJsWs).trans ha1).trans
            (List.dropWhile_suffix isJsWs)
        have hcore : coreAtB c = true := by
          unfold coreAtB
          rw [h3]
          rfl
        have hle : (l.dropWhile isJsWs).length ≤ l.length :=
          (List.dropWhile_suffix isJsWs).length_le
        refine ⟨c, hsuf, hcore, ?_⟩
        simp only [List.length] at ha2
        omega

theorem scanReplace_id (tryAt : Option Char → List Char → Option (List Char)) :
    ∀ (l : List Char), (∀ prev s, s <:+ l → tryAt prev s = none) →
      ∀ prev acc, scanReplace tryAt prev acc l = acc.reverse ++ l := by
  intro l
  induction l with
  | nil =>
    intro _ prev acc
    simp [scanReplace]
  | cons c cs ih =>
    intro H prev acc
    have h0 : tryAt prev (c :: cs) = none := H prev (c :: cs) List.suffix_rfl
    simp only [scanReplace, h0]
    rw [ih (fun prev2 s hs => H prev2 s (hs.trans (List.suffix_cons c cs))) (some c) (c :: acc)]
    simp

theorem r1Replace_id (l : List Char) (h : hasCore l = false) : r1Replace l = l := by
  have H : ∀ prev s, s <:+ l → tryR1At prev s = none := by
    intro prev s hs
    cases htry : tryR1At prev s with
    | none => rfl
    | some r =>
      obtain ⟨s2, hs2, hc, _⟩ := tryR1At_core prev s r htry
      rw [hasCore_of_suffix l s2 (hs2.trans hs) hc] at h
      cases h
  simpa [r1Replace] using scanReplace_id tryR1At l H none []

theorem r2Replace_id (l : List Char) (h : hasCore l = false) : r2Replace l = l := by
  have H : ∀ (prev : Option Char) s, s <:+ l → tryR2At s = none := by
    intro prev s hs
    cases htry : tryR2At s with
    | none => rfl
    | some r =>
      obtain ⟨s2, hs2, hc, _⟩ := tryR2At_core s r htry
      rw [hasCore_of_suffix l s2 (hs2.trans hs) hc] at h
      cases h
  simpa [r2Replace] using scanReplace_id (fun _ s => tryR2At s) l H none []

theorem r3Replace_id (l : List Char) (h : hasCore l = false) : r3Replace l = l := by
  have H : ∀ prev s, s <:+ l → tryR3At prev s = none := by
    intro prev s hs
    cases htry : tryR3At prev s with
    | none => rfl
    | some r =>
      exfalso
      unfold tryR3At at htry
      split at htry
      · cases h3 : dropCore s with
        | none => simp [h3] at htry
        | some f =>
          have hc : coreAtB s = true := by
            unfold coreAtB
            rw [h3]
            rfl
          rw [hasCore_of_suffix l s hs hc] at h
          cases h
      · cases htry
  simpa [r3Replace] using scanReplace_id tryR3At l H none []

theorem stripCore_of_noCore (l : List Char) (h : hasCore l = false) :
    stripCore l = jsTrimL l := by
  unfold stripCore
  rw [r1Replace_id l h, r2Replace_id l h, r3Replace_id l h]

theorem suffix_append_cases (x y s : List Char) (h : s <:+ x ++ y) :
    s <:+ y ∨ ∃ d, d <:+ x ∧ d ≠ [] ∧ s = d ++ y := by
  induction x with
  | nil => exact Or.inl (by simpa using h)
  | cons c cs ih =>
    rcases List.suffix_cons_iff.mp (by simpa using h) with h1 | h1
    · exact Or.inr ⟨c :: cs, List.suffix_rfl, by simp, by simpa using h1⟩
    · rcases ih h1 with h2 | ⟨d, hd1, hd2, hd3⟩
      · exact Or.inl h2
      · exact Or.inr ⟨d, hd1.trans (List.suffix_cons c cs), hd2, hd3⟩

theorem sentinel_tails_headNotM :
    ∀ dj ∈ sentinelBlock.tails, dj = sentinelBlock ∨ dj = [] ∨ headNotM dj = true := by
  decide

theorem dropLit_m10_headNotM (l y : List Char) (h1 : headNotM l = true) (h2 : l ≠ []) :
    dropLitCI "managedBy:".data (l ++ y) = none := by
  cases l with
  | nil => exact absurd rfl h2
  | cons c cs =>
    have hc : ¬ c.toLower = 'm' := by simpa [headNotM] using h1
    have hm : Char.toLower 'm' = 'm' := by decide
    show dropLitCI ('m' :: "anagedBy:".data) (c :: (cs ++ y)) = none
    simp [dropLitCI, hm, hc]

theorem coreAtB_block_suffix_false (t dj : List Char) (hdj : dj <:+ sentinelBlock)
    (hne : dj ≠ []) (hnefull : dj ≠ sentinelBlock) :
    coreAtB (dj ++ t) = false := by
  have hmem : dj ∈ sentinelBlock.tails := (List.mem_tails dj sentinelBlock).mpr hdj
  rcases sentinel_tails_headNotM dj hmem with h | h | h
  · exact absurd h hnefull
  · exact absurd h hne
  · unfold coreAtB dropCore
    rw [dropLit_m10_headNotM dj t h hne]
    rfl

theorem tryR1_fail_on_block (t : List Char) (hnc : hasCore t = false) :
    ∀ s, s <:+ sentinelBlock ++ t → ∀ prev, tryR1At prev s = none := by
  intro s hs prev
  cases htry : tryR1At prev s with
  | none => rfl
  | some r =>
    exfalso
    obtain ⟨s2, hs2, hcore, hlen⟩ := tryR1At_core prev s r htry
    have hs3 : s2 <:+ sentinelBlock ++ t := hs2.trans hs
    rcases suffix_append_cases sentinelBlock t s2 hs3 with h1 | ⟨d, hd1, hd2, rfl⟩
    · rw [hasCore_of_suffix t s2 h1 hcore] at hnc
      cases hnc
    · by_cases hfull : d = sentinelBlock
      · subst hfull
        have h2 : s.length ≤ (sentinelBlock ++ t).length := hs.length_le
        rw [List.length_append] at hlen h2
        omega
      · rw [coreAtB_block_suffix_false t d hd1 hd2 hfull] at hcore
        cases hcore

theorem tryR2_fail_on_block (t : List Char) (hnc : hasCore t = false) :
    ∀ s, s <:+ sentinelBlock ++ t → tryR2At s = none := by
  intro s hs
  cases htry : tryR2At s with
  | none => rfl
  | some r =>
    exfalso
    obtain ⟨s2, hs2, hcore, hlen⟩ := tryR2At_core s r htry
    have hs3 : s2 <:+ sentinelBlock ++ t := hs2.trans hs
    rcases suffix_append_cases sentinelBlock t s2 hs3 with h1 | ⟨d, hd1, hd2, rfl⟩
    · rw [hasCore_of_suffix t s2 h1 hcore] at hnc
      cases hnc
    · by_cases hfull : d = sentinelBlock
      · subst hfull
        have h2 : s.length ≤ (sentinelBlock ++ t).length := hs.length_le
        rw [List.length_append] at hlen h2
        omega
      · rw [coreAtB_block_suffix_false t d hd1 hd2 hfull] at hcore
        cases hcore

theorem tryR3_on_block (t : List Char) (hlt : t.dropWhile isJsWs = t) :
    tryR3At none (sentinelBlock ++ t) = some t := by
  have h1 : dropCore (sentinelBlock ++ t) = some ('\n' :: '\n' :: t) := rfl
  unfold tryR3At
  rw [h1]
  have h2 : ('\n' :: '\n' :: t).dropWhile isJsWs = t := by
    rw [List.dropWhile_cons, if_pos (by decide), List.dropWhile_cons, if_pos (by decide), hlt]
  simp [lineStart, h2]

theorem r3Replace_block (t : List Char) (hlt : t.dropWhile isJsWs = t) :
    r3Replace (sentinelBlock ++ t) = t := by
  have h := tryR3_on_block t hlt
  have hshape : sentinelBlock ++ t = 'm' :: ("anagedBy: linear-engine\n\n".data ++ t) := rfl
  unfold r3Replace
  rw [hshape] at h ⊢
  simp only [scanReplace, h]
  rfl

theorem stripCore_block (t : List Char) (hnc : hasCore t = false)
    (hlt : t.dropWhile isJsWs = t) (hrt : jsTrimL t = t) :
    stripCore (sentinelBlock ++ t) = t := by
  unfold stripCore
  have hr1 : r1Replace (sentinelBlock ++ t) = sentinelBlock ++ t := by
    simpa [r1Replace] using
      scanReplace_id tryR1At (sentinelBlock ++ t)
        (fun prev s hs => tryR1_fail_on_block t hnc s hs prev) none []
  have hr2 : r2Replace (sentinelBlock ++ t) = sentinelBlock ++ t := by
    simpa [r2Replace] using
      scanReplace_id (fun _ s => tryR2At s) (sentinelBlock ++ t)
        (fun prev s hs => tryR2_fail_on_block t hnc s hs) none []
  rw [hr1, hr2, r3Replace_block t hlt, hrt]

theorem stripCore_sentinel : stripCore managedMetadataLine.data = [] := by decide

theorem string_ne_empty_of_data (s : String) (h : s.data ≠ []) : s ≠ "" := by
  intro he
  subst he
  exact h rfl

/-- C10 amended: for every description `d` in which the core marker pattern
`managedBy:` + whitespace + `linear-engine` does not occur (case-insensitively
— the condition the stripper itself tests for), stripping the canonical
sentinel wrapping recovers the trimmed description:
`stripManagedMetadata (ensureManagedMetadata d) = d.trim`. -/
theorem c10_amended (d : String) (h : hasCore d.data = false) :
    stripManagedMetadata (some (ensureManagedMetadata d)) = jsTrim d := by
  have hstrip : stripManagedMetadata (some d) = jsTrim d := by
    show (if d = "" then "" else String.mk (stripCore d.data)) = jsTrim d
    by_cases hd : d = ""
    · subst hd
      rfl
    · rw [if_neg hd, stripCore_of_noCore d.data h]
      rfl
  unfold ensureManagedMetadata
  rw [hstrip]
  by_cases ht : jsTrim d = ""
  · rw [if_pos ht, ht]
    decide
  · rw [if_neg ht]
    have hdata : (managedMetadataLine ++ "\n\n" ++ jsTrim d).data =
        sentinelBlock ++ (jsTrim d).data := by
      rw [String.data_append, String.data_append]
      rfl
    have hne : (managedMetadataLine ++ "\n\n" ++ jsTrim d) ≠ "" := by
      apply string_ne_empty_of_data
      rw [hdata]
      intro hcontra
      cases hcontra
    show (if (managedMetadataLine ++ "\n\n" ++ jsTrim d) = "" then ""
      else String.mk (stripCore (managedMetadataLine ++ "\n\n" ++ jsTrim d).data)) = jsTrim d
    rw [if_neg hne, hdata]
    have h1 : hasCore (jsTrim d).data = false := hasCore_trim d.data h
    have h2 : (jsTrim d).data.dropWhile isJsWs = (jsTrim d).data :=
      jsTrimL_leftTrimmed d.data
    have h3 : jsTrimL (jsTrim d).data = (jsTrim d).data := jsTrimL_idem d.data
    rw [stripCore_block (jsTrim d).data h1 h2 h3]

theorem c10_amended_witness :
    stripManagedMetadata (some (ensureManagedMetadata "Hello\nWorld")) =
      jsTrim "Hello\nWorld" :=
  c10_amended "Hello\nWorld" (by decide)

/-- C8 counterexample: the source resolves the issue before validating the
comment text (issue.ts:129-133), so with blank text the remote lookup is
performed anyway — and with an unknown key and blank text the failure is the
lookup failure, not the validation failure. -/
theorem c8_counterexample :
    jsTrim " " = "" ∧
    (addCommentToIssue c8World "COG-1" " ").2 = [RemoteCall.getIssueByKey "COG-1"] ∧
    (addCommentToIssue c8World "COG-1" " ").1 =
      Except.error "Comment text is required." ∧
    (addCommentToIssue c8World "NOPE-1" " ").1 =
      Except.error "Issue not found: NOPE-1" := by
  refine ⟨by decide, by decide, by decide, by decide⟩

/-- C8 amended: `comment(key, text)` first resolves the issue (performing the
remote lookup, and failing there if the key is unknown); only then does it
validate that the text is non-empty after trimming, failing without creating
a comment; for non-empty text it creates the comment with the trimmed body
and returns the issue key. -/
theorem c8_amended (w : World) (key text : String) :
    (jsTrim key ≠ "" → getIssueByKeyW w (jsTrim key) = none →
      addCommentToIssue w key text =
        (Except.error ("Issue not found: " ++ jsTrim key),
         [RemoteCall.getIssueByKey (jsTrim key)])) ∧
    (jsTrim key ≠ "" → ∀ i, getIssueByKeyW w (jsTrim key) = some i → jsTrim text = "" →
      addCommentToIssue w key text =
        (Except.error "Comment text is required.",
         [RemoteCall.getIssueByKey (jsTrim key)])) ∧
    (jsTrim key ≠ "" → ∀ i, getIssueByKeyW w (jsTrim key) = some i → jsTrim text ≠ "" →
      addCommentToIssue w key text =
        (Except.ok (i.identifier.getD key),
         [RemoteCall.getIssueByKey (jsTrim key),
          RemoteCall.createComment i.id (jsTrim text)])) := by
  refine ⟨?_, ?_, ?_⟩
  · intro hk hnone
    simp [addCommentToIssue, getRequiredIssueByKey, hk, hnone]
  · intro hk i hfound htext
    simp [addCommentToIssue, getRequiredIssueByKey, hk, hfound, htext]
  · intro hk i hfound htext
    simp [addCommentToIssue, getRequiredIssueByKey, hk, hfound, htext]

theorem c8_amended_witness :
    addCommentToIssue c8World "COG-1" " hi " =
      (Except.ok "COG-1",
       [RemoteCall.getIssueByKey "COG-1", RemoteCall.createComment "i1" "hi"]) :=
  (c8_amended c8World "COG-1" " hi ").2.2 (by decide)
    { id := "i1", identifier := some "COG-1", title := "T" } (by decide) (by decide)

theorem find?_eq_of_mem_nodup (states : List WorkflowState) (t : WorkflowState)
    (hmem : t ∈ states) (hnd : (states.map (fun s => s.id)).Nodup) :
    states.find? (fun s => s.id = t.id) = some t := by
  induction states with
  | nil => cases hmem
  | cons x xs ih =>
    rcases List.mem_cons.mp hmem with rfl | hmem2
    · simp [List.find?_cons]
    · simp only [List.map_cons, List.nodup_cons] at hnd
      have hxne : ¬ x.id = t.id := by
        intro he
        exact hnd.1 (he ▸ List.mem_map_of_mem (fun s => s.id) hmem2)
      simp [List.find?_cons, hxne, ih hmem2 hnd.2]

/-- C6: `move(key, stateName)` fails when the key resolves to no issue, fails
when the issue has no team, fails when no workflow state of the team matches
the target name case-insensitively; otherwise it issues exactly one state
update call when and only when the current state differs from the target, and
returns the issue key with the previous and new state names — equal (given
the workflow state ids of the team are distinct) when the issue was already
in the target state, which is a no-op success, not an error. -/
theorem c6_move (w : World) (key stateName : String) :
    (jsTrim key ≠ "" → getIssueByKeyW w (jsTrim key) = none →
      (moveIssueByKeyToState w key stateName).1 =
        Except.error ("Issue not found: " ++ jsTrim key)) ∧
    (jsTrim key ≠ "" → jsTrim stateName ≠ "" →
     ∀ i, getIssueByKeyW w (jsTrim key) = some i → truthyOpt i.teamId = none →
      (moveIssueByKeyToState w key stateName).1 =
        Except.error ("Issue \"" ++ i.identifier.getD key ++
          "\" has no team and cannot be moved.")) ∧
    (jsTrim key ≠ "" → jsTrim stateName ≠ "" →
     ∀ i team states, getIssueByKeyW w (jsTrim key) = some i →
      truthyOpt i.teamId = some team →
      getWorkflowStatesByTeamW w team = Except.ok states →
      findStateByName states (jsTrim stateName) = none →
      (moveIssueByKeyToState w key stateName).1 =
        Except.error ("State not found in team workflow: " ++ jsTrim stateName)) ∧
    (jsTrim key ≠ "" → jsTrim stateName ≠ "" →
     ∀ i team states target, getIssueByKeyW w (jsTrim key) = some i →
      truthyOpt i.teamId = some team →
      getWorkflowStatesByTeamW w team = Except.ok states →
      findStateByName states (jsTrim stateName) = some target →
      (moveIssueByKeyToState w key stateName).1 =
        Except.ok ⟨i.identifier.getD key, getStateNameById states i.stateId,
          target.name⟩ ∧
      (moveIssueByKeyToState w key stateName).2.2.filter isStateUpdateCall =
        (if i.stateId ≠ some target.id then
          [RemoteCall.updateIssueState i.id target.id] else []) ∧
      (moveIssueByKeyToState w key stateName).2.1 =
        (if i.stateId ≠ some target.id then
          updateIssueW w i.id (fun j => { j with stateId := some target.id }) else w) ∧
      (i.stateId = some target.id → target.id ≠ "" →
        (states.map (fun s => s.id)).Nodup →
        getStateNameById states i.stateId = target.name)) := by
  refine ⟨?_, ?_, ?_, ?_⟩
  · intro hk hnone
    simp [moveIssueByKeyToState, getRequiredIssueByKey, hk, hnone]
  · intro hk hs i hfound hteam
    simp [moveIssueByKeyToState, getRequiredIssueByKey, hk, hs, hfound, hteam]
  · intro hk hs i team states hfound hteam hstates hnostate
    simp [moveIssueByKeyToState, getRequiredIssueByKey, hk, hs, hfound, hteam,
      hstates, hnostate]
  · intro hk hs i team states target hfound hteam hstates htarget
    have hbase : moveIssueByKeyToState w key stateName =
        (if i.stateId ≠ some target.id then
          (Except.ok ⟨i.identifier.getD key, getStateNameById states i.stateId,
            target.name⟩,
           updateIssueW w i.id (fun j => { j with stateId := some target.id }),
           [RemoteCall.getIssueByKey (jsTrim key), RemoteCall.getWorkflowStates team,
            RemoteCall.updateIssueState i.id target.id])
         else
          (Except.ok ⟨i.identifier.getD key, getStateNameById states i.stateId,
            target.name⟩, w,
           [RemoteCall.getIssueByKey (jsTrim key),
            RemoteCall.getWorkflowStates team])) := by
      by_cases hdiff : i.stateId = some target.id
      · simp [moveIssueByKeyToState, getRequiredIssueByKey, hk, hs, hfound, hteam,
          hstates, htarget, hdiff]
      · simp [moveIssueByKeyToState, getRequiredIssueByKey, hk, hs, hfound, hteam,
          hstates, htarget, hdiff]
    refine ⟨?_, ?_, ?_, ?_⟩
    · rw [hbase]
      by_cases hdiff : i.stateId = some target.id <;> simp [hdiff]
    · rw [hbase]
      by_cases hdiff : i.stateId = some target.id <;>
        simp [hdiff, isStateUpdateCall, List.filter]
    · rw [hbase]
      by_cases hdiff : i.stateId = some target.id <;> simp [hdiff]
    · intro heq hid hnd
      have hmem : target ∈ states := by
        unfold findStateByName at htarget
        split at htarget
        · cases htarget
        · exact List.mem_of_find?_eq_some htarget
      rw [heq]
      unfold getStateNameById
      simp only [if_neg hid]
      rw [find?_eq_of_mem_nodup states target hmem hnd]

theorem c6_move_witness :
    (moveIssueByKeyToState c6World "COG-12" "in progress").1 =
      Except.ok ⟨"COG-12", "Todo", "In Progress"⟩ ∧
    (moveIssueByKeyToState c6World "COG-12" "in progress").2.2.filter
      isStateUpdateCall = [RemoteCall.updateIssueState "i1" "s2"] := by
  have h := (c6_move c6World "COG-12" "in progress").2.2.2 (by decide) (by decide)
    { id := "i1", identifier := some "COG-12", title := "Implement API",
      teamId := some "t1", stateId := some "s1" }
    "t1"
    [⟨"s1", "Todo", none, none⟩, ⟨"s2", "In Progress", none, none⟩]
    ⟨"s2", "In Progress", none, none⟩
    (by decide) (by decide) (by decide) (by decide)
  exact ⟨h.1, h.2.1⟩

/-- C4: within sync (processEpic / processStory invoke `syncIssueAssignee`
with the flag `jsTruthy field` and a desired id from
`resolveDesiredAssigneeId field curUid`): when the spec entry has no truthy
assignee field, the desired id resolves to the current user, an issue that
already has an assignee is left untouched with no update call and no record,
and an unassigned issue is assigned to the current user with an Updated
record; when the spec sets a (truthy) assignee, the issue assignee is forced
to the resolved desired id exactly when it differs, with the Updated record
"assignee set from spec" emitted only when a change occurs. -/
theorem c4_assignee (w : World) (issue : Issue) (curUid : String)
    (assigneeField : Option String) (entity : SyncEntity) (name : String) :
    (jsTruthy assigneeField = false →
      resolveDesiredAssigneeId w assigneeField curUid = Except.ok (curUid, [])) ∧
    (jsTruthy assigneeField = false → getIssueAssigneeId issue ≠ none →
      syncIssueAssignee w issue curUid (jsTruthy assigneeField) entity name =
        (issue, w, [], [])) ∧
    (jsTruthy assigneeField = false → getIssueAssigneeId issue = none →
      syncIssueAssignee w issue curUid (jsTruthy assigneeField) entity name =
        ({ issue with assigneeId := some curUid },
         updateIssueW w issue.id (fun j => { j with assigneeId := some curUid }),
         [⟨SyncStatus.Updated, entity, name, some "Assigned issue to current user"⟩],
         [RemoteCall.updateIssueAssignee issue.id curUid])) ∧
    (∀ desired,
      (getIssueAssigneeId issue ≠ some desired →
        syncIssueAssignee w issue desired true entity name =
          ({ issue with assigneeId := some desired },
           updateIssueW w issue.id (fun j => { j with assigneeId := some desired }),
           [⟨SyncStatus.Updated, entity, name, some "assignee set from spec"⟩],
           [RemoteCall.updateIssueAssignee issue.id desired])) ∧
      (getIssueAssigneeId issue = some desired →
        syncIssueAssignee w issue desired true entity name = (issue, w, [], []))) := by
  refine ⟨?_, ?_, ?_, ?_⟩
  · intro hf
    cases assigneeField with
    | none => rfl
    | some r =>
      have hr : r = "" := by
        by_contra hne
        simp [jsTruthy, hne] at hf
      subst hr
      rfl
  · intro hf hcur
    rw [hf]
    simp [syncIssueAssignee, hcur]
  · intro hf hcur
    rw [hf]
    simp [syncIssueAssignee, hcur]
  · intro desired
    constructor
    · intro hne
      simp [syncIssueAssignee, hne]
    · intro heq
      simp [syncIssueAssignee, heq]

theorem c4_assignee_witness :
    syncIssueAssignee c8World
      { id := "i1", identifier := some "COG-1", title := "T",
        assigneeId := some "u2" }
      "u1" (jsTruthy none) SyncEntity.epic "Epic A" =
      ({ id := "i1", identifier := some "COG-1", title := "T",
         assigneeId := some "u2" }, c8World, [], []) :=
  (c4_assignee c8World
      { id := "i1", identifier := some "COG-1", title := "T",
        assigneeId := some "u2" }
      "u1" none SyncEntity.epic "Epic A").2.1 (by decide) (by decide)

/-- C2 counterexample: in a world where the epic issue is already attached to
the resolved milestone (projectMilestoneId = "m1" and the resolved name "M1"
has id "m1"), a sync run still emits the milestone-assignment record and
still issues the milestone update call, contradicting the claim that no
record is emitted and no update call is made in that case. -/
theorem c2_counterexample :
    (∃ r, syncProject c2Spec c2World = Except.ok r ∧
      (⟨SyncStatus.Updated, SyncEntity.milestoneAssignment, "Epic A",
        some "milestone assigned: M1"⟩ : SyncAction) ∈ r.2.1 ∧
      RemoteCall.updateIssueMilestone "i1" "m1" ∈ r.2.2) ∧
    (c2World.issues.map (fun i => (i.id, i.projectMilestoneId))) =
      [("i1", some "m1")] := by
  refine ⟨⟨_, rfl, by decide, by decide⟩, by decide⟩

/-- C2 amended: `attachIssueToMilestone` attaches (and returns true, which is
exactly when ensureEpicsAndStories emits the entity record and the
milestone-assignment record) precisely when the trimmed milestone name is
non-empty, the project is found and supports milestone querying, and a
milestone of that exact name exists — a condition that does not read the
issue at all, so a milestone already correctly attached is re-assigned and
re-reported on every run; when the condition fails nothing is updated. -/
theorem c2_amended (w : World) (issueId projectId milestoneName : String) :
    ((attachIssueToMilestone w issueId projectId milestoneName).1 =
      (attachCond w projectId milestoneName).isSome) ∧
    (∀ mid, attachCond w projectId milestoneName = some mid →
      attachIssueToMilestone w issueId projectId milestoneName =
        (true,
         updateIssueW w issueId (fun j => { j with projectMilestoneId := some mid }),
         [RemoteCall.getProjects, RemoteCall.fetchProjectMilestones projectId,
          RemoteCall.updateIssueMilestone issueId mid])) ∧
    (attachCond w projectId milestoneName = none →
      (attachIssueToMilestone w issueId projectId milestoneName).2.1 = w ∧
      ((attachIssueToMilestone w issueId projectId milestoneName).2.2.filter
        isMilestoneUpdateCall) = []) ∧
    (∀ entity nm mn,
      (attachWithRecords w issueId projectId entity nm (some mn)).2.1 =
        (if (attachIssueToMilestone w issueId projectId mn).1 then
          [⟨SyncStatus.Updated, entity, nm, some "milestone assigned"⟩,
           ⟨SyncStatus.Updated, SyncEntity.milestoneAssignment, nm,
            some ("milestone assigned: " ++ mn)⟩]
         else [])) := by
  refine ⟨?_, ?_, ?_, ?_⟩
  · by_cases h1 : jsTrim milestoneName = ""
    · simp [attachIssueToMilestone, attachCond, h1]
    · cases h2 : w.projects.find? (fun c => c.id = projectId) with
      | none => simp [attachIssueToMilestone, attachCond, h1, h2]
      | some proj =>
        by_cases h3 : proj.hasMilestonesFn
        · cases h4 : proj.milestones.find? (fun m => m.name = jsTrim milestoneName) with
          | none => simp [attachIssueToMilestone, attachCond, h1, h2, h3, h4]
          | some m => simp [attachIssueToMilestone, attachCond, h1, h2, h3, h4]
        · simp [attachIssueToMilestone, attachCond, h1, h2, h3]
  · intro mid hc
    by_cases h1 : jsTrim milestoneName = ""
    · simp [attachCond, h1] at hc
    · cases h2 : w.projects.find? (fun c => c.id = projectId) with
      | none => simp [attachCond, h1, h2] at hc
      | some proj =>
        by_cases h3 : proj.hasMilestonesFn
        · cases h4 : proj.milestones.find? (fun m => m.name = jsTrim milestoneName) with
          | none => simp [attachCond, h1, h2, h3, h4] at hc
          | some m =>
            simp only [attachCond, h1, h2, h3, h4, if_neg, Bool.not_true,
              Bool.false_eq_true, if_false, Option.map_some] at hc
            simp_all [attachIssueToMilestone, attachCond, h1, h2, h3, h4]
        · simp [attachCond, h1, h2, h3] at hc
  · intro hc
    by_cases h1 : jsTrim milestoneName = ""
    · simp [attachIssueToMilestone, h1]
    · cases h2 : w.projects.find? (fun c => c.id = projectId) with
      | none => simp [attachIssueToMilestone, h1, h2, isMilestoneUpdateCall]
      | some proj =>
        by_cases h3 : proj.hasMilestonesFn
        · cases h4 : proj.milestones.find? (fun m => m.name = jsTrim milestoneName) with
          | none => simp [attachIssueToMilestone, h1, h2, h3, h4, isMilestoneUpdateCall]
          | some m => simp [attachCond, h1, h2, h3, h4] at hc
        · simp [attachIssueToMilestone, h1, h2, h3, isMilestoneUpdateCall]
  · intro entity nm mn
    by_cases h : (attachIssueToMilestone w issueId projectId mn).1
    · simp [attachWithRecords, h]
    · simp [attachWithRecords, h]

theorem c2_amended_witness :
    attachIssueToMilestone c2World "i1" "p1" "M1" =
      (true,
       updateIssueW c2World "i1" (fun j => { j with projectMilestoneId := some "m1" }),
       [RemoteCall.getProjects, RemoteCall.fetchProjectMilestones "p1",
        RemoteCall.updateIssueMilestone "i1" "m1"]) :=
  (c2_amended c2World "i1" "p1" "M1").2.1 "m1" (by decide)

theorem firstMissing_none (avail : List String) :
    ∀ l, firstMissing avail l = none → ∀ n ∈ l, n ∈ avail := by
  intro l
  induction l with
  | nil => intro _ n hn; cases hn
  | cons m rest ih =>
    intro h n hn
    unfold firstMissing at h
    by_cases hc : avail.contains m
    · rw [if_pos hc] at h
      rcases List.mem_cons.mp hn with rfl | hn2
      · simpa using hc
      · exact ih h n hn2
    · rw [if_neg hc] at h
      cases h

theorem getProjectMilestones_ok_true (w : World) (p : RemoteProject)
    (ms : List Milestone) (tr : List RemoteCall)
    (h : getProjectMilestones w p true = Except.ok (ms, tr)) :
    p.hasMilestonesFn = true ∧ ms = milestonesOf w p.id := by
  unfold getProjectMilestones at h
  by_cases hp : p.hasMilestonesFn
  · simp only [hp, Bool.not_true, Bool.false_eq_true, if_false, if_neg] at h
    refine ⟨hp, ?_⟩
    injection h with h2
    injection h2
    simp_all
  · simp [hp] at h

/-- C5: in milestone reconciliation, (a) when the desired milestone name set
is non-empty and the project does not support milestone querying, the whole
sync fails with an error; (b) a successful milestone step guarantees every
desired name resolves to an existing milestone of the project in the
resulting state (the re-fetch-and-verify guard); (c) when the desired set is
empty the whole step is skipped: no fetch, no creation, no report records,
no state change. -/
theorem c5_milestones (spec : ProjectSpec) (p : RemoteProject) (w : World) :
    (collectDesiredMilestoneNames spec ≠ [] → p.hasMilestonesFn = false →
      ensureMilestones spec p w =
        Except.error "Unable to query project milestones for this project.") ∧
    (∀ w2 acts tr, ensureMilestones spec p w = Except.ok (w2, acts, tr) →
      ∀ n ∈ collectDesiredMilestoneNames spec,
        n ∈ (milestonesOf w2 p.id).map (fun m => m.name)) ∧
    (collectDesiredMilestoneNames spec = [] →
      ensureMilestones spec p w = Except.ok (w, [], [])) := by
  refine ⟨?_, ?_, ?_⟩
  · intro hne hp
    have hie : (collectDesiredMilestoneNames spec).isEmpty = false := by
      cases hh : collectDesiredMilestoneNames spec with
      | nil => exact absurd hh hne
      | cons a l => simp [hh]
    simp only [ensureMilestones, hie, Bool.false_eq_true, if_false, if_neg]
    simp [getProjectMilestones, hp]
  · intro w2 acts tr h n hn
    have hie : (collectDesiredMilestoneNames spec).isEmpty = false := by
      cases hh : collectDesiredMilestoneNames spec with
      | nil => rw [hh] at hn; cases hn
      | cons a l => simp [hh]
    simp only [ensureMilestones, hie, Bool.false_eq_true, if_false, if_neg] at h
    cases h1 : getProjectMilestones w p true with
    | error e => simp only [h1] at h; exact Except.noConfusion h
    | ok pr1 =>
      obtain ⟨a1, b1⟩ := pr1
      simp only [h1] at h
      cases h2 : createMissingMilestones p.id (a1.map (fun m => m.name))
          (collectDesiredMilestoneNames spec) w with
      | error e => simp only [h2] at h; exact Except.noConfusion h
      | ok pr2 =>
        obtain ⟨w1, pr2b⟩ := pr2
        obtain ⟨acts1, tr1⟩ := pr2b
        simp only [h2] at h
        cases h3 : getProjectMilestones w1 p true with
        | error e => simp only [h3] at h; exact Except.noConfusion h
        | ok pr3 =>
          obtain ⟨resolved, tr3⟩ := pr3
          simp only [h3] at h
          cases h4 : firstMissing (resolved.map (fun m => m.name))
              (collectDesiredMilestoneNames spec) with
          | some m => simp only [h4] at h; exact Except.noConfusion h
          | none =>
            simp only [h4] at h
            obtain ⟨hfn, hres⟩ := getProjectMilestones_ok_true w1 p resolved tr3 h3
            have hw : w2 = w1 := by
              injection h with h5
              injection h5 with h6 h7
              exact h6.symm
            rw [hw, ← hres]
            exact firstMissing_none (resolved.map (fun m => m.name)) _ h4 n hn
  · intro hd
    simp [ensureMilestones, hd]

theorem c5_milestones_witness :
    ensureMilestones c2Spec c5NoMilestoneProject c2World =
      Except.error "Unable to query project milestones for this project." ∧
    (∀ n ∈ collectDesiredMilestoneNames c2Spec,
      n ∈ (milestonesOf c2World "p1").map (fun m => m.name)) ∧
    ensureMilestones c5EmptySpec c5NoMilestoneProject c2World =
      Except.ok (c2World, [], []) := by
  refine ⟨(c5_milestones c2Spec c5NoMilestoneProject c2World).1 (by decide) (by decide),
    ?_, (c5_milestones c5EmptySpec c5NoMilestoneProject c2World).2.2 (by decide)⟩
  have hp : RemoteProject.id
      { id := "p1", name := "Engine", description := some "d",
        teamId := some "t1", milestones := [⟨"m1", "M1"⟩] } = "p1" := rfl
  exact fun n hn =>
    (c5_milestones c2Spec
      { id := "p1", name := "Engine", description := some "d",
        teamId := some "t1", milestones := [⟨"m1", "M1"⟩] } c2World).2.1
      c2World
      [⟨SyncStatus.Skipped, SyncEntity.milestone, "M1", some "already exists"⟩]
      [RemoteCall.fetchProjectMilestones "p1", RemoteCall.fetchProjectMilestones "p1"]
      (by decide) n hn

/-! Lemmas about the stable sort and the locale comparator (claim C9). -/

theorem insSorted_perm (le : α → α → Bool) (x : α) :
    ∀ l : List α, (insSorted le x l).Perm (x :: l) := by
  intro l
  induction l with
  | nil => simp [insSorted]
  | cons y t ih =>
    by_cases h : le y x
    · simp only [insSorted, h, if_pos]
      exact (ih.cons y).trans (List.Perm.swap x y t)
    · simp [insSorted, h]

theorem stableSortBy_perm_aux (le : α → α → Bool) :
    ∀ (l acc : List α),
      (l.foldl (fun a x => insSorted le x a) acc).Perm (acc ++ l) := by
  intro l
  induction l with
  | nil => intro acc; simp
  | cons x xs ih =>
    intro acc
    have h1 := ih (insSorted le x acc)
    have h2 : (insSorted le x acc ++ xs).Perm ((x :: acc) ++ xs) :=
      (insSorted_perm le x acc).append_right xs
    have h3 : ((x :: acc) ++ xs).Perm (acc ++ x :: xs) := by
      simpa using List.perm_middle.symm
    exact (h1.trans h2).trans h3

theorem stableSortBy_perm (le : α → α → Bool) (l : List α) :
    (stableSortBy le l).Perm l := by
  simpa [stableSortBy] using stableSortBy_perm_aux le l []

theorem insSorted_pairwise (le : α → α → Bool)
    (htot : ∀ a b, le a b || le b a)
    (htrans : ∀ a b c, le a b = true → le b c = true → le a c = true) (x : α) :
    ∀ l : List α, l.Pairwise (fun a b => le a b = true) →
      (insSorted le x l).Pairwise (fun a b => le a b = true) := by
  intro l
  induction l with
  | nil => intro _; simp [insSorted]
  | cons y t ih =>
    intro h
    rw [List.pairwise_cons] at h
    by_cases hyx : le y x
    · simp only [insSorted, hyx, if_pos]
      rw [List.pairwise_cons]
      refine ⟨?_, ih h.2⟩
      intro z hz
      rcases List.mem_cons.mp ((insSorted_perm le x t).mem_iff.mp hz) with rfl | hz2
      · exact hyx
      · exact h.1 z hz2
    · have hyx2 : le y x = false := by
        revert hyx
        cases le y x <;> simp
      simp only [insSorted, hyx2, Bool.false_eq_true, if_false, if_neg]
      have hxy : le x y = true := by
        have := htot x y
        revert this
        rw [hyx2]
        cases le x y <;> simp
      rw [List.pairwise_cons]
      constructor
      · intro z hz
        rcases List.mem_cons.mp hz with rfl | hz2
        · exact hxy
        · exact htrans x y z hxy (h.1 z hz2)
      · rw [List.pairwise_cons]
        exact h

theorem stableSortBy_pairwise (le : α → α → Bool)
    (htot : ∀ a b, le a b || le b a)
    (htrans : ∀ a b c, le a b = true → le b c = true → le a c = true)
    (l : List α) :
    (stableSortBy le l).Pairwise (fun a b => le a b = true) := by
  suffices hgen : ∀ (m acc : List α), acc.Pairwise (fun a b => le a b = true) →
      (m.foldl (fun a x => insSorted le x a) acc).Pairwise
        (fun a b => le a b = true) by
    exact hgen l [] (by simp)
  intro m
  induction m with
  | nil => intro acc h; simpa using h
  | cons x xs ih =>
    intro acc h
    exact ih (insSorted le x acc) (insSorted_pairwise le htot htrans x acc h)

theorem lexCmpL_eq_iff : ∀ a b : List Char, lexCmpL a b = .eq ↔ a = b := by
  intro a
  induction a with
  | nil =>
    intro b
    cases b <;> simp [lexCmpL]
  | cons c cs ih =>
    intro b
    cases b with
    | nil => simp [lexCmpL]
    | cons d ds =>
      by_cases hcd : c = d
      · subst hcd
        simp [lexCmpL, ih]
      · by_cases hlt : c.toNat < d.toNat
        · simp [lexCmpL, hcd, hlt]
        · simp [lexCmpL, hcd, hlt]

theorem caseCmpL_eq_iff : ∀ a b : List Char, caseCmpL a b = .eq ↔ a = b := by
  intro a
  induction a with
  | nil =>
    intro b
    cases b <;> simp [caseCmpL]
  | cons c cs ih =>
    intro b
    cases b with
    | nil => simp [caseCmpL]
    | cons d ds =>
      by_cases hcd : c = d
      · subst hcd
        simp [caseCmpL, ih]
      · by_cases hlt : c.toNat > d.toNat
        · simp [caseCmpL, hcd, hlt]
        · simp [caseCmpL, hcd, hlt]

theorem lexCmpL_lt_trans :
    ∀ a b c : List Char, lexCmpL a b = .lt → lexCmpL b c = .lt →
      lexCmpL a c = .lt := by
  intro a
  induction a with
  | nil =>
    intro b c h1 h2
    cases b with
    | nil => simp [lexCmpL] at h1
    | cons d ds =>
      cases c with
      | nil => simp [lexCmpL] at h2
      | cons e es => simp [lexCmpL]
  | cons x xs ih =>
    intro b c h1 h2
    cases b with
    | nil => simp [lexCmpL] at h1
    | cons d ds =>
      cases c with
      | nil => simp [lexCmpL] at h2
      | cons e es =>
        by_cases hxd : x = d
        · subst hxd
          simp only [lexCmpL, if_pos rfl] at h1
          by_cases hde : x = e
          · subst hde
            simp only [lexCmpL, if_pos rfl] at h2 ⊢
            exact ih ds es h1 h2
          · simp only [lexCmpL, hde, if_neg, not_false_iff] at h2 ⊢
            exact h2
        · simp only [lexCmpL, hxd, if_neg, not_false_iff] at h1
          by_cases hxlt : x.toNat < d.toNat
          · by_cases hde : d = e
            · subst hde
              simp [lexCmpL, hxd, hxlt]
            · simp only [lexCmpL, hde, if_neg, not_false_iff] at h2
              by_cases hdlt : d.toNat < e.toNat
              · have hxe : x.toNat < e.toNat := Nat.lt_trans hxlt hdlt
                have hxne : ¬ x = e := by
                  intro he
                  subst he
                  omega
                simp [lexCmpL, hxne, hxe]
              · rw [if_neg hdlt] at h2
                cases h2
          · rw [if_neg hxlt] at h1
            cases h1

theorem caseCmpL_lt_trans :
    ∀ a b c : List Char, caseCmpL a b = .lt → caseCmpL b c = .lt →
      caseCmpL a c = .lt := by
  intro a
  induction a with
  | nil =>
    intro b c h1 h2
    cases b with
    | nil => simp [caseCmpL] at h1
    | cons d ds =>
      cases c with
      | nil => simp [caseCmpL] at h2
      | cons e es => simp [caseCmpL]
  | cons x xs ih =>
    intro b c h1 h2
    cases b with
    | nil => simp [caseCmpL] at h1
    | cons d ds =>
      cases c with
      | nil => simp [caseCmpL] at h2
      | cons e es =>
        by_cases hxd : x = d
        · subst hxd
          simp only [caseCmpL, if_pos rfl] at h1
          by_cases hde : x = e
          · subst hde
            simp only [caseCmpL, if_pos rfl] at h2 ⊢
            exact ih ds es h1 h2
          · simp only [caseCmpL, hde, if_neg, not_false_iff] at h2 ⊢
            exact h2
        · simp only [caseCmpL, hxd, if_neg, not_false_iff] at h1
          by_cases hxgt : x.toNat > d.toNat
          · by_cases hde : d = e
            · subst hde
              simp [caseCmpL, hxd, hxgt]
            · simp only [caseCmpL, hde, if_neg, not_false_iff] at h2
              by_cases hdgt : d.toNat > e.toNat
              · have hxe : x.toNat > e.toNat := Nat.lt_trans hdgt hxgt
                have hxne : ¬ x = e := by
                  intro he
                  subst he
                  omega
                simp [caseCmpL, hxne, hxe]
              · rw [if_neg hdgt] at h2
                cases h2
          · rw [if_neg hxgt] at h1
            cases h1

theorem char_toNat_inj (c d : Char) (h : c.toNat = d.toNat) : c = d :=
  Char.ext (UInt32.ext h)

theorem lexCmpL_swap : ∀ a b : List Char, lexCmpL a b = (lexCmpL b a).swap := by
  intro a
  induction a with
  | nil => intro b; cases b <;> simp [lexCmpL, Ordering.swap]
  | cons c cs ih =>
    intro b
    cases b with
    | nil => simp [lexCmpL, Ordering.swap]
    | cons d ds =>
      by_cases hcd : c = d
      · subst hcd
        simp [lexCmpL, ih ds]
      · have hdc : ¬ d = c := fun h2 => hcd h2.symm
        by_cases hlt : c.toNat < d.toNat
        · have h2 : ¬ d.toNat < c.toNat := by omega
          simp [lexCmpL, hcd, hdc, hlt, h2, Ordering.swap]
        · have hne : c.toNat ≠ d.toNat := fun h3 => hcd (char_toNat_inj c d h3)
          have h2 : d.toNat < c.toNat := by omega
          simp [lexCmpL, hcd, hdc, hlt, h2, Ordering.swap]

theorem caseCmpL_swap : ∀ a b : List Char, caseCmpL a b = (caseCmpL b a).swap := by
  intro a
  induction a with
  | nil => intro b; cases b <;> simp [caseCmpL, Ordering.swap]
  | cons c cs ih =>
    intro b
    cases b with
    | nil => simp [caseCmpL, Ordering.swap]
    | cons d ds =>
      by_cases hcd : c = d
      · subst hcd
        simp [caseCmpL, ih ds]
      · have hdc : ¬ d = c := fun h2 => hcd h2.symm
        by_cases hlt : c.toNat > d.toNat
        · have h2 : ¬ d.toNat > c.toNat := by omega
          simp [caseCmpL, hcd, hdc, hlt, h2, Ordering.swap]
        · have hne : c.toNat ≠ d.toNat := fun h3 => hcd (char_toNat_inj c d h3)
          have h2 : d.toNat > c.toNat := by omega
          simp [caseCmpL, hcd, hdc, hlt, h2, Ordering.swap]

theorem localeCmp_swap (a b : String) : localeCmp a b = (localeCmp b a).swap := by
  unfold localeCmp
  rw [lexCmpL_swap (a.data.map Char.toLower) (b.data.map Char.toLower),
    caseCmpL_swap a.data b.data]
  cases lexCmpL (b.data.map Char.toLower) (a.data.map Char.toLower) <;>
    cases caseCmpL b.data a.data <;> rfl

theorem localeCmp_eq_iff (a b : String) : localeCmp a b = .eq ↔ a = b := by
  unfold localeCmp
  constructor
  · intro h
    cases ho : lexCmpL (a.data.map Char.toLower) (b.data.map Char.toLower) with
    | lt => simp only [ho] at h; cases h
    | gt => simp only [ho] at h; cases h
    | eq =>
      simp only [ho] at h
      have h2 := (caseCmpL_eq_iff a.data b.data).mp h
      cases a
      cases b
      simp only at h2
      rw [h2]
  · intro h
    subst h
    rw [(lexCmpL_eq_iff _ _).mpr rfl]
    exact (caseCmpL_eq_iff _ _).mpr rfl

theorem localeCmp_le_trans (a b c : String) (h1 : localeCmp a b ≠ .gt)
    (h2 : localeCmp b c ≠ .gt) : localeCmp a c ≠ .gt := by
  unfold localeCmp at h1 h2 ⊢
  cases hab : lexCmpL (a.data.map Char.toLower) (b.data.map Char.toLower) with
  | gt => simp only [hab] at h1; exact absurd rfl h1
  | lt =>
    cases hbc : lexCmpL (b.data.map Char.toLower) (c.data.map Char.toLower) with
    | gt => simp only [hbc] at h2; exact absurd rfl h2
    | lt =>
      rw [lexCmpL_lt_trans _ _ _ hab hbc]
      simp
    | eq =>
      have hbc2 := (lexCmpL_eq_iff _ _).mp hbc
      rw [← hbc2, hab]
      simp
  | eq =>
    have hab2 := (lexCmpL_eq_iff _ _).mp hab
    simp only [hab] at h1
    cases hbc : lexCmpL (b.data.map Char.toLower) (c.data.map Char.toLower) with
    | gt => simp only [hbc] at h2; exact absurd rfl h2
    | lt =>
      rw [hab2, hbc]
      simp
    | eq =>
      simp only [hbc] at h2
      have hac : lexCmpL (a.data.map Char.toLower) (c.data.map Char.toLower) =
          .eq := by
        rw [hab2, hbc]
      rw [hac]
      cases h3 : caseCmpL a.data b.data with
      | gt => exact absurd h3 h1
      | eq =>
        have h4 := (caseCmpL_eq_iff _ _).mp h3
        rw [h4]
        exact h2
      | lt =>
        cases h4 : caseCmpL b.data c.data with
        | gt => exact absurd h4 h2
        | eq =>
          have h5 := (caseCmpL_eq_iff _ _).mp h4
          rw [← h5, h3]
          simp
        | lt =>
          rw [caseCmpL_lt_trans _ _ _ h3 h4]
          simp

theorem ordToInt_nonpos_iff (o : Ordering) : ordToInt o ≤ 0 ↔ o ≠ .gt := by
  cases o <;> decide

theorem jsLC_nonpos (x y : String) :
    jsLocaleCompare x y ≤ 0 ↔ localeCmp x y ≠ .gt :=
  ordToInt_nonpos_iff _

theorem jsLC_total (x y : String) :
    jsLocaleCompare x y ≤ 0 ∨ jsLocaleCompare y x ≤ 0 := by
  rw [jsLC_nonpos, jsLC_nonpos]
  by_cases h : localeCmp x y = .gt
  · right
    intro h2
    have := localeCmp_swap x y
    rw [h, h2] at this
    cases this
  · left
    exact h

theorem jsLC_trans (x y z : String) (h1 : jsLocaleCompare x y ≤ 0)
    (h2 : jsLocaleCompare y z ≤ 0) : jsLocaleCompare x z ≤ 0 := by
  rw [jsLC_nonpos] at h1 h2 ⊢
  exact localeCmp_le_trans x y z h1 h2

theorem jsLC_antisymm (x y : String) (h1 : jsLocaleCompare x y ≤ 0)
    (h2 : jsLocaleCompare y x ≤ 0) : x = y := by
  rw [jsLC_nonpos] at h1 h2
  have hs := localeCmp_swap x y
  cases ho : localeCmp y x with
  | gt => exact absurd ho h2
  | lt =>
    rw [ho] at hs
    exact absurd hs h1
  | eq =>
    rw [ho] at hs
    exact (localeCmp_eq_iff x y).mp hs

theorem listProjectsLe_total (a b : ListedProject) :
    listProjectsLe a b || listProjectsLe b a := by
  unfold listProjectsLe listProjectsCmp
  by_cases hn : a.name = b.name
  · have hn2 : ¬ b.name ≠ a.name := by simp [hn]
    simp only [hn, ne_eq, not_true_eq_false, if_neg, not_false_iff, hn2,
      if_false, decide_eq_true_eq]
    rcases jsLC_total a.id b.id with h | h
    · simp [h]
    · simp [h]
  · have hn2 : b.name ≠ a.name := fun h => hn h.symm
    simp only [ne_eq, hn, not_false_iff, if_pos, hn2]
    rcases jsLC_total a.name b.name with h | h
    · simp [h]
    · simp [h]

theorem listProjectsLe_trans (a b c : ListedProject)
    (h1 : listProjectsLe a b = true) (h2 : listProjectsLe b c = true) :
    listProjectsLe a c = true := by
  unfold listProjectsLe listProjectsCmp at h1 h2 ⊢
  rw [decide_eq_true_eq] at h1 h2
  rw [decide_eq_true_eq]
  by_cases hab : a.name = b.name <;> by_cases hbc : b.name = c.name
  · rw [if_neg (by simp [hab])] at h1
    rw [if_neg (by simp [hbc])] at h2
    rw [if_neg (by simp [hab.trans hbc])]
    exact jsLC_trans a.id b.id c.id h1 h2
  · rw [if_neg (by simp [hab])] at h1
    rw [if_pos (by simp [hbc])] at h2
    have hac : a.name ≠ c.name := fun h => hbc (hab.symm.trans h)
    rw [if_pos (by simp [hac]), hab]
    exact h2
  · rw [if_pos (by simp [hab])] at h1
    rw [if_neg (by simp [hbc])] at h2
    have hac : a.name ≠ c.name := fun h => hab (h.trans hbc.symm)
    rw [if_pos (by simp [hac]), ← hbc]
    exact h1
  · rw [if_pos (by simp [hab])] at h1
    rw [if_pos (by simp [hbc])] at h2
    by_cases hac : a.name = c.name
    · exfalso
      rw [hac] at h1
      exact hbc (jsLC_antisymm b.name c.name h2 h1)
    · rw [if_pos (by simp [hac])]
      exact jsLC_trans a.name b.name c.name h1 h2

/-- C9 counterexample: `listProjects` sorts names with
`String.prototype.localeCompare` (project.ts:196), which is locale-aware, not
case-sensitive ordinal: "apple" sorts before "Banana" under the root-locale
comparator, while code-point order puts "Banana" (B = U+0042) first. -/
theorem c9_counterexample :
    listProjects c9Projects ≠ claimedListProjects c9Projects ∧
    (listProjects c9Projects).map (fun p => p.name) = ["apple", "Banana"] ∧
    (claimedListProjects c9Projects).map (fun p => p.name) = ["Banana", "apple"] := by
  refine ⟨by decide, by decide, by decide⟩

/-- C9 amended: `listProjects` returns the flattened records sorted ascending
by name under the locale-aware `localeCompare` comparator (case-insensitive
primary on the case-folded code points, lower case first on ties), with ties
on equal names broken by `localeCompare` on identifiers; the output is a
permutation of the mapped input, pairwise sorted by that comparator, and —
being a pure function of its input — deterministic across repeated calls
with unchanged data. -/
theorem c9_amended (projects : List ListedProjectLike) :
    (listProjects projects).Perm (projects.map flattenProject) ∧
    (listProjects projects).Pairwise (fun a b => listProjectsLe a b = true) := by
  constructor
  · exact stableSortBy_perm listProjectsLe (projects.map flattenProject)
  · exact stableSortBy_pairwise listProjectsLe listProjectsLe_total
      listProjectsLe_trans (projects.map flattenProject)

/-- C1 counterexample: a valid ProjectSpec (all names and titles non-empty)
with two epics sharing the title "T" but different descriptions.  Both epic
specs match the same issue, so each run rewrites its description to the later
spec and the next run finds it differing again: the second run, with no
intervening remote changes, emits Updated "description synchronized" epic
records instead of only Skipped description records. -/
theorem c1_counterexample :
    SpecValid c1DupSpec = true ∧ WorldOk c1World ∧
    ∃ w1 r1 t1, syncProject c1DupSpec c1World = Except.ok (w1, r1, t1) ∧
    ∃ w2 r2 t2, syncProject c1DupSpec w1 = Except.ok (w2, r2, t2) ∧
    ∃ a ∈ r2, a.entity = SyncEntity.epic ∧ a.status = SyncStatus.Updated ∧
      a.reason = some "description synchronized" := by
  refine ⟨by decide, ⟨by decide, by decide, by decide⟩, _, _, _, rfl, _, _, _, rfl,
    ⟨SyncStatus.Updated, SyncEntity.epic, "T", some "description synchronized"⟩,
    by decide, by decide, by decide, by decide⟩

/-! Generic lemmas about the list helpers, used by the idempotence claim. -/

theorem findWithIdx_cons_pos (p : α → Bool) (a : α) (as : List α) (h : p a = true) :
    findWithIdx p (a :: as) = some (0, a) := by
  simp [findWithIdx, h]

theorem findWithIdx_cons_neg (p : α → Bool) (a : α) (as : List α) (h : p a = false) :
    findWithIdx p (a :: as) = (findWithIdx p as).map (fun r => (r.1 + 1, r.2)) := by
  simp [findWithIdx, h]

theorem findWithIdx_get (p : α → Bool) :
    ∀ (l : List α) (n : Nat) (x : α), findWithIdx p l = some (n, x) →
      l.get? n = some x ∧ p x = true := by
  intro l
  induction l with
  | nil => intro n x h; simp [findWithIdx] at h
  | cons a as ih =>
    intro n x h
    by_cases hp : p a
    · rw [findWithIdx_cons_pos p a as hp] at h
      injection h with h1
      injection h1 with hn hx
      subst hn; subst hx
      exact ⟨rfl, hp⟩
    · rw [findWithIdx_cons_neg p a as (by simpa using hp)] at h
      match hf : findWithIdx p as with
      | none => rw [hf] at h; exact Option.noConfusion h
      | some (m, y) =>
        rw [hf] at h
        injection h with h1
        injection h1 with hn hx
        subst hn; subst hx
        obtain ⟨h1, h2⟩ := ih m y hf
        exact ⟨h1, h2⟩

theorem findWithIdx_append_left (p : α → Bool) :
    ∀ (l m : List α) (r : Nat × α), findWithIdx p l = some r →
      findWithIdx p (l ++ m) = some r := by
  intro l
  induction l with
  | nil => intro m r h; simp [findWithIdx] at h
  | cons a as ih =>
    intro m r h
    by_cases hp : p a
    · rw [findWithIdx_cons_pos p a as hp] at h
      rw [List.cons_append, findWithIdx_cons_pos p a _ hp]
      exact h
    · rw [findWithIdx_cons_neg p a as (by simpa using hp)] at h
      rw [List.cons_append, findWithIdx_cons_neg p a _ (by simpa using hp)]
      match hf : findWithIdx p as with
      | none => rw [hf] at h; exact Option.noConfusion h
      | some s =>
        rw [hf] at h
        rw [ih m s hf]
        exact h

theorem findWithIdx_append_sing (p : α → Bool) :
    ∀ (l : List α) (x : α), findWithIdx p l = none → p x = true →
      findWithIdx p (l ++ [x]) = some (l.length, x) := by
  intro l
  induction l with
  | nil => intro x _ hx; simp [findWithIdx, hx]
  | cons a as ih =>
    intro x h hx
    by_cases hp : p a
    · rw [findWithIdx_cons_pos p a as hp] at h
      exact Option.noConfusion h
    · rw [findWithIdx_cons_neg p a as (by simpa using hp)] at h
      rw [List.cons_append, findWithIdx_cons_neg p a _ (by simpa using hp)]
      match hf : findWithIdx p as with
      | some s => rw [hf] at h; exact Option.noConfusion h
      | none =>
        rw [ih x hf hx]
        simp

theorem findWithIdx_set_match (p : α → Bool) :
    ∀ (l : List α) (n : Nat) (x z : α), findWithIdx p l = some (n, x) →
      p z = true → findWithIdx p (l.set n z) = some (n, z) := by
  intro l
  induction l with
  | nil => intro n x z h _; simp [findWithIdx] at h
  | cons a as ih =>
    intro n x z h hz
    by_cases hp : p a
    · rw [findWithIdx_cons_pos p a as hp] at h
      injection h with h1
      injection h1 with hn hx
      subst hn
      show findWithIdx p (z :: as) = some (0, z)
      exact findWithIdx_cons_pos p z as hz
    · rw [findWithIdx_cons_neg p a as (by simpa using hp)] at h
      match hf : findWithIdx p as with
      | none => rw [hf] at h; exact Option.noConfusion h
      | some (m, y) =>
        rw [hf] at h
        injection h with h1
        injection h1 with hn hx
        subst hn; subst hx
        show findWithIdx p (a :: as.set m z) = some (m + 1, z)
        rw [findWithIdx_cons_neg p a _ (by simpa using hp),
          ih m y z hf hz]
        rfl

theorem findWithIdx_set_other (p : α → Bool) :
    ∀ (l : List α) (n m : Nat) (x z : α), findWithIdx p l = some (n, x) →
      p z = false → m ≠ n → findWithIdx p (l.set m z) = some (n, x) := by
  intro l
  induction l with
  | nil => intro n m x z h _ _; simp [findWithIdx] at h
  | cons a as ih =>
    intro n m x z h hz hne
    match m with
    | 0 =>
      by_cases hp : p a
      · rw [findWithIdx_cons_pos p a as hp] at h
        injection h with h1
        injection h1 with hn hx
        exact absurd hn.symm (Ne.symm hne)
      · rw [findWithIdx_cons_neg p a as (by simpa using hp)] at h
        show findWithIdx p (z :: as) = some (n, x)
        rw [findWithIdx_cons_neg p z as hz]
        exact h
    | Nat.succ m0 =>
      by_cases hp : p a
      · rw [findWithIdx_cons_pos p a as hp] at h
        show findWithIdx p (a :: as.set m0 z) = some (n, x)
        rw [findWithIdx_cons_pos p a _ hp]
        exact h
      · rw [findWithIdx_cons_neg p a as (by simpa using hp)] at h
        match hf : findWithIdx p as with
        | none => rw [hf] at h; exact Option.noConfusion h
        | some (k, y) =>
          rw [hf] at h
          injection h with h1
          injection h1 with hn hx
          subst hn; subst hx
          have hne0 : m0 ≠ k := by omega
          show findWithIdx p (a :: as.set m0 z) = some (k + 1, y)
          rw [findWithIdx_cons_neg p a _ (by simpa using hp),
            ih k m0 y z hf hz hne0]
          rfl

theorem findWithIdx_map_proj (g : α → β) (q : β → Bool) :
    ∀ (l : List α),
      findWithIdx q (l.map g) =
        Option.map (fun r => (r.1, g r.2)) (findWithIdx (fun x => q (g x)) l) := by
  intro l
  induction l with
  | nil => simp [findWithIdx]
  | cons a as ih =>
    by_cases hq : q (g a)
    · rw [List.map_cons, findWithIdx_cons_pos q (g a) _ hq,
        findWithIdx_cons_pos (fun x => q (g x)) a as (by simpa using hq)]
      rfl
    · rw [List.map_cons, findWithIdx_cons_neg q (g a) _ (by simpa using hq),
        findWithIdx_cons_neg (fun x => q (g x)) a as (by simpa using hq), ih]
      match findWithIdx (fun x => q (g x)) as with
      | none => rfl
      | some r => rfl

theorem set_get_self :
    ∀ (l : List α) (n : Nat) (x : α), l.get? n = some x → l.set n x = l := by
  intro l
  induction l with
  | nil => intro n x h; exact Option.noConfusion h
  | cons a as ih =>
    intro n x h
    match n with
    | 0 =>
      injection h with hx
      subst hx
      rfl
    | Nat.succ m =>
      show a :: as.set m x = a :: as
      rw [ih m x h]

theorem map_ite_id_set [DecidableEq γ] (idf : α → γ) (upd : α → α) :
    ∀ (l : List α) (n : Nat) (j : α), (l.map idf).Nodup → l.get? n = some j →
      l.map (fun i => if idf i = idf j then upd i else i) = l.set n (upd j) := by
  intro l
  induction l with
  | nil => intro n j _ h; exact Option.noConfusion h
  | cons a as ih =>
    intro n j hnd hg
    rw [List.map_cons, List.nodup_cons] at hnd
    match n with
    | 0 =>
      injection hg with hj
      subst hj
      show (if idf a = idf a then upd a else a) ::
          as.map (fun i => if idf i = idf a then upd i else i) = upd a :: as
      rw [if_pos rfl]
      have : as.map (fun i => if idf i = idf a then upd i else i) = as.map id := by
        apply List.map_congr_left
        intro i hi
        rw [if_neg, id]
        intro he
        exact hnd.1 (he ▸ List.mem_map_of_mem idf hi)
      rw [this, List.map_id]
    | Nat.succ m =>
      have hj : j ∈ as := List.get?_mem hg
      have hne : idf a ≠ idf j := by
        intro he
        exact hnd.1 (he ▸ List.mem_map_of_mem idf hj)
      show (if idf a = idf j then upd a else a) ::
          as.map (fun i => if idf i = idf j then upd i else i) = a :: as.set m (upd j)
      rw [if_neg hne, ih m j hnd.2 hg]

theorem filter_map_swap (f : α → α) (pr : α → Bool) (hf : ∀ x, pr (f x) = pr x) :
    ∀ l : List α, (l.map f).filter pr = (l.filter pr).map f := by
  intro l
  induction l with
  | nil => simp
  | cons a as ih =>
    by_cases hp : pr a
    · rw [List.map_cons, List.filter_cons_of_pos (by rw [hf]; exact hp),
        List.filter_cons_of_pos hp, List.map_cons, ih]
    · rw [List.map_cons, List.filter_cons_of_neg (by rw [hf]; simpa using hp),
        List.filter_cons_of_neg (by simpa using hp), ih]

theorem map_map_pointwise (f : α → α) (g : α → β) (hf : ∀ x, g (f x) = g x) :
    ∀ l : List α, (l.map f).map g = l.map g := by
  intro l
  induction l with
  | nil => rfl
  | cons a as ih => simp only [List.map_cons, hf, ih]

theorem nodup_map_get_ne (f : α → β) :
    ∀ (l : List α) (n m : Nat) (x y : α), (l.map f).Nodup →
      l.get? n = some x → l.get? m = some y → n ≠ m → f x ≠ f y := by
  intro l
  induction l with
  | nil => intro n m x y _ h; exact Option.noConfusion h
  | cons a as ih =>
    intro n m x y hnd hx hy hne
    rw [List.map_cons, List.nodup_cons] at hnd
    match n, m with
    | 0, 0 => exact absurd rfl hne
    | 0, Nat.succ m0 =>
      injection hx with hx0
      subst hx0
      intro he
      exact hnd.1 (he ▸ List.mem_map_of_mem f (List.get?_mem hy))
    | Nat.succ n0, 0 =>
      injection hy with hy0
      subst hy0
      intro he
      exact hnd.1 (he.symm ▸ List.mem_map_of_mem f (List.get?_mem hx))
    | Nat.succ n0, Nat.succ m0 =>
      exact ih n0 m0 x y hnd.2 hx hy (by omega)

theorem find?_congr_proj (g : α → β) (prB : β → Bool) :
    ∀ (l m : List α), l.map g = m.map g →
      Option.map g (l.find? (fun x => prB (g x))) =
        Option.map g (m.find? (fun x => prB (g x))) := by
  intro l
  induction l with
  | nil =>
    intro m h
    cases m with
    | nil => rfl
    | cons b bs => exact absurd h (by simp)
  | cons a as ih =>
    intro m h
    cases m with
    | nil => exact absurd h (by simp)
    | cons b bs =>
      rw [List.map_cons, List.map_cons] at h
      injection h with hab hrest
      by_cases hp : prB (g a)
      · rw [List.find?_cons_of_pos _ (by simpa using hp),
          List.find?_cons_of_pos _ (by rw [← hab]; simpa using hp)]
        simp [hab]
      · rw [List.find?_cons_of_neg _ (by simpa using hp),
          List.find?_cons_of_neg _ (by rw [← hab]; simpa using hp)]
        exact ih bs hrest

theorem startsWithL_refl : ∀ l : List Char, startsWithL l l = true := by
  intro l
  induction l with
  | nil => rfl
  | cons a as ih => simp [startsWithL, ih]

theorem startsWithL_mono :
    ∀ (p q l : List Char), startsWithL (p ++ q) l = true → startsWithL p l = true := by
  intro p
  induction p with
  | nil => intro q l _; rfl
  | cons a as ih =>
    intro q l h
    cases l with
    | nil => simp [startsWithL] at h
    | cons c cs =>
      simp [startsWithL] at h ⊢
      exact ⟨h.1, ih q cs h.2⟩

theorem startsWithL_length :
    ∀ (p l : List Char), startsWithL p l = true → p.length ≤ l.length := by
  intro p
  induction p with
  | nil => intro l _; simp
  | cons a as ih =>
    intro l h
    cases l with
    | nil => simp [startsWithL] at h
    | cons c cs =>
      simp [startsWithL] at h
      have := ih cs h.2
      simp
      omega

theorem leadsWith_self (t : String) : leadsWith t t = true :=
  startsWithL_refl t.data

theorem ne_of_fresh (t s : String) (h : leadsWith t s = false) : t ≠ s := by
  intro he
  rw [he, leadsWith_self] at h
  exact Bool.noConfusion h

theorem leadsWith_ext_false (t u s : String) (h : leadsWith t s = false) :
    leadsWith (t ++ u) s = false := by
  cases hv : leadsWith (t ++ u) s with
  | false => rfl
  | true =>
    have : startsWithL (t.data ++ u.data) s.data = true := by
      rw [← String.data_append]; exact hv
    rw [show leadsWith t s = startsWithL t.data s.data from rfl,
      startsWithL_mono t.data u.data s.data this] at h
    exact Bool.noConfusion h

theorem leadsWith_snoc_self_false (t : String) : leadsWith (t ++ "x") t = false := by
  cases hv : leadsWith (t ++ "x") t with
  | false => rfl
  | true =>
    have h1 : startsWithL (t.data ++ "x".data) t.data = true := by
      rw [← String.data_append]; exact hv
    have h2 := startsWithL_length _ _ h1
    rw [List.length_append] at h2
    simp at h2

/-! Helper lemmas about the model effects of the sync operations, used by
the idempotence claim (C1). -/

theorem okAct_of (a : SyncAction) (h1 : a.status ≠ SyncStatus.Created)
    (h2 : a.entity = SyncEntity.project → a.status ≠ SyncStatus.Updated)
    (h3 : a.reason ≠ some "description synchronized") : OkAct a := by
  refine ⟨h1, fun hD => ?_⟩
  rcases hD with ⟨he, hs⟩ | hr
  · exact h2 he hs
  · exact h3 hr

theorem milestone_reason_ne (mn : String) :
    some ("milestone assigned: " ++ mn) ≠ some ("description synchronized") := by
  intro h
  injection h with h1
  have h2 := congrArg (fun s => s.data.head?) h1
  simp only [String.data_append] at h2
  simp at h2

theorem map_k4_set_eq (cs : List Issue) (idx : Nat) (j z : Issue)
    (hg : cs.get? idx = some j) (hz : issueKey4 z = issueKey4 j) :
    (cs.set idx z).map issueKey4 = cs.map issueKey4 := by
  rw [List.map_set, hz]
  apply set_get_self
  rw [List.get?_map, hg]
  rfl

theorem cs_map_id_of_k4 (cs ds : List Issue)
    (h : cs.map issueKey4 = ds.map issueKey4) :
    cs.map (fun i => i.id) = ds.map (fun i => i.id) := by
  have h2 := congrArg (List.map (fun t : String × Option String × Option String × String => t.2.2.2)) h
  rw [List.map_map, List.map_map] at h2
  exact h2

theorem CInv_world_map (pid : String) (cs : List Issue) (w w2 : World)
    (F : Issue → Issue)
    (hiss : w2.issues = w.issues.map F)
    (hk : ∀ i, issueKey4 (F i) = issueKey4 i)
    (hp : ∀ i, (F i).projectId = i.projectId)
    (htag : w2.freshTag = w.freshTag)
    (hI : CInv pid cs w) : CInv pid cs w2 := by
  have hid : ∀ i, (F i).id = i.id := fun i =>
    congrArg (fun t : String × Option String × Option String × String => t.2.2.2) (hk i)
  obtain ⟨h1, hnd, hfr⟩ := hI
  refine ⟨?_, ?_, ?_⟩
  · have hfs : filterProj pid (w.issues.map F) = (filterProj pid w.issues).map F := by
      apply filter_map_swap
      intro x
      simp [hp x]
    rw [hiss, hfs, map_map_pointwise F issueKey4 hk]
    exact h1
  · rw [hiss, map_map_pointwise F (fun i => i.id) hid]
    exact hnd
  · intro i hi
    rw [hiss] at hi
    obtain ⟨i0, hi0, rfl⟩ := List.mem_map.mp hi
    rw [htag, hid]
    exact hfr i0 hi0

theorem attachIssueToMilestone_world (w : World) (iid pid mn : String) :
    ∃ F : Issue → Issue,
      (attachIssueToMilestone w iid pid mn).2.1.issues = w.issues.map F ∧
      (∀ i, issueKey4 (F i) = issueKey4 i) ∧
      (∀ i, (F i).projectId = i.projectId) ∧
      (attachIssueToMilestone w iid pid mn).2.1.projects = w.projects ∧
      (attachIssueToMilestone w iid pid mn).2.1.freshTag = w.freshTag := by
  by_cases h1 : jsTrim mn = ""
  · exact ⟨id, by simp [attachIssueToMilestone, h1], fun i => rfl, fun i => rfl,
      by simp [attachIssueToMilestone, h1], by simp [attachIssueToMilestone, h1]⟩
  · match hf : w.projects.find? (fun c => c.id = pid) with
    | none =>
      exact ⟨id, by simp [attachIssueToMilestone, h1, hf], fun i => rfl, fun i => rfl,
        by simp [attachIssueToMilestone, h1, hf], by simp [attachIssueToMilestone, h1, hf]⟩
    | some proj =>
      by_cases h2 : proj.hasMilestonesFn
      · match hm : proj.milestones.find? (fun m => m.name = jsTrim mn) with
        | none =>
          exact ⟨id, by simp [attachIssueToMilestone, h1, hf, h2, hm],
            fun i => rfl, fun i => rfl,
            by simp [attachIssueToMilestone, h1, hf, h2, hm],
            by simp [attachIssueToMilestone, h1, hf, h2, hm]⟩
        | some m =>
          refine ⟨fun i => if i.id = iid then { i with projectMilestoneId := some m.id } else i,
            ?_, ?_, ?_, ?_, ?_⟩
          · simp [attachIssueToMilestone, h1, hf, h2, hm, updateIssueW]
          · intro i; by_cases hi : i.id = iid <;> simp [issueKey4, hi]
          · intro i; by_cases hi : i.id = iid <;> simp [hi]
          · simp [attachIssueToMilestone, h1, hf, h2, hm, updateIssueW]
          · simp [attachIssueToMilestone, h1, hf, h2, hm, updateIssueW]
      · exact ⟨id, by simp [attachIssueToMilestone, h1, hf, h2],
          fun i => rfl, fun i => rfl,
          by simp [attachIssueToMilestone, h1, hf, h2],
          by simp [attachIssueToMilestone, h1, hf, h2]⟩

theorem attachWithRecords_world_eq (w : World) (iid pid : String) (ent : SyncEntity)
    (nm : String) (mno : Option String) :
    (attachWithRecords w iid pid ent nm mno).1 =
      (match mno with
       | none => w
       | some mn => (attachIssueToMilestone w iid pid mn).2.1) := by
  cases mno with
  | none => rfl
  | some mn =>
    simp only [attachWithRecords]
    split <;> rfl

theorem attachWithRecords_world (w : World) (iid pid : String) (ent : SyncEntity)
    (nm : String) (mno : Option String) :
    ∃ F : Issue → Issue,
      (attachWithRecords w iid pid ent nm mno).1.issues = w.issues.map F ∧
      (∀ i, issueKey4 (F i) = issueKey4 i) ∧
      (∀ i, (F i).projectId = i.projectId) ∧
      (attachWithRecords w iid pid ent nm mno).1.projects = w.projects ∧
      (attachWithRecords w iid pid ent nm mno).1.freshTag = w.freshTag := by
  rw [attachWithRecords_world_eq]
  cases mno with
  | none => exact ⟨id, by simp, fun i => rfl, fun i => rfl, rfl, rfl⟩
  | some mn => exact attachIssueToMilestone_world w iid pid mn

theorem attachWithRecords_acts (w : World) (iid pid : String) (ent : SyncEntity)
    (nm : String) (mno : Option String) (hent : ent ≠ SyncEntity.project) :
    ∀ a ∈ (attachWithRecords w iid pid ent nm mno).2.1, OkAct a := by
  cases mno with
  | none => intro a ha; simp [attachWithRecords] at ha
  | some mn =>
    intro a ha
    simp only [attachWithRecords] at ha
    split at ha
    · simp at ha
      rcases ha with rfl | rfl
      · exact okAct_of _ (by intro h; exact SyncStatus.noConfusion h)
          (fun he => absurd he hent) (by intro h; injection h with h1; exact absurd h1 (by decide))
      · exact okAct_of _ (by intro h; exact SyncStatus.noConfusion h)
          (fun he => SyncEntity.noConfusion he) (milestone_reason_ne mn)
    · simp at ha

theorem syncIssueAssignee_key (w : World) (issue : Issue) (da : String) (ex : Bool)
    (ent : SyncEntity) (nm : String) :
    issueKey4 (syncIssueAssignee w issue da ex ent nm).1 = issueKey4 issue := by
  simp only [syncIssueAssignee]
  split <;> split <;> rfl

theorem syncIssueAssignee_world (w : World) (issue : Issue) (da : String) (ex : Bool)
    (ent : SyncEntity) (nm : String) :
    ∃ F : Issue → Issue,
      (syncIssueAssignee w issue da ex ent nm).2.1.issues = w.issues.map F ∧
      (∀ i, issueKey4 (F i) = issueKey4 i) ∧
      (∀ i, (F i).projectId = i.projectId) ∧
      (syncIssueAssignee w issue da ex ent nm).2.1.projects = w.projects ∧
      (syncIssueAssignee w issue da ex ent nm).2.1.freshTag = w.freshTag := by
  simp only [syncIssueAssignee]
  split <;> split
  · refine ⟨fun i => if i.id = issue.id then { i with assigneeId := some da } else i,
      by simp [updateIssueW], ?_, ?_, by simp [updateIssueW], by simp [updateIssueW]⟩
    · intro i; by_cases hi : i.id = issue.id <;> simp [issueKey4, hi]
    · intro i; by_cases hi : i.id = issue.id <;> simp [hi]
  · exact ⟨id, by simp, fun i => rfl, fun i => rfl, rfl, rfl⟩
  · refine ⟨fun i => if i.id = issue.id then { i with assigneeId := some da } else i,
      by simp [updateIssueW], ?_, ?_, by simp [updateIssueW], by simp [updateIssueW]⟩
    · intro i; by_cases hi : i.id = issue.id <;> simp [issueKey4, hi]
    · intro i; by_cases hi : i.id = issue.id <;> simp [hi]
  · exact ⟨id, by simp, fun i => rfl, fun i => rfl, rfl, rfl⟩

theorem syncIssueAssignee_acts (w : World) (issue : Issue) (da : String) (ex : Bool)
    (ent : SyncEntity) (nm : String) (hent : ent ≠ SyncEntity.project) :
    ∀ a ∈ (syncIssueAssignee w issue da ex ent nm).2.2.1, OkAct a := by
  intro a ha
  simp only [syncIssueAssignee] at ha
  split at ha <;> split at ha <;> simp at ha <;> subst ha
  · exact okAct_of _ (by intro h; exact SyncStatus.noConfusion h)
      (fun he => absurd he hent) (by intro h; injection h with h1; exact absurd h1 (by decide))
  · exact okAct_of _ (by intro h; exact SyncStatus.noConfusion h)
      (fun he => absurd he hent) (by intro h; injection h with h1; exact absurd h1 (by decide))

theorem createIssueW_post (tid pid : String) (par : Option String) (ti de da : String)
    (cs : List Issue) (w : World) (hI : CInv pid cs w) :
    CInv pid (cs ++ [(createIssueW w tid pid par ti de da).1])
      (createIssueW w tid pid par ti de da).2 ∧
    (createIssueW w tid pid par ti de da).2.projects = w.projects ∧
    (createIssueW w tid pid par ti de da).1.id = w.freshTag := by
  obtain ⟨h1, hnd, hfr⟩ := hI
  refine ⟨⟨?_, ?_, ?_⟩, rfl, rfl⟩
  · show (cs ++ [(createIssueW w tid pid par ti de da).1]).map issueKey4 =
      (filterProj pid (w.issues ++ [(createIssueW w tid pid par ti de da).1])).map issueKey4
    rw [show filterProj pid (w.issues ++ [(createIssueW w tid pid par ti de da).1]) =
        filterProj pid w.issues ++ [(createIssueW w tid pid par ti de da).1] by
      simp [filterProj, List.filter_append, createIssueW]]
    rw [List.map_append, List.map_append, h1]
  · show ((w.issues ++ [(createIssueW w tid pid par ti de da).1]).map (fun i => i.id)).Nodup
    rw [List.map_append]
    rw [List.nodup_append]
    refine ⟨hnd, List.nodup_singleton _, ?_⟩
    intro x hx hx2
    simp [createIssueW] at hx2
    obtain ⟨i0, hi0, hid0⟩ := List.mem_map.mp hx
    have := hfr i0 hi0
    rw [hid0] at this
    rw [hx2] at this
    rw [leadsWith_self] at this
    exact Bool.noConfusion this
  · intro i hi
    show leadsWith (w.freshTag ++ "x") i.id = false
    rcases List.mem_append.mp hi with hi1 | hi2
    · exact leadsWith_ext_false w.freshTag "x" i.id (hfr i hi1)
    · rw [List.mem_singleton] at hi2
      rw [hi2]
      exact leadsWith_snoc_self_false w.freshTag

theorem CInv_set_same (pid : String) (cs : List Issue) (w : World) (idx : Nat)
    (i0 z : Issue) (hg : cs.get? idx = some i0) (hz : issueKey4 z = issueKey4 i0)
    (hI : CInv pid cs w) : CInv pid (cs.set idx z) w :=
  ⟨by rw [map_k4_set_eq cs idx i0 z hg hz]; exact hI.1, hI.2⟩

theorem CInv_desc_update (pid : String) (cs : List Issue) (w : World) (idx : Nat)
    (i0 z : Issue) (d : String) (iid : String) (hiid : iid = i0.id)
    (hg : cs.get? idx = some i0)
    (hz : issueKey4 z = (i0.title, i0.parentId, some d, i0.id))
    (hI : CInv pid cs w) :
    CInv pid (cs.set idx z)
      (updateIssueW w iid (fun j => { j with description := some d })) := by
  subst hiid
  obtain ⟨h1, hnd, hfr⟩ := hI
  have hfw_nd : ((filterProj pid w.issues).map (fun i => i.id)).Nodup :=
    List.Nodup.sublist (List.Sublist.map _ (List.filter_sublist _)) hnd
  have hcsk : (cs.map issueKey4).get? idx = some (issueKey4 i0) := by
    rw [List.get?_map, hg]; rfl
  rw [h1, List.get?_map] at hcsk
  obtain ⟨jw, hjw, hjk⟩ := Option.map_eq_some'.mp hcsk
  have hjid : jw.id = i0.id :=
    congrArg (fun t : String × Option String × Option String × String => t.2.2.2) hjk
  have hfid : ∀ i : Issue,
      (if i.id = i0.id then { i with description := some d } else i).id = i.id := by
    intro i; by_cases hi : i.id = i0.id <;> simp [hi]
  refine ⟨?_, ?_, ?_⟩
  · show (cs.set idx z).map issueKey4 =
      (filterProj pid (w.issues.map (fun i =>
        if i.id = i0.id then { i with description := some d } else i))).map issueKey4
    have hcomm : filterProj pid (w.issues.map (fun i =>
        if i.id = i0.id then { i with description := some d } else i)) =
        (filterProj pid w.issues).map (fun i =>
          if i.id = i0.id then { i with description := some d } else i) := by
      apply filter_map_swap
      intro x
      by_cases hx : x.id = i0.id <;> simp [hx]
    have hfun : (fun i : Issue => if i.id = i0.id then { i with description := some d } else i) =
        (fun i : Issue => if i.id = jw.id then { i with description := some d } else i) := by
      funext i; rw [hjid]
    have hset : (filterProj pid w.issues).map (fun i =>
        if i.id = jw.id then { i with description := some d } else i) =
        (filterProj pid w.issues).set idx { jw with description := some d } :=
      map_ite_id_set (fun i : Issue => i.id) (fun i => { i with description := some d })
        (filterProj pid w.issues) idx jw hfw_nd hjw
    rw [hcomm, hfun, hset, List.map_set, List.map_set, h1]
    have ht : jw.title = i0.title :=
      congrArg (fun t : String × Option String × Option String × String => t.1) hjk
    have hp : jw.parentId = i0.parentId :=
      congrArg (fun t : String × Option String × Option String × String => t.2.1) hjk
    have : issueKey4 { jw with description := some d } = issueKey4 z := by
      show (jw.title, jw.parentId, some d, jw.id) = issueKey4 z
      rw [hz, ht, hp, hjid]
    rw [this]
  · show ((w.issues.map (fun i =>
      if i.id = i0.id then { i with description := some d } else i)).map (fun i => i.id)).Nodup
    rw [map_map_pointwise _ _ hfid]
    exact hnd
  · intro i hi
    obtain ⟨i1, hi1, rfl⟩ := List.mem_map.mp hi
    show leadsWith w.freshTag _ = false
    rw [hfid]
    exact hfr i1 hi1

theorem findWithIdx_k4_congr (T : String) (P : Option String) (cs ds : List Issue)
    (hk : cs.map issueKey4 = ds.map issueKey4) (n : Nat) (j : Issue)
    (hf : findWithIdx (fun i => issueMatches T P i) cs = some (n, j)) :
    ∃ j2, findWithIdx (fun i => issueMatches T P i) ds = some (n, j2) ∧
      issueKey4 j2 = issueKey4 j := by
  have e1 : (fun i => issueMatches T P i) = (fun i => matchKey T P (issueKey4 i)) := rfl
  have h1 := findWithIdx_map_proj issueKey4 (matchKey T P) cs
  have h2 := findWithIdx_map_proj issueKey4 (matchKey T P) ds
  rw [hk, h2] at h1
  rw [← e1] at h1
  rw [hf] at h1
  simp only [Option.map_some'] at h1
  obtain ⟨r, hr, hpf⟩ := Option.map_eq_some'.mp h1
  have hr1 : r.1 = n :=
    congrArg (fun t : Nat × (String × Option String × Option String × String) => t.1) hpf
  have hr2 : issueKey4 r.2 = issueKey4 j :=
    congrArg (fun t : Nat × (String × Option String × Option String × String) => t.2) hpf
  refine ⟨r.2, ?_, hr2⟩
  rw [hr, show r = (n, r.2) from by rw [← hr1]]

theorem storyGood_congr (cs ds : List Issue)
    (hk : cs.map issueKey4 = ds.map issueKey4)
    (eid : String) (s : StorySpec) (hg : StoryGood cs eid s) : StoryGood ds eid s := by
  obtain ⟨idx, j, pin, hdsc⟩ := hg
  obtain ⟨j2, pin2, hj⟩ := findWithIdx_k4_congr s.title (some eid) cs ds hk idx j pin
  refine ⟨idx, j2, pin2, ?_⟩
  have hd2 : j2.description = j.description :=
    congrArg (fun t : String × Option String × Option String × String => t.2.2.1) hj
  rw [hd2]
  exact hdsc

theorem epicGood_congr (cs ds : List Issue)
    (hk : cs.map issueKey4 = ds.map issueKey4)
    (e : EpicSpec) (hg : EpicGood cs e) : EpicGood ds e := by
  obtain ⟨idx, i, pin, hdsc, hst⟩ := hg
  obtain ⟨i2, pin2, hi⟩ := findWithIdx_k4_congr e.title none cs ds hk idx i pin
  refine ⟨idx, i2, pin2, ?_, ?_⟩
  · have hd2 : i2.description = i.description :=
      congrArg (fun t : String × Option String × Option String × String => t.2.2.1) hi
    rw [hd2]
    exact hdsc
  · intro s hs
    have hid2 : i2.id = i.id :=
      congrArg (fun t : String × Option String × Option String × String => t.2.2.2) hi
    rw [hid2]
    exact storyGood_congr cs ds hk i.id s (hst s hs)

theorem find?_map_pointwise (f : α → α) (pr : α → Bool) (hf : ∀ x, pr (f x) = pr x) :
    ∀ l : List α, (l.map f).find? pr = (l.find? pr).map f := by
  intro l
  induction l with
  | nil => rfl
  | cons a as ih =>
    by_cases hp : pr a
    · rw [List.map_cons, List.find?_cons_of_pos _ (by rw [hf]; exact hp),
        List.find?_cons_of_pos _ hp]
      rfl
    · rw [List.map_cons, List.find?_cons_of_neg _ (by rw [hf]; simpa using hp),
        List.find?_cons_of_neg _ (by simpa using hp), ih]

theorem find?_append_none (pr : α → Bool) :
    ∀ l1 l2 : List α, l1.find? pr = none → (l1 ++ l2).find? pr = l2.find? pr := by
  intro l1
  induction l1 with
  | nil => intro l2 _; rfl
  | cons a as ih =>
    intro l2 h
    by_cases hp : pr a
    · rw [List.find?_cons_of_pos _ hp] at h
      exact Option.noConfusion h
    · rw [List.find?_cons_of_neg _ (by simpa using hp)] at h
      rw [List.cons_append, List.find?_cons_of_neg _ (by simpa using hp)]
      exact ih l2 h

theorem milestonesOf_proj_eq (w w2 : World) (h : w2.projects = w.projects)
    (pid : String) : milestonesOf w2 pid = milestonesOf w pid := by
  simp [milestonesOf, h]

theorem jsTrim_idem (s : String) : jsTrim (jsTrim s) = jsTrim s := by
  show String.mk (jsTrimL (jsTrimL s.data)) = String.mk (jsTrimL s.data)
  exact congrArg String.mk (jsTrimL_idem s.data)

theorem cs_id_not_fresh (pid : String) (cs : List Issue) (w : World)
    (hI : CInv pid cs w) (i : Issue) (hi : i ∈ cs) :
    leadsWith w.freshTag i.id = false := by
  have hmap := cs_map_id_of_k4 cs (filterProj pid w.issues) hI.1
  have h1 : i.id ∈ cs.map (fun i => i.id) := List.mem_map_of_mem _ hi
  rw [hmap] at h1
  obtain ⟨iw, hiw, hide⟩ := List.mem_map.mp h1
  have hmem : iw ∈ w.issues := List.mem_of_mem_filter hiw
  rw [← hide]
  exact hI.2.2 iw hmem

theorem cs_ids_nodup (pid : String) (cs : List Issue) (w : World) (hI : CInv pid cs w) :
    (cs.map (fun i => i.id)).Nodup := by
  rw [cs_map_id_of_k4 cs (filterProj pid w.issues) hI.1]
  exact List.Nodup.sublist (List.Sublist.map _ (List.filter_sublist _)) hI.2.1

theorem issueMatches_true (T : String) (P : Option String) (i : Issue)
    (h1 : i.title = T) (h2 : i.parentId = P) : issueMatches T P i = true := by
  simp [issueMatches, h1, h2]

theorem issueMatches_false_left (T : String) (P : Option String) (i : Issue)
    (h : i.title ≠ T) : issueMatches T P i = false := by
  simp [issueMatches, h]

theorem issueMatches_false_right (T : String) (P : Option String) (i : Issue)
    (h : i.parentId ≠ P) : issueMatches T P i = false := by
  simp [issueMatches, h]

theorem issueMatches_elim (T : String) (P : Option String) (i : Issue)
    (h : issueMatches T P i = true) : i.title = T ∧ i.parentId = P := by
  simpa [issueMatches] using h

theorem pin_idx_ne (T2 : String) (P2 : Option String) (T : String) (P : Option String)
    (hne : T ≠ T2 ∨ P ≠ P2) (cs : List Issue) (n idx : Nat) (j i0 : Issue)
    (hpin : findWithIdx (fun i => issueMatches T P i) cs = some (n, j))
    (hf : findWithIdx (fun i => issueMatches T2 P2 i) cs = some (idx, i0)) :
    idx ≠ n := by
  intro he
  subst he
  obtain ⟨hg1, hp1⟩ := findWithIdx_get _ cs idx j hpin
  obtain ⟨hg2, hp2⟩ := findWithIdx_get _ cs idx i0 hf
  have hji : j = i0 := by
    have h3 := hg1.symm.trans hg2
    injection h3
  obtain ⟨h1t, h1p⟩ := issueMatches_elim T P j hp1
  obtain ⟨h2t, h2p⟩ := issueMatches_elim T2 P2 i0 hp2
  rcases hne with hT | hP
  · exact hT (h1t.symm.trans (by rw [hji, h2t]))
  · exact hP (h1p.symm.trans (by rw [hji, h2p]))

theorem pin_preserved_set (T2 : String) (P2 : Option String) (T : String)
    (P : Option String) (hne : T ≠ T2 ∨ P ≠ P2) (cs : List Issue) (n idx : Nat)
    (j i0 z : Issue)
    (hpin : findWithIdx (fun i => issueMatches T P i) cs = some (n, j))
    (hf : findWithIdx (fun i => issueMatches T2 P2 i) cs = some (idx, i0))
    (hzt : z.title = i0.title) (hzp : z.parentId = i0.parentId) :
    findWithIdx (fun i => issueMatches T P i) (cs.set idx z) = some (n, j) := by
  obtain ⟨hg2, hp2⟩ := findWithIdx_get _ cs idx i0 hf
  obtain ⟨h2t, h2p⟩ := issueMatches_elim T2 P2 i0 hp2
  refine findWithIdx_set_other _ cs n idx j z hpin ?_
    (pin_idx_ne T2 P2 T P hne cs n idx j i0 hpin hf)
  rcases hne with hT | hP
  · exact issueMatches_false_left T P z (by rw [hzt, h2t]; exact Ne.symm hT)
  · exact issueMatches_false_right T P z (by rw [hzp, h2p]; exact Ne.symm hP)

theorem updateIssueW_projects (w : World) (iid : String) (f : Issue → Issue) :
    (updateIssueW w iid f).projects = w.projects := rfl

theorem processStory_run1 (pid tid cu eid : String) (em : Option String)
    (s : StorySpec) (cs : List Issue) (w : World) (cs1 : List Issue) (w1 : World)
    (acts : List SyncAction) (tr : List RemoteCall)
    (h : processStory pid tid cu eid em s cs w = .ok (cs1, w1, acts, tr))
    (hI : CInv pid cs w) :
    CInv pid cs1 w1 ∧ w1.projects = w.projects ∧
    (∀ T P n j, (T ≠ s.title ∨ P ≠ some eid) →
      findWithIdx (fun i => issueMatches T P i) cs = some (n, j) →
      findWithIdx (fun i => issueMatches T P i) cs1 = some (n, j)) ∧
    StoryGood cs1 eid s := by
  simp only [processStory] at h
  match hra : resolveDesiredAssigneeId w s.assignee cu with
  | .error e =>
    simp only [hra] at h
    exact Except.noConfusion h
  | .ok pr =>
    obtain ⟨da, tr0⟩ := pr
    simp only [hra] at h
    match hf : findWithIdx (fun i => issueMatches s.title (some eid) i) cs with
    | none =>
      simp only [hf] at h
      set c := createIssueW w tid pid (some eid) s.title
        (ensureManagedMetadata s.description) da with hc
      injection h with h2
      injection h2 with hA h3
      injection h3 with hB h4
      injection h4 with hC hD
      subst hA; subst hB
      obtain ⟨hI2, hprojC, hidC⟩ := createIssueW_post tid pid (some eid) s.title
        (ensureManagedMetadata s.description) da cs w hI
      rw [← hc] at hI2 hprojC
      obtain ⟨F, hFiss, hFk, hFp, hFproj, hFtag⟩ := attachWithRecords_world c.2 c.1.id
        pid SyncEntity.story s.title (resolveStoryMilestoneName em s.milestone)
      refine ⟨CInv_world_map pid _ c.2 _ F hFiss hFk hFp hFtag hI2, ?_, ?_, ?_⟩
      · rw [hFproj, hprojC]
      · intro T P n j hTP hpin
        exact findWithIdx_append_left _ cs [c.1] (n, j) hpin
      · have hp1 : issueMatches s.title (some eid) c.1 = true := by
          rw [hc]
          simp [issueMatches, createIssueW]
        exact ⟨cs.length, c.1, findWithIdx_append_sing _ cs c.1 hf hp1, rfl⟩
    | some r0 =>
      obtain ⟨idx, i0⟩ := r0
      simp only [hf] at h
      obtain ⟨hg0, hp0⟩ := findWithIdx_get _ cs idx i0 hf
      obtain ⟨hti, hpar⟩ := issueMatches_elim _ _ _ hp0
      set a := syncIssueAssignee w i0 da (jsTruthy s.assignee) SyncEntity.story s.title
        with haa
      have hk1 : issueKey4 a.1 = issueKey4 i0 := by
        rw [haa]; exact syncIssueAssignee_key w i0 da (jsTruthy s.assignee)
          SyncEntity.story s.title
      have ht1 : a.1.title = i0.title :=
        congrArg (fun t : String × Option String × Option String × String => t.1) hk1
      have hpp1 : a.1.parentId = i0.parentId :=
        congrArg (fun t : String × Option String × Option String × String => t.2.1) hk1
      have hd1 : a.1.description = i0.description :=
        congrArg (fun t : String × Option String × Option String × String => t.2.2.1) hk1
      have hid1 : a.1.id = i0.id :=
        congrArg (fun t : String × Option String × Option String × String => t.2.2.2) hk1
      obtain ⟨Fa, haiss, hak, hap, haproj, hatag⟩ := syncIssueAssignee_world w i0 da
        (jsTruthy s.assignee) SyncEntity.story s.title
      rw [← haa] at haiss haproj hatag
      have hIa : CInv pid cs a.2.1 := CInv_world_map pid cs w a.2.1 Fa haiss hak hap hatag hI
      set dd := ensureManagedMetadata s.description with hdd
      by_cases hdc : normalizeDescription a.1.description ≠
          normalizeDescription (some dd)
      · rw [if_pos hdc] at h
        injection h with h2
        injection h2 with hA h3
        injection h3 with hB h4
        injection h4 with hC hD
        subst hA; subst hB
        have hz : issueKey4 { a.1 with description := some dd } =
            (i0.title, i0.parentId, some dd, i0.id) := by
          show (a.1.title, a.1.parentId, some dd, a.1.id) = _
          rw [ht1, hpp1, hid1]
        have hIu := CInv_desc_update pid cs a.2.1 idx i0
          { a.1 with description := some dd } dd a.1.id hid1 hg0 hz hIa
        obtain ⟨F2, h2iss, h2k, h2p, h2proj, h2tag⟩ := attachWithRecords_world
          (updateIssueW a.2.1 a.1.id (fun j => { j with description := some dd }))
          a.1.id pid SyncEntity.story s.title (resolveStoryMilestoneName em s.milestone)
        refine ⟨CInv_world_map pid _ _ _ F2 h2iss h2k h2p h2tag hIu, ?_, ?_, ?_⟩
        · rw [h2proj, updateIssueW_projects]
          exact haproj
        · intro T P n j hTP hpin
          exact pin_preserved_set s.title (some eid) T P hTP cs n idx j i0
            { a.1 with description := some dd } hpin hf ht1 hpp1
        · refine ⟨idx, { a.1 with description := some dd },
            findWithIdx_set_match _ cs idx i0 { a.1 with description := some dd } hf
            (issueMatches_true s.title (some eid) { a.1 with description := some dd }
              (ht1.trans hti) (hpp1.trans hpar)), rfl⟩
      · rw [if_neg hdc] at h
        have he : normalizeDescription a.1.description =
            normalizeDescription (some dd) :=
          not_not.mp hdc
        injection h with h2
        injection h2 with hA h3
        injection h3 with hB h4
        injection h4 with hC hD
        subst hA; subst hB
        have hIs := CInv_set_same pid cs a.2.1 idx i0 a.1 hg0 hk1 hIa
        obtain ⟨F2, h2iss, h2k, h2p, h2proj, h2tag⟩ := attachWithRecords_world a.2.1
          a.1.id pid SyncEntity.story s.title (resolveStoryMilestoneName em s.milestone)
        refine ⟨CInv_world_map pid _ _ _ F2 h2iss h2k h2p h2tag hIs, ?_, ?_, ?_⟩
        · rw [h2proj]
          exact haproj
        · intro T P n j hTP hpin
          exact pin_preserved_set s.title (some eid) T P hTP cs n idx j i0 a.1 hpin hf
            ht1 hpp1
        · exact ⟨idx, a.1, findWithIdx_set_match _ cs idx i0 a.1 hf
            (issueMatches_true s.title (some eid) a.1
              (by rw [ht1, hti]) (by rw [hpp1, hpar])), he⟩

theorem storyLoop_run1 (pid tid cu eid : String) (em : Option String) :
    ∀ (stories : List StorySpec) (cs : List Issue) (w : World) (cs1 : List Issue)
      (w1 : World) (acts : List SyncAction) (tr : List RemoteCall),
      storyLoop pid tid cu eid em stories cs w = .ok (cs1, w1, acts, tr) →
      (stories.map (fun st => st.title)).Nodup →
      CInv pid cs w →
      CInv pid cs1 w1 ∧ w1.projects = w.projects ∧
      (∀ T P n j, (P ≠ some eid ∨ T ∉ stories.map (fun st => st.title)) →
        findWithIdx (fun i => issueMatches T P i) cs = some (n, j) →
        findWithIdx (fun i => issueMatches T P i) cs1 = some (n, j)) ∧
      (∀ st ∈ stories, StoryGood cs1 eid st) := by
  intro stories
  induction stories with
  | nil =>
    intro cs w cs1 w1 acts tr h _ hI
    simp only [storyLoop] at h
    injection h with h2
    injection h2 with hA h3
    injection h3 with hB h4
    injection h4 with hC hD
    subst hA; subst hB
    exact ⟨hI, rfl, fun T P n j _ hpin => hpin,
      fun st hst => absurd hst (List.not_mem_nil st)⟩
  | cons s rest ih =>
    intro cs w cs1 w1 acts tr h hnd hI
    simp only [storyLoop] at h
    match hps : processStory pid tid cu eid em s cs w with
    | .error e =>
      simp only [hps] at h
      exact Except.noConfusion h
    | .ok q =>
      obtain ⟨csA, wA, actsA, trA⟩ := q
      simp only [hps] at h
      match hsl : storyLoop pid tid cu eid em rest csA wA with
      | .error e =>
        simp only [hsl] at h
        exact Except.noConfusion h
      | .ok q2 =>
        obtain ⟨csB, wB, actsB, trB⟩ := q2
        simp only [hsl] at h
        injection h with h2
        injection h2 with hA h3
        injection h3 with hB h4
        injection h4 with hC hD
        subst hA; subst hB
        obtain ⟨hIA, hprojA, hframeA, hgoodA⟩ :=
          processStory_run1 pid tid cu eid em s cs w csA wA actsA trA hps hI
        have hnd2 : (s.title ∉ rest.map (fun st => st.title)) ∧
            (rest.map (fun st => st.title)).Nodup := List.nodup_cons.mp (by simpa using hnd)
        obtain ⟨hIB, hprojB, hframeB, hgoodB⟩ :=
          ih csA wA csB wB actsB trB hsl hnd2.2 hIA
        refine ⟨hIB, hprojB.trans hprojA, ?_, ?_⟩
        · intro T P n j hTP hpin
          have h1 : (T ≠ s.title ∨ P ≠ some eid) := by
            rcases hTP with hP | hT
            · exact Or.inr hP
            · refine Or.inl ?_
              intro he
              apply hT
              rw [List.map_cons, he]
              exact List.mem_cons_self _ _
          have h2 := hframeA T P n j h1 hpin
          refine hframeB T P n j ?_ h2
          rcases hTP with hP | hT
          · exact Or.inl hP
          · exact Or.inr (fun hm => hT (by rw [List.map_cons]; exact List.mem_cons_of_mem _ hm))
        · intro st hst
          rcases List.mem_cons.mp hst with hd | hmem
          · subst hd
            obtain ⟨idxs, js, pins, hdscs⟩ := hgoodA
            exact ⟨idxs, js, hframeB st.title (some eid) idxs js (Or.inr hnd2.1) pins, hdscs⟩
          · exact hgoodB st hmem

theorem processEpic_run1 (spec : ProjectSpec) (pid tid cu : String) (e : EpicSpec)
    (cs : List Issue) (w : World) (cs1 : List Issue) (w1 : World)
    (acts : List SyncAction) (tr : List RemoteCall)
    (h : processEpic spec pid tid cu e cs w = .ok (cs1, w1, acts, tr))
    (hst : (e.stories.map (fun st => st.title)).Nodup)
    (hI : CInv pid cs w) :
    CInv pid cs1 w1 ∧ w1.projects = w.projects ∧
    (∀ e0 : EpicSpec, e0.title ≠ e.title → EpicGood cs e0 → EpicGood cs1 e0) ∧
    EpicGood cs1 e := by
  simp only [processEpic] at h
  match hra : resolveDesiredAssigneeId w e.assignee cu with
  | .error er =>
    simp only [hra] at h
    exact Except.noConfusion h
  | .ok pr =>
    obtain ⟨da, tr0⟩ := pr
    simp only [hra] at h
    match hf : findWithIdx (fun j => issueMatches e.title none j) cs with
    | none =>
      simp only [hf] at h
      set c := createIssueW w tid pid none e.title
        (ensureManagedMetadata e.description) da with hc
      match hsl : storyLoop pid tid cu c.1.id e.milestone e.stories (cs ++ [c.1])
          (attachWithRecords c.2 c.1.id pid SyncEntity.epic e.title
            (resolveEpicMilestoneName spec e)).1 with
      | .error er =>
        simp only [hsl] at h
        exact Except.noConfusion h
      | .ok q2 =>
        obtain ⟨cs2, w3, actsS, trS⟩ := q2
        simp only [hsl] at h
        injection h with h2
        injection h2 with hA h3
        injection h3 with hB h4
        injection h4 with hC hD
        subst hA; subst hB
        obtain ⟨hI2, hprojC, hidC⟩ := createIssueW_post tid pid none e.title
          (ensureManagedMetadata e.description) da cs w hI
        rw [← hc] at hI2 hprojC hidC
        obtain ⟨F, hFiss, hFk, hFp, hFproj, hFtag⟩ := attachWithRecords_world c.2 c.1.id
          pid SyncEntity.epic e.title (resolveEpicMilestoneName spec e)
        have hIr := CInv_world_map pid (cs ++ [c.1]) c.2 _ F hFiss hFk hFp hFtag hI2
        obtain ⟨hIS, hprojS, hframeS, hgoodS⟩ := storyLoop_run1 pid tid cu c.1.id
          e.milestone e.stories (cs ++ [c.1]) _ cs2 w3 actsS trS hsl hst hIr
        have hpc : issueMatches e.title none c.1 = true := by
          rw [hc]
          simp [issueMatches, createIssueW]
        have hpin0 : findWithIdx (fun j => issueMatches e.title none j) (cs ++ [c.1]) =
            some (cs.length, c.1) := findWithIdx_append_sing _ cs c.1 hf hpc
        refine ⟨hIS, by rw [hprojS, hFproj, hprojC], ?_, ?_⟩
        · intro e0 hne hg0e
          obtain ⟨n0, i0e, pin0, desc0, stg0⟩ := hg0e
          have pin0A : findWithIdx (fun j => issueMatches e0.title none j) (cs ++ [c.1]) =
              some (n0, i0e) := findWithIdx_append_left _ cs [c.1] _ pin0
          have pin0B := hframeS e0.title none n0 i0e
            (Or.inl (by intro hcon; exact Option.noConfusion hcon)) pin0A
          refine ⟨n0, i0e, pin0B, desc0, ?_⟩
          intro st hstm
          obtain ⟨ns, js, pins, descs⟩ := stg0 st hstm
          have pinsA : findWithIdx (fun i => issueMatches st.title (some i0e.id) i)
              (cs ++ [c.1]) = some (ns, js) := findWithIdx_append_left _ cs [c.1] _ pins
          have hne2 : some i0e.id ≠ some c.1.id := by
            intro hcon
            injection hcon with hcon2
            have hmem : i0e ∈ cs := List.get?_mem (findWithIdx_get _ cs n0 i0e pin0).1
            have hfr := cs_id_not_fresh pid cs w hI i0e hmem
            rw [hidC] at hcon2
            exact (ne_of_fresh _ _ hfr) hcon2.symm
          have pinsB := hframeS st.title (some i0e.id) ns js (Or.inl hne2) pinsA
          exact ⟨ns, js, pinsB, descs⟩
        · have pinB := hframeS e.title none cs.length c.1
            (Or.inl (by intro hcon; exact Option.noConfusion hcon)) hpin0
          exact ⟨cs.length, c.1, pinB, by rw [hc]; rfl, hgoodS⟩
    | some r0 =>
      obtain ⟨idx, i0⟩ := r0
      simp only [hf] at h
      obtain ⟨hg0, hp0⟩ := findWithIdx_get _ cs idx i0 hf
      obtain ⟨hti, hpar⟩ := issueMatches_elim _ _ _ hp0
      set a := syncIssueAssignee w i0 da (jsTruthy e.assignee) SyncEntity.epic e.title
        with haa
      have hk1 : issueKey4 a.1 = issueKey4 i0 := by
        rw [haa]
        exact syncIssueAssignee_key w i0 da (jsTruthy e.assignee) SyncEntity.epic e.title
      have ht1 : a.1.title = i0.title :=
        congrArg (fun t : String × Option String × Option String × String => t.1) hk1
      have hpp1 : a.1.parentId = i0.parentId :=
        congrArg (fun t : String × Option String × Option String × String => t.2.1) hk1
      have hd1 : a.1.description = i0.description :=
        congrArg (fun t : String × Option String × Option String × String => t.2.2.1) hk1
      have hid1 : a.1.id = i0.id :=
        congrArg (fun t : String × Option String × Option String × String => t.2.2.2) hk1
      obtain ⟨Fa, haiss, hak, hap, haproj, hatag⟩ := syncIssueAssignee_world w i0 da
        (jsTruthy e.assignee) SyncEntity.epic e.title
      rw [← haa] at haiss haproj hatag
      have hIa : CInv pid cs a.2.1 := CInv_world_map pid cs w a.2.1 Fa haiss hak hap hatag hI
      set dd := ensureManagedMetadata e.description with hdd
      by_cases hdc : normalizeDescription a.1.description ≠ normalizeDescription (some dd)
      · rw [if_pos hdc] at h
        match hsl : storyLoop pid tid cu a.1.id e.milestone e.stories
            (cs.set idx { a.1 with description := some dd })
            (attachWithRecords
              (updateIssueW a.2.1 a.1.id (fun j => { j with description := some dd }))
              a.1.id pid SyncEntity.epic e.title (resolveEpicMilestoneName spec e)).1 with
        | .error er =>
          simp only [hsl] at h
          exact Except.noConfusion h
        | .ok q2 =>
          obtain ⟨cs2, w3, actsS, trS⟩ := q2
          simp only [hsl] at h
          injection h with h2
          injection h2 with hA h3
          injection h3 with hB h4
          injection h4 with hC hD
          subst hA; subst hB
          have hz : issueKey4 { a.1 with description := some dd } =
              (i0.title, i0.parentId, some dd, i0.id) := by
            show (a.1.title, a.1.parentId, some dd, a.1.id) = _
            rw [ht1, hpp1, hid1]
          have hIu := CInv_desc_update pid cs a.2.1 idx i0
            { a.1 with description := some dd } dd a.1.id hid1 hg0 hz hIa
          obtain ⟨F2, h2iss, h2k, h2p, h2proj, h2tag⟩ := attachWithRecords_world
            (updateIssueW a.2.1 a.1.id (fun j => { j with description := some dd }))
            a.1.id pid SyncEntity.epic e.title (resolveEpicMilestoneName spec e)
          have hIr := CInv_world_map pid (cs.set idx { a.1 with description := some dd })
            _ _ F2 h2iss h2k h2p h2tag hIu
          obtain ⟨hIS, hprojS, hframeS, hgoodS⟩ := storyLoop_run1 pid tid cu a.1.id
            e.milestone e.stories (cs.set idx { a.1 with description := some dd }) _
            cs2 w3 actsS trS hsl hst hIr
          have hpz : issueMatches e.title none { a.1 with description := some dd } = true :=
            issueMatches_true _ _ _ (ht1.trans hti) (hpp1.trans hpar)
          have hpin1 := findWithIdx_set_match _ cs idx i0
            { a.1 with description := some dd } hf hpz
          refine ⟨hIS, by rw [hprojS, h2proj, updateIssueW_projects]; exact haproj, ?_, ?_⟩
          · intro e0 hne hg0e
            obtain ⟨n0, i0e, pin0, desc0, stg0⟩ := hg0e
            have pin0A := pin_preserved_set e.title none e0.title none (Or.inl hne)
              cs n0 idx i0e i0 { a.1 with description := some dd } pin0 hf ht1 hpp1
            have pin0B := hframeS e0.title none n0 i0e
              (Or.inl (by intro hcon; exact Option.noConfusion hcon)) pin0A
            refine ⟨n0, i0e, pin0B, desc0, ?_⟩
            intro st hstm
            obtain ⟨ns, js, pins, descs⟩ := stg0 st hstm
            have pinsA := pin_preserved_set e.title none st.title (some i0e.id)
              (Or.inr (by intro hcon; exact Option.noConfusion hcon))
              cs ns idx js i0 { a.1 with description := some dd } pins hf ht1 hpp1
            have hne2 : some i0e.id ≠ some a.1.id := by
              intro hcon
              injection hcon with hcon2
              have hnn : idx ≠ n0 := pin_idx_ne e.title none e0.title none (Or.inl hne)
                cs n0 idx i0e i0 pin0 hf
              have hcsnd := cs_ids_nodup pid cs w hI
              have hneid := nodup_map_get_ne (fun i => i.id) cs n0 idx i0e i0 hcsnd
                (findWithIdx_get _ cs n0 i0e pin0).1 hg0 (fun hh => hnn hh.symm)
              rw [hid1] at hcon2
              exact hneid hcon2
            have pinsB := hframeS st.title (some i0e.id) ns js (Or.inl hne2) pinsA
            exact ⟨ns, js, pinsB, descs⟩
          · have pinB := hframeS e.title none idx { a.1 with description := some dd }
              (Or.inl (by intro hcon; exact Option.noConfusion hcon)) hpin1
            exact ⟨idx, { a.1 with description := some dd }, pinB, rfl, hgoodS⟩
      · rw [if_neg hdc] at h
        have he : normalizeDescription a.1.description = normalizeDescription (some dd) :=
          not_not.mp hdc
        match hsl : storyLoop pid tid cu a.1.id e.milestone e.stories (cs.set idx a.1)
            (attachWithRecords a.2.1 a.1.id pid SyncEntity.epic e.title
              (resolveEpicMilestoneName spec e)).1 with
        | .error er =>
          simp only [hsl] at h
          exact Except.noConfusion h
        | .ok q2 =>
          obtain ⟨cs2, w3, actsS, trS⟩ := q2
          simp only [hsl] at h
          injection h with h2
          injection h2 with hA h3
          injection h3 with hB h4
          injection h4 with hC hD
          subst hA; subst hB
          have hIs := CInv_set_same pid cs a.2.1 idx i0 a.1 hg0 hk1 hIa
          obtain ⟨F2, h2iss, h2k, h2p, h2proj, h2tag⟩ := attachWithRecords_world a.2.1
            a.1.id pid SyncEntity.epic e.title (resolveEpicMilestoneName spec e)
          have hIr := CInv_world_map pid (cs.set idx a.1) _ _ F2 h2iss h2k h2p h2tag hIs
          obtain ⟨hIS, hprojS, hframeS, hgoodS⟩ := storyLoop_run1 pid tid cu a.1.id
            e.milestone e.stories (cs.set idx a.1) _ cs2 w3 actsS trS hsl hst hIr
          have hpz : issueMatches e.title none a.1 = true :=
            issueMatches_true _ _ _ (ht1.trans hti) (hpp1.trans hpar)
          have hpin1 := findWithIdx_set_match _ cs idx i0 a.1 hf hpz
          refine ⟨hIS, by rw [hprojS, h2proj]; exact haproj, ?_, ?_⟩
          · intro e0 hne hg0e
            obtain ⟨n0, i0e, pin0, desc0, stg0⟩ := hg0e
            have pin0A := pin_preserved_set e.title none e0.title none (Or.inl hne)
              cs n0 idx i0e i0 a.1 pin0 hf ht1 hpp1
            have pin0B := hframeS e0.title none n0 i0e
              (Or.inl (by intro hcon; exact Option.noConfusion hcon)) pin0A
            refine ⟨n0, i0e, pin0B, desc0, ?_⟩
            intro st hstm
            obtain ⟨ns, js, pins, descs⟩ := stg0 st hstm
            have pinsA := pin_preserved_set e.title none st.title (some i0e.id)
              (Or.inr (by intro hcon; exact Option.noConfusion hcon))
              cs ns idx js i0 a.1 pins hf ht1 hpp1
            have hne2 : some i0e.id ≠ some a.1.id := by
              intro hcon
              injection hcon with hcon2
              have hnn : idx ≠ n0 := pin_idx_ne e.title none e0.title none (Or.inl hne)
                cs n0 idx i0e i0 pin0 hf
              have hcsnd := cs_ids_nodup pid cs w hI
              have hneid := nodup_map_get_ne (fun i => i.id) cs n0 idx i0e i0 hcsnd
                (findWithIdx_get _ cs n0 i0e pin0).1 hg0 (fun hh => hnn hh.symm)
              rw [hid1] at hcon2
              exact hneid hcon2
            have pinsB := hframeS st.title (some i0e.id) ns js (Or.inl hne2) pinsA
            exact ⟨ns, js, pinsB, descs⟩
          · have pinB := hframeS e.title none idx a.1
              (Or.inl (by intro hcon; exact Option.noConfusion hcon)) hpin1
            exact ⟨idx, a.1, pinB, he, hgoodS⟩

theorem epicLoop_run1 (spec : ProjectSpec) (pid tid cu : String) :
    ∀ (epics : List EpicSpec) (cs : List Issue) (w : World) (cs1 : List Issue)
      (w1 : World) (acts : List SyncAction) (tr : List RemoteCall),
      epicLoop spec pid tid cu epics cs w = .ok (cs1, w1, acts, tr) →
      (epics.map (fun e => e.title)).Nodup →
      (∀ e ∈ epics, (e.stories.map (fun st => st.title)).Nodup) →
      CInv pid cs w →
      CInv pid cs1 w1 ∧ w1.projects = w.projects ∧
      (∀ e0 : EpicSpec, e0.title ∉ epics.map (fun e => e.title) →
        EpicGood cs e0 → EpicGood cs1 e0) ∧
      (∀ e ∈ epics, EpicGood cs1 e) := by
  intro epics
  induction epics with
  | nil =>
    intro cs w cs1 w1 acts tr h _ _ hI
    simp only [epicLoop] at h
    injection h with h2
    injection h2 with hA h3
    injection h3 with hB h4
    injection h4 with hC hD
    subst hA; subst hB
    exact ⟨hI, rfl, fun e0 _ hg => hg, fun e he => absurd he (List.not_mem_nil e)⟩
  | cons e rest ih =>
    intro cs w cs1 w1 acts tr h hnd hstnd hI
    simp only [epicLoop] at h
    match hpe : processEpic spec pid tid cu e cs w with
    | .error er =>
      simp only [hpe] at h
      exact Except.noConfusion h
    | .ok q =>
      obtain ⟨csA, wA, actsA, trA⟩ := q
      simp only [hpe] at h
      match hel : epicLoop spec pid tid cu rest csA wA with
      | .error er =>
        simp only [hel] at h
        exact Except.noConfusion h
      | .ok q2 =>
        obtain ⟨csB, wB, actsB, trB⟩ := q2
        simp only [hel] at h
        injection h with h2
        injection h2 with hA h3
        injection h3 with hB h4
        injection h4 with hC hD
        subst hA; subst hB
        obtain ⟨hIA, hprojA, hpresA, hgoodA⟩ :=
          processEpic_run1 spec pid tid cu e cs w csA wA actsA trA hpe
            (hstnd e (List.mem_cons_self e rest)) hI
        have hnd2 : (e.title ∉ rest.map (fun e2 => e2.title)) ∧
            (rest.map (fun e2 => e2.title)).Nodup := List.nodup_cons.mp (by simpa using hnd)
        obtain ⟨hIB, hprojB, hpresB, hgoodB⟩ :=
          ih csA wA csB wB actsB trB hel hnd2.2
            (fun e2 he2 => hstnd e2 (List.mem_cons_of_mem e he2)) hIA
        refine ⟨hIB, hprojB.trans hprojA, ?_, ?_⟩
        · intro e0 hmem hg0
          have hne : e0.title ≠ e.title := by
            intro heq
            apply hmem
            rw [List.map_cons, heq]
            exact List.mem_cons_self _ _
          have hmem2 : e0.title ∉ rest.map (fun e2 => e2.title) := by
            intro hm
            apply hmem
            rw [List.map_cons]
            exact List.mem_cons_of_mem _ hm
          exact hpresB e0 hmem2 (hpresA e0 hne hg0)
        · intro e2 he2
          rcases List.mem_cons.mp he2 with hd | hmem
          · subst hd
            exact hpresB e2 hnd2.1 hgoodA
          · exact hgoodB e2 hmem

theorem ensureEpics_run1 (spec : ProjectSpec) (p : RemoteProject) (w2 w3 : World)
    (acts : List SyncAction) (tr : List RemoteCall)
    (h : ensureEpicsAndStories spec p w2 = .ok (w3, acts, tr))
    (hd : SpecTitlesDistinct spec) (hI : Inv0 w2) :
    w3.projects = w2.projects ∧ Inv0 w3 ∧
    ∀ e ∈ spec.epics, EpicGood (filterProj p.id w3.issues) e := by
  simp only [ensureEpicsAndStories] at h
  by_cases hemp : spec.epics.isEmpty
  · rw [if_pos hemp] at h
    injection h with h2
    injection h2 with hA h3
    injection h3 with hB hC
    subst hA
    refine ⟨rfl, hI, ?_⟩
    intro e he
    have hnil : spec.epics = [] := by simpa using hemp
    rw [hnil] at he
    exact absurd he (List.not_mem_nil e)
  · rw [if_neg hemp] at h
    match hrt : resolveTeamId w2 p (getIssuesByProjectW w2 p.id) with
    | .error er =>
      simp only [hrt] at h
      exact Except.noConfusion h
    | .ok q =>
      obtain ⟨tid, trT⟩ := q
      simp only [hrt] at h
      match hel : epicLoop spec p.id tid w2.currentUser.id spec.epics
          (getIssuesByProjectW w2 p.id) w2 with
      | .error er =>
        simp only [hel] at h
        exact Except.noConfusion h
      | .ok q2 =>
        obtain ⟨csf, w1x, actsx, trx⟩ := q2
        simp only [hel] at h
        injection h with h2
        injection h2 with hA h3
        injection h3 with hB hC
        subst hA
        have hI0 : CInv p.id (getIssuesByProjectW w2 p.id) w2 := ⟨rfl, hI⟩
        obtain ⟨hIF, hprojF, hpres, hgoodF⟩ := epicLoop_run1 spec p.id tid
          w2.currentUser.id spec.epics (getIssuesByProjectW w2 p.id) w2 csf w1x
          actsx trx hel hd.1 hd.2 hI0
        refine ⟨hprojF, hIF.2, ?_⟩
        intro e he
        exact epicGood_congr csf (filterProj p.id w1x.issues) hIF.1 e (hgoodF e he)

theorem createMissingMilestones_post (pid : String) (names : List String) :
    ∀ (ds : List String) (w w1 : World) (acts : List SyncAction) (tr : List RemoteCall),
      createMissingMilestones pid names ds w = .ok (w1, acts, tr) →
      w1.issues = w.issues ∧ w1.projects.map projHead = w.projects.map projHead ∧
      (Inv0 w → Inv0 w1) := by
  intro ds
  induction ds with
  | nil =>
    intro w w1 acts tr h
    simp only [createMissingMilestones] at h
    injection h with h2
    injection h2 with hA h3
    injection h3 with hB hC
    subst hA
    exact ⟨rfl, rfl, id⟩
  | cons n rest ih =>
    intro w w1 acts tr h
    simp only [createMissingMilestones] at h
    by_cases hct : names.contains n = true
    · rw [if_pos hct] at h
      match hcr : createMissingMilestones pid names rest w with
      | .error e =>
        simp only [hcr] at h
        exact Except.noConfusion h
      | .ok q =>
        obtain ⟨w2, acts2, tr2⟩ := q
        simp only [hcr] at h
        injection h with h2
        injection h2 with hA h3
        injection h3 with hB hC
        subst hA
        exact ih w w2 acts2 tr2 hcr
    · rw [if_neg hct] at h
      cases hcap : w.hasCreateMilestoneFn with
      | false =>
        rw [hcap] at h
        rw [if_pos (by decide)] at h
        exact Except.noConfusion h
      | true =>
        rw [hcap] at h
        rw [if_neg (by decide)] at h
        cases hmk : w.milestoneCreateWorks with
        | true =>
          rw [if_pos hmk] at h
          match hcr : createMissingMilestones pid names rest
              (bumpTag (addMilestoneW w pid ⟨w.freshTag, n⟩)) with
          | .error e =>
            simp only [hcr] at h
            exact Except.noConfusion h
          | .ok q =>
            obtain ⟨w2, acts2, tr2⟩ := q
            simp only [hcr] at h
            injection h with h2
            injection h2 with hA h3
            injection h3 with hB hC
            subst hA
            obtain ⟨hiss, hproj, hinv⟩ := ih _ w2 acts2 tr2 hcr
            refine ⟨hiss, ?_, ?_⟩
            · rw [hproj]
              show (w.projects.map (fun p => if p.id = pid then { p with milestones := p.milestones ++ [⟨w.freshTag, n⟩] } else p)).map projHead = w.projects.map projHead
              exact map_map_pointwise
                (fun p => if p.id = pid then { p with milestones := p.milestones ++ [⟨w.freshTag, n⟩] } else p)
                projHead
                (fun p => by by_cases hp : p.id = pid <;> simp [projHead, hp])
                w.projects
            · intro hw
              apply hinv
              refine ⟨hw.1, ?_⟩
              intro i hi
              exact leadsWith_ext_false w.freshTag "x" i.id (hw.2 i hi)
        | false =>
          rw [if_neg (by rw [hmk]; exact Bool.false_ne_true)] at h
          match hcr : createMissingMilestones pid names rest w with
          | .error e =>
            simp only [hcr] at h
            exact Except.noConfusion h
          | .ok q =>
            obtain ⟨w2, acts2, tr2⟩ := q
            simp only [hcr] at h
            injection h with h2
            injection h2 with hA h3
            injection h3 with hB hC
            subst hA
            exact ih w w2 acts2 tr2 hcr

theorem createMissing_all_exist (pid : String) (names : List String) :
    ∀ (ds : List String) (w : World), (∀ n ∈ ds, names.contains n = true) →
      createMissingMilestones pid names ds w =
        .ok (w, ds.map (fun n => ⟨SyncStatus.Skipped, SyncEntity.milestone, n,
          some "already exists"⟩), []) := by
  intro ds
  induction ds with
  | nil => intro w _; rfl
  | cons n rest ih =>
    intro w hall
    simp only [createMissingMilestones]
    rw [if_pos (hall n (List.mem_cons_self n rest))]
    rw [ih w (fun m hm => hall m (List.mem_cons_of_mem n hm))]
    rfl

theorem firstMissing_none_of (avail : List String) :
    ∀ ds, (∀ n ∈ ds, avail.contains n = true) → firstMissing avail ds = none := by
  intro ds
  induction ds with
  | nil => intro _; rfl
  | cons n rest ih =>
    intro hall
    simp only [firstMissing]
    rw [if_pos (hall n (List.mem_cons_self n rest))]
    exact ih (fun m hm => hall m (List.mem_cons_of_mem n hm))

theorem ensureMilestones_post (spec : ProjectSpec) (p : RemoteProject) (wA wB : World)
    (aM : List SyncAction) (tM : List RemoteCall)
    (h : ensureMilestones spec p wA = .ok (wB, aM, tM)) :
    wB.issues = wA.issues ∧ wB.projects.map projHead = wA.projects.map projHead ∧
    (Inv0 wA → Inv0 wB) ∧
    (collectDesiredMilestoneNames spec ≠ [] → p.hasMilestonesFn = true ∧
      ∀ n ∈ collectDesiredMilestoneNames spec,
        n ∈ (milestonesOf wB p.id).map (fun m => m.name)) := by
  simp only [ensureMilestones] at h
  by_cases hde : (collectDesiredMilestoneNames spec).isEmpty = true
  · rw [if_pos hde] at h
    injection h with h2
    injection h2 with hA h3
    injection h3 with hB hC
    subst hA
    refine ⟨rfl, rfl, id, ?_⟩
    intro hne
    exact absurd (by simpa using hde) hne
  · rw [if_neg hde] at h
    match hg1 : getProjectMilestones wA p true with
    | .error er =>
      simp only [hg1] at h
      exact Except.noConfusion h
    | .ok q1 =>
      obtain ⟨existing, tr1⟩ := q1
      simp only [hg1] at h
      match hcm : createMissingMilestones p.id (existing.map (fun m => m.name))
          (collectDesiredMilestoneNames spec) wA with
      | .error er =>
        simp only [hcm] at h
        exact Except.noConfusion h
      | .ok q2 =>
        obtain ⟨w1m, actsm, tr2⟩ := q2
        simp only [hcm] at h
        match hg2 : getProjectMilestones w1m p true with
        | .error er =>
          simp only [hg2] at h
          exact Except.noConfusion h
        | .ok q3 =>
          obtain ⟨resolved, tr3⟩ := q3
          simp only [hg2] at h
          match hfm : firstMissing (resolved.map (fun m => m.name))
              (collectDesiredMilestoneNames spec) with
          | some nn =>
            simp only [hfm] at h
            exact Except.noConfusion h
          | none =>
            simp only [hfm] at h
            injection h with h2
            injection h2 with hA h3
            injection h3 with hB hC
            subst hA
            obtain ⟨hiss, hproj, hinv⟩ := createMissingMilestones_post p.id
              (existing.map (fun m => m.name)) (collectDesiredMilestoneNames spec)
              wA w1m actsm tr2 hcm
            obtain ⟨hpm, hex⟩ := getProjectMilestones_ok_true wA p existing tr1 hg1
            obtain ⟨hpm2, hres⟩ := getProjectMilestones_ok_true w1m p resolved tr3 hg2
            refine ⟨hiss, hproj, hinv, fun _ => ⟨hpm, ?_⟩⟩
            intro n hn
            have := firstMissing_none (resolved.map (fun m => m.name))
              (collectDesiredMilestoneNames spec) hfm n hn
            rw [← hres]
            exact this

theorem getProjectByNameW_createProject (w : World) (nm de : String)
    (hfind : getProjectByNameW w nm = none) (hnm : jsTrim nm = nm) :
    getProjectByNameW (createProjectW w nm de).2 nm =
      some (createProjectW w nm de).1 := by
  show ((w.projects ++ [(createProjectW w nm de).1]).find?
    (fun q => jsLower q.name = jsLower (jsTrim nm))) = some (createProjectW w nm de).1
  rw [find?_append_none _ w.projects [(createProjectW w nm de).1] hfind]
  rw [List.find?_cons_of_pos]
  show (jsLower (createProjectW w nm de).1.name = jsLower (jsTrim nm) : Bool) = true
  exact decide_eq_true (by rw [hnm]; rfl)

theorem getProjectByNameW_updateDesc (w : World) (nm de : String) (ex : RemoteProject)
    (hfind : getProjectByNameW w nm = some ex) :
    getProjectByNameW (updateProjectDescW w ex.id de) nm =
      some { ex with description := some de } := by
  have hswap := find?_map_pointwise
    (fun q : RemoteProject => if q.id = ex.id then { q with description := some de } else q)
    (fun q : RemoteProject => (jsLower q.name = jsLower (jsTrim nm) : Bool))
    (fun q => by by_cases hq : q.id = ex.id <;> simp [hq]) w.projects
  have hfind2 : w.projects.find?
      (fun q : RemoteProject => (jsLower q.name = jsLower (jsTrim nm) : Bool)) = some ex := hfind
  show (w.projects.map (fun q => if q.id = ex.id then { q with description := some de } else q)).find?
      (fun q : RemoteProject => (jsLower q.name = jsLower (jsTrim nm) : Bool)) =
    some { ex with description := some de }
  rw [hswap, hfind2]
  show some (if ex.id = ex.id then { ex with description := some de } else ex) = _
  rw [if_pos rfl]

theorem ensureProject_post (spec : ProjectSpec) (w : World) (p : RemoteProject)
    (wA : World) (aP : List SyncAction) (tP : List RemoteCall)
    (h : ensureProject spec w = .ok (p, wA, aP, tP)) :
    wA.issues = w.issues ∧ (Inv0 w → Inv0 wA) ∧
    ∃ p1, getProjectByNameW wA (jsTrim spec.projectName) = some p1 ∧
      p1.id = p.id ∧ p1.hasMilestonesFn = p.hasMilestonesFn ∧
      p1.description.getD "" = spec.projectDescription := by
  simp only [ensureProject] at h
  by_cases hnm : jsTrim spec.projectName = ""
  · rw [if_pos hnm] at h
    exact Except.noConfusion h
  · rw [if_neg hnm] at h
    match hfind : getProjectByNameW w (jsTrim spec.projectName) with
    | none =>
      simp only [hfind] at h
      injection h with h2
      injection h2 with hA h3
      injection h3 with hB h4
      injection h4 with hC hD
      subst hA; subst hB
      refine ⟨rfl, ?_, ?_⟩
      · intro hw
        refine ⟨hw.1, ?_⟩
        intro i hi
        exact leadsWith_ext_false w.freshTag "x" i.id (hw.2 i hi)
      · exact ⟨(createProjectW w (jsTrim spec.projectName) spec.projectDescription).1,
          getProjectByNameW_createProject w (jsTrim spec.projectName)
            spec.projectDescription hfind (jsTrim_idem spec.projectName),
          rfl, rfl, rfl⟩
    | some ex =>
      simp only [hfind] at h
      by_cases hde : ex.description.getD "" ≠ spec.projectDescription
      · rw [if_pos hde] at h
        injection h with h2
        injection h2 with hA h3
        injection h3 with hB h4
        injection h4 with hC hD
        subst hA; subst hB
        refine ⟨rfl, fun hw => hw, ?_⟩
        exact ⟨{ ex with description := some spec.projectDescription },
          getProjectByNameW_updateDesc w (jsTrim spec.projectName)
            spec.projectDescription ex hfind, rfl, rfl, rfl⟩
      · rw [if_neg hde] at h
        injection h with h2
        injection h2 with hA h3
        injection h3 with hB h4
        injection h4 with hC hD
        subst hA; subst hB
        exact ⟨rfl, id, ex, hfind, rfl, rfl, not_not.mp hde⟩

theorem processStory_run2 (pid tid cu eid : String) (em : Option String)
    (s : StorySpec) (cs : List Issue) (w : World) (cs1 : List Issue) (w1 : World)
    (acts : List SyncAction) (tr : List RemoteCall)
    (h : processStory pid tid cu eid em s cs w = .ok (cs1, w1, acts, tr))
    (hg : StoryGood cs eid s) :
    cs1.map issueKey4 = cs.map issueKey4 ∧ ∀ a ∈ acts, OkAct a := by
  obtain ⟨idx, j, pin, hdsc⟩ := hg
  simp only [processStory] at h
  match hra : resolveDesiredAssigneeId w s.assignee cu with
  | .error e =>
    simp only [hra] at h
    exact Except.noConfusion h
  | .ok pr =>
    obtain ⟨da, tr0⟩ := pr
    simp only [hra] at h
    simp only [pin] at h
    set a := syncIssueAssignee w j da (jsTruthy s.assignee) SyncEntity.story s.title
      with haa
    have hk1 : issueKey4 a.1 = issueKey4 j := by
      rw [haa]
      exact syncIssueAssignee_key w j da (jsTruthy s.assignee) SyncEntity.story s.title
    have hd1 : a.1.description = j.description :=
      congrArg (fun t : String × Option String × Option String × String => t.2.2.1) hk1
    set dd := ensureManagedMetadata s.description with hdd
    have hcond : ¬ (normalizeDescription a.1.description ≠
        normalizeDescription (some dd)) := by
      rw [hd1]
      exact not_not_intro hdsc
    rw [if_neg hcond] at h
    injection h with h2
    injection h2 with hA h3
    injection h3 with hB h4
    injection h4 with hC hD
    subst hA
    refine ⟨map_k4_set_eq cs idx j a.1 (findWithIdx_get _ cs idx j pin).1 hk1, ?_⟩
    rw [← hC]
    intro x hx
    rcases List.mem_append.mp hx with hx1 | hx2
    · rcases List.mem_append.mp hx1 with hx3 | hx4
      · rw [haa] at hx3
        exact syncIssueAssignee_acts w j da (jsTruthy s.assignee) SyncEntity.story
          s.title (by intro hcon; exact SyncEntity.noConfusion hcon) x hx3
      · rw [List.mem_singleton] at hx4
        subst hx4
        exact okAct_of _ (by intro hcon; exact SyncStatus.noConfusion hcon)
          (by intro hcon; exact SyncEntity.noConfusion hcon)
          (by intro hcon; injection hcon with hc2; exact absurd hc2 (by decide))
    · exact attachWithRecords_acts a.2.1 a.1.id pid SyncEntity.story s.title
        (resolveStoryMilestoneName em s.milestone)
        (by intro hcon; exact SyncEntity.noConfusion hcon) x hx2

theorem storyLoop_run2 (pid tid cu eid : String) (em : Option String) :
    ∀ (stories : List StorySpec) (cs : List Issue) (w : World) (cs1 : List Issue)
      (w1 : World) (acts : List SyncAction) (tr : List RemoteCall),
      storyLoop pid tid cu eid em stories cs w = .ok (cs1, w1, acts, tr) →
      (∀ st ∈ stories, StoryGood cs eid st) →
      cs1.map issueKey4 = cs.map issueKey4 ∧ ∀ a ∈ acts, OkAct a := by
  intro stories
  induction stories with
  | nil =>
    intro cs w cs1 w1 acts tr h _
    simp only [storyLoop] at h
    injection h with h2
    injection h2 with hA h3
    injection h3 with hB h4
    injection h4 with hC hD
    subst hA
    refine ⟨rfl, ?_⟩
    rw [← hC]
    intro x hx
    exact absurd hx (List.not_mem_nil x)
  | cons s rest ih =>
    intro cs w cs1 w1 acts tr h hgood
    simp only [storyLoop] at h
    match hps : processStory pid tid cu eid em s cs w with
    | .error e =>
      simp only [hps] at h
      exact Except.noConfusion h
    | .ok q =>
      obtain ⟨csA, wA, actsA, trA⟩ := q
      simp only [hps] at h
      match hsl : storyLoop pid tid cu eid em rest csA wA with
      | .error e =>
        simp only [hsl] at h
        exact Except.noConfusion h
      | .ok q2 =>
        obtain ⟨csB, wB, actsB, trB⟩ := q2
        simp only [hsl] at h
        injection h with h2
        injection h2 with hA h3
        injection h3 with hB h4
        injection h4 with hC hD
        subst hA
        obtain ⟨hmapA, hactsA⟩ := processStory_run2 pid tid cu eid em s cs w csA wA
          actsA trA hps (hgood s (List.mem_cons_self s rest))
        obtain ⟨hmapB, hactsB⟩ := ih csA wA csB wB actsB trB hsl
          (fun st hst => storyGood_congr cs csA hmapA.symm eid st
            (hgood st (List.mem_cons_of_mem s hst)))
        refine ⟨hmapB.trans hmapA, ?_⟩
        rw [← hC]
        intro x hx
        rcases List.mem_append.mp hx with hx1 | hx2
        · exact hactsA x hx1
        · exact hactsB x hx2

theorem processEpic_run2 (spec : ProjectSpec) (pid tid cu : String) (e : EpicSpec)
    (cs : List Issue) (w : World) (cs1 : List Issue) (w1 : World)
    (acts : List SyncAction) (tr : List RemoteCall)
    (h : processEpic spec pid tid cu e cs w = .ok (cs1, w1, acts, tr))
    (hg : EpicGood cs e) :
    cs1.map issueKey4 = cs.map issueKey4 ∧ ∀ a ∈ acts, OkAct a := by
  obtain ⟨idx, i, pin, hdsc, hst⟩ := hg
  simp only [processEpic] at h
  match hra : resolveDesiredAssigneeId w e.assignee cu with
  | .error er =>
    simp only [hra] at h
    exact Except.noConfusion h
  | .ok pr =>
    obtain ⟨da, tr0⟩ := pr
    simp only [hra] at h
    simp only [pin] at h
    set a := syncIssueAssignee w i da (jsTruthy e.assignee) SyncEntity.epic e.title
      with haa
    have hk1 : issueKey4 a.1 = issueKey4 i := by
      rw [haa]
      exact syncIssueAssignee_key w i da (jsTruthy e.assignee) SyncEntity.epic e.title
    have hd1 : a.1.description = i.description :=
      congrArg (fun t : String × Option String × Option String × String => t.2.2.1) hk1
    have hid1 : a.1.id = i.id :=
      congrArg (fun t : String × Option String × Option String × String => t.2.2.2) hk1
    set dd := ensureManagedMetadata e.description with hdd
    have hcond : ¬ (normalizeDescription a.1.description ≠
        normalizeDescription (some dd)) := by
      rw [hd1]
      exact not_not_intro hdsc
    rw [if_neg hcond] at h
    have hmap1 : (cs.set idx a.1).map issueKey4 = cs.map issueKey4 :=
      map_k4_set_eq cs idx i a.1 (findWithIdx_get _ cs idx i pin).1 hk1
    have hstories : ∀ st ∈ e.stories, StoryGood (cs.set idx a.1) a.1.id st := by
      intro st hstm
      rw [hid1]
      exact storyGood_congr cs (cs.set idx a.1) hmap1.symm i.id st (hst st hstm)
    match hsl : storyLoop pid tid cu a.1.id e.milestone e.stories (cs.set idx a.1)
        (attachWithRecords a.2.1 a.1.id pid SyncEntity.epic e.title
          (resolveEpicMilestoneName spec e)).1 with
    | .error er =>
      simp only [hsl] at h
      exact Except.noConfusion h
    | .ok q2 =>
      obtain ⟨cs2, w3, actsS, trS⟩ := q2
      simp only [hsl] at h
      injection h with h2
      injection h2 with hA h3
      injection h3 with hB h4
      injection h4 with hC hD
      subst hA
      obtain ⟨hmap2, hactsS⟩ := storyLoop_run2 pid tid cu a.1.id e.milestone e.stories
        (cs.set idx a.1) _ cs2 w3 actsS trS hsl hstories
      refine ⟨hmap2.trans hmap1, ?_⟩
      rw [← hC]
      intro x hx
      rcases List.mem_append.mp hx with hx1 | hx4
      · rcases List.mem_append.mp hx1 with hx2 | hx3
        · rcases List.mem_append.mp hx2 with hx5 | hx6
          · rw [haa] at hx5
            exact syncIssueAssignee_acts w i da (jsTruthy e.assignee) SyncEntity.epic
              e.title (by intro hcon; exact SyncEntity.noConfusion hcon) x hx5
          · rw [List.mem_singleton] at hx6
            subst hx6
            exact okAct_of _ (by intro hcon; exact SyncStatus.noConfusion hcon)
              (by intro hcon; exact SyncEntity.noConfusion hcon)
              (by intro hcon; injection hcon with hc2; exact absurd hc2 (by decide))
        · exact attachWithRecords_acts a.2.1 a.1.id pid SyncEntity.epic e.title
            (resolveEpicMilestoneName spec e)
            (by intro hcon; exact SyncEntity.noConfusion hcon) x hx3
      · exact hactsS x hx4

theorem epicLoop_run2 (spec : ProjectSpec) (pid tid cu : String) :
    ∀ (epics : List EpicSpec) (cs : List Issue) (w : World) (cs1 : List Issue)
      (w1 : World) (acts : List SyncAction) (tr : List RemoteCall),
      epicLoop spec pid tid cu epics cs w = .ok (cs1, w1, acts, tr) →
      (∀ e ∈ epics, EpicGood cs e) →
      cs1.map issueKey4 = cs.map issueKey4 ∧ ∀ a ∈ acts, OkAct a := by
  intro epics
  induction epics with
  | nil =>
    intro cs w cs1 w1 acts tr h _
    simp only [epicLoop] at h
    injection h with h2
    injection h2 with hA h3
    injection h3 with hB h4
    injection h4 with hC hD
    subst hA
    refine ⟨rfl, ?_⟩
    rw [← hC]
    intro x hx
    exact absurd hx (List.not_mem_nil x)
  | cons e rest ih =>
    intro cs w cs1 w1 acts tr h hgood
    simp only [epicLoop] at h
    match hpe : processEpic spec pid tid cu e cs w with
    | .error er =>
      simp only [hpe] at h
      exact Except.noConfusion h
    | .ok q =>
      obtain ⟨csA, wA, actsA, trA⟩ := q
      simp only [hpe] at h
      match hel : epicLoop spec pid tid cu rest csA wA with
      | .error er =>
        simp only [hel] at h
        exact Except.noConfusion h
      | .ok q2 =>
        obtain ⟨csB, wB, actsB, trB⟩ := q2
        simp only [hel] at h
        injection h with h2
        injection h2 with hA h3
        injection h3 with hB h4
        injection h4 with hC hD
        subst hA
        obtain ⟨hmapA, hactsA⟩ := processEpic_run2 spec pid tid cu e cs w csA wA
          actsA trA hpe (hgood e (List.mem_cons_self e rest))
        obtain ⟨hmapB, hactsB⟩ := ih csA wA csB wB actsB trB hel
          (fun e2 he2 => epicGood_congr cs csA hmapA.symm e2
            (hgood e2 (List.mem_cons_of_mem e he2)))
        refine ⟨hmapB.trans hmapA, ?_⟩
        rw [← hC]
        intro x hx
        rcases List.mem_append.mp hx with hx1 | hx2
        · exact hactsA x hx1
        · exact hactsB x hx2

theorem ensureEpics_run2 (spec : ProjectSpec) (q : RemoteProject) (w w3 : World)
    (acts : List SyncAction) (tr : List RemoteCall)
    (h : ensureEpicsAndStories spec q w = .ok (w3, acts, tr))
    (hg : ∀ e ∈ spec.epics, EpicGood (filterProj q.id w.issues) e) :
    ∀ a ∈ acts, OkAct a := by
  simp only [ensureEpicsAndStories] at h
  by_cases hemp : spec.epics.isEmpty
  · rw [if_pos hemp] at h
    injection h with h2
    injection h2 with hA h3
    injection h3 with hB hC
    rw [← hB]
    intro x hx
    exact absurd hx (List.not_mem_nil x)
  · rw [if_neg hemp] at h
    match hrt : resolveTeamId w q (getIssuesByProjectW w q.id) with
    | .error er =>
      simp only [hrt] at h
      exact Except.noConfusion h
    | .ok q1 =>
      obtain ⟨tid, trT⟩ := q1
      simp only [hrt] at h
      match hel : epicLoop spec q.id tid w.currentUser.id spec.epics
          (getIssuesByProjectW w q.id) w with
      | .error er =>
        simp only [hel] at h
        exact Except.noConfusion h
      | .ok q2 =>
        obtain ⟨csf, w1x, actsx, trx⟩ := q2
        simp only [hel] at h
        injection h with h2
        injection h2 with hA h3
        injection h3 with hB hC
        rw [← hB]
        obtain ⟨hmap, hacts⟩ := epicLoop_run2 spec q.id tid w.currentUser.id spec.epics
          (getIssuesByProjectW w q.id) w csf w1x actsx trx hel hg
        exact hacts

theorem ensureMilestones_run2 (spec : ProjectSpec) (q : RemoteProject) (w : World)
    (hc : ∀ n ∈ collectDesiredMilestoneNames spec,
      n ∈ (milestonesOf w q.id).map (fun m => m.name))
    (hm : collectDesiredMilestoneNames spec ≠ [] → q.hasMilestonesFn = true) :
    ∃ aM tM, ensureMilestones spec q w = .ok (w, aM, tM) ∧
      ∀ a ∈ aM, a.status = SyncStatus.Skipped ∧ a.reason = some "already exists" := by
  by_cases hde : (collectDesiredMilestoneNames spec).isEmpty = true
  · refine ⟨[], [], ?_, ?_⟩
    · simp only [ensureMilestones]
      rw [if_pos hde]
    · intro a ha
      exact absurd ha (List.not_mem_nil a)
  · have hne : collectDesiredMilestoneNames spec ≠ [] := by
      intro hcon
      apply hde
      rw [hcon]
      rfl
    have hqm : q.hasMilestonesFn = true := hm hne
    have hg : getProjectMilestones w q true =
        .ok (milestonesOf w q.id, [.fetchProjectMilestones q.id]) := by
      simp [getProjectMilestones, hqm]
    have hcontains : ∀ n ∈ collectDesiredMilestoneNames spec,
        ((milestonesOf w q.id).map (fun m => m.name)).contains n = true := by
      intro n hn
      simpa using hc n hn
    have hcm := createMissing_all_exist q.id
      ((milestonesOf w q.id).map (fun m => m.name))
      (collectDesiredMilestoneNames spec) w hcontains
    have hfm := firstMissing_none_of ((milestonesOf w q.id).map (fun m => m.name))
      (collectDesiredMilestoneNames spec) hcontains
    refine ⟨(collectDesiredMilestoneNames spec).map (fun n =>
      ⟨SyncStatus.Skipped, SyncEntity.milestone, n, some "already exists"⟩),
      [RemoteCall.fetchProjectMilestones q.id] ++ [] ++
        [RemoteCall.fetchProjectMilestones q.id], ?_, ?_⟩
    · simp only [ensureMilestones]
      rw [if_neg hde]
      simp only [hg, hcm, hfm]
    · intro a ha
      obtain ⟨n, hn, hae⟩ := List.mem_map.mp ha
      rw [← hae]
      exact ⟨rfl, rfl⟩

/-- C1 amended: for a valid spec whose epic titles are pairwise distinct (and
story titles distinct within each epic), against a well-formed remote state,
if the sync runs twice successfully with no intervening remote change, the
second run emits zero Created records and no Updated description decision:
the project record and every epic/story description decision is Skipped. -/
theorem c1_amended (spec : ProjectSpec) (w w1 w2 : World)
    (r1 r2 : List SyncAction) (t1 t2 : List RemoteCall)
    (hv : SpecValid spec = true) (hd : SpecTitlesDistinct spec) (hw : WorldOk w)
    (h1 : syncProject spec w = .ok (w1, r1, t1))
    (h2 : syncProject spec w1 = .ok (w2, r2, t2)) :
    ∀ a ∈ r2, a.status ≠ SyncStatus.Created ∧ ¬ DescUpdated a := by
  have hnm : jsTrim spec.projectName ≠ "" := by
    have hv2 := hv
    simp [SpecValid] at hv2
    exact hv2.1.1
  simp only [syncProject] at h1
  match hEP : ensureProject spec w with
  | .error e =>
    simp only [hEP] at h1
    exact Except.noConfusion h1
  | .ok q1 =>
    obtain ⟨p, wA, aP, tP⟩ := q1
    simp only [hEP] at h1
    match hEM : ensureMilestones spec p wA with
    | .error e =>
      simp only [hEM] at h1
      exact Except.noConfusion h1
    | .ok q2 =>
      obtain ⟨wB, aM, tM⟩ := q2
      simp only [hEM] at h1
      match hEE : ensureEpicsAndStories spec p wB with
      | .error e =>
        simp only [hEE] at h1
        exact Except.noConfusion h1
      | .ok q3 =>
        obtain ⟨wC, aE, tE⟩ := q3
        simp only [hEE] at h1
        injection h1 with h1b
        injection h1b with hW hRT
        injection hRT with hR hT
        subst hW
        obtain ⟨hissA, hinvA, p1, hfind1, hid1, hm1, hde1⟩ :=
          ensureProject_post spec w p wA aP tP hEP
        obtain ⟨hissB, hprojB, hinvB, hmilB⟩ :=
          ensureMilestones_post spec p wA wB aM tM hEM
        obtain ⟨hprojC, hinvC, hgoods⟩ :=
          ensureEpics_run1 spec p wB wC aE tE hEE hd (hinvB (hinvA ⟨hw.1, hw.2.1⟩))
        have hmapped := find?_congr_proj projHead
          (fun t : String × String × Option String × Bool =>
            (jsLower t.2.1 = jsLower (jsTrim (jsTrim spec.projectName)) : Bool))
          wC.projects wA.projects (by rw [hprojC]; exact hprojB)
        have h1x : Option.map projHead (getProjectByNameW wC (jsTrim spec.projectName)) =
            Option.map projHead (getProjectByNameW wA (jsTrim spec.projectName)) := hmapped
        rw [hfind1] at h1x
        simp only [Option.map_some'] at h1x
        obtain ⟨qq, hfindC, hqhead⟩ := Option.map_eq_some'.mp h1x
        have hqid : qq.id = p1.id :=
          congrArg (fun t : String × String × Option String × Bool => t.1) hqhead
        have hqdesc : qq.description = p1.description :=
          congrArg (fun t : String × String × Option String × Bool => t.2.2.1) hqhead
        have hqm : qq.hasMilestonesFn = p1.hasMilestonesFn :=
          congrArg (fun t : String × String × Option String × Bool => t.2.2.2) hqhead
        have hdeq : qq.description.getD "" = spec.projectDescription := by
          rw [hqdesc]
          exact hde1
        have hEP2 : ensureProject spec wC = .ok (qq, wC,
            [⟨SyncStatus.Skipped, SyncEntity.project, jsTrim spec.projectName,
              some "description unchanged"⟩],
            [.getProjectByName (jsTrim spec.projectName)]) := by
          simp only [ensureProject]
          rw [if_neg hnm]
          simp only [hfindC]
          rw [if_neg (not_not_intro hdeq)]
        have hqidp : qq.id = p.id := hqid.trans hid1
        have hpm_fact : collectDesiredMilestoneNames spec ≠ [] →
            qq.hasMilestonesFn = true := by
          intro hne
          rw [hqm, hm1]
          exact (hmilB hne).1
        have hcont : ∀ n ∈ collectDesiredMilestoneNames spec,
            n ∈ (milestonesOf wC qq.id).map (fun m => m.name) := by
          intro n hn
          have hne : collectDesiredMilestoneNames spec ≠ [] := by
            intro hcon
            rw [hcon] at hn
            exact absurd hn (List.not_mem_nil n)
          rw [hqidp, milestonesOf_proj_eq wB wC hprojC p.id]
          exact (hmilB hne).2 n hn
        obtain ⟨aM2, tM2, hEM2, hskipM⟩ := ensureMilestones_run2 spec qq wC hcont hpm_fact
        simp only [syncProject] at h2
        simp only [hEP2] at h2
        simp only [hEM2] at h2
        match hEE2 : ensureEpicsAndStories spec qq wC with
        | .error e =>
          simp only [hEE2] at h2
          exact Except.noConfusion h2
        | .ok q4 =>
          obtain ⟨wD, aE2, tE2⟩ := q4
          simp only [hEE2] at h2
          injection h2 with h2b
          injection h2b with hW2 hRT2
          injection hRT2 with hR2 hT2
          have hgoods2 : ∀ e ∈ spec.epics, EpicGood (filterProj qq.id wC.issues) e := by
            intro e he
            rw [hqidp]
            exact hgoods e he
          have hEacts := ensureEpics_run2 spec qq wC wD aE2 tE2 hEE2 hgoods2
          rw [← hR2]
          intro a ha
          rcases List.mem_append.mp ha with ha1 | ha2
          · rcases List.mem_append.mp ha1 with ha3 | ha4
            · rw [List.mem_singleton] at ha3
              subst ha3
              exact okAct_of _ (by intro hcon; exact SyncStatus.noConfusion hcon)
                (by intro _ hcon; exact SyncStatus.noConfusion hcon)
                (by intro hcon; injection hcon with hc2; exact absurd hc2 (by decide))
            · obtain ⟨hsk, hreason⟩ := hskipM a ha4
              refine okAct_of a ?_ ?_ ?_
              · rw [hsk]
                intro hcon
                exact SyncStatus.noConfusion hcon
              · intro _
                rw [hsk]
                intro hcon
                exact SyncStatus.noConfusion hcon
              · rw [hreason]
                intro hcon
                injection hcon with hc2
                exact absurd hc2 (by decide)
          · exact hEacts a ha2

/-- C1 amended, witness: a valid spec with no epics against a world already
holding the project with the desired description; both runs succeed, the
second run consists of the single Skipped project record, and the theorem
applies to that record. -/
theorem c1_amended_witness :
    (⟨SyncStatus.Skipped, SyncEntity.project, "P", some "description unchanged"⟩
      : SyncAction).status ≠ SyncStatus.Created ∧
    ¬ DescUpdated ⟨SyncStatus.Skipped, SyncEntity.project, "P",
      some "description unchanged"⟩ :=
  c1_amended c1WitSpec c1World c1World c1World
    [⟨SyncStatus.Skipped, SyncEntity.project, "P", some "description unchanged"⟩]
    [⟨SyncStatus.Skipped, SyncEntity.project, "P", some "description unchanged"⟩]
    [.getProjectByName "P"] [.getProjectByName "P"]
    (by decide)
    ⟨by decide, fun e he => absurd he (List.not_mem_nil e)⟩
    ⟨by decide, by decide, by decide⟩
    (by decide) (by decide)
    ⟨SyncStatus.Skipped, SyncEntity.project, "P", some "description unchanged"⟩
    (List.mem_singleton.mpr rfl)

end LinearEngine
